import Mathlib

/-!
# Glyph outline decomposition (modules-1.0/luafreetype.cpp)

A shallow embedding of `copyglyphoutline` and of the tag classifiers `isi`,
`isq`, `isc`, followed by theorems about the path commands they produce.

Modelling conventions.

* `FT_Pos` coordinates are `Int`s that stand for 64-bit `signed long` values.
  The only arithmetic on coordinates is the sum of two of them in `midpoint`;
  it wraps around at 64 bits (`wrapLong`). Raw tags and the C++ `int` counters
  are unbounded `Int`: the counters are bounded by the 16-bit outline indices.
* C++ `%` and `/` truncate toward zero: they are `Int.tmod` and `Int.tdiv`.
* `tag & 0x1` and `tag & 0x2`, used as truth values, test bit 0 and bit 1 of
  the two's complement representation: `Int.testBit tag 0`, `Int.testBit tag 1`.
* The Lua table filled through `lua_rawseti` at `cmdidx++` is kept as the list
  of commands written so far; each helper `moveto`, `lineto`, ... appends its
  command.
* `luaL_error` does not return: it is `Except.error`. Behaviour that C++ leaves
  undefined (a negative subscript into the 4-slot window, reading a window
  point never written in the current contour, a subscript outside the
  outline arrays) is reported as an error of its own, never given a value.
-/

namespace LuaFreetype

/-- A point of the outline, in font design units (`FT_Vector`). -/
structure FT_Vector where
  x : Int
  y : Int
deriving DecidableEq, Repr

/-- The fields of `FT_Outline` that `copyglyphoutline` reads: `contours[i]` is
the index, in `points` and `tags`, of the last point of contour `i`. -/
structure FT_Outline where
  n_contours : Int
  points : List FT_Vector
  tags : List Int
  contours : List Int
deriving DecidableEq, Repr

/-- One path command, as written by the helpers `moveto`, `lineto`, `quadto`,
`cubicto`, `closepath`. -/
inductive Cmd where
  | move_to_abs (p0 : FT_Vector)
  | line_to_abs (p0 : FT_Vector)
  | quad_to_abs (p0 p1 : FT_Vector)
  | cubic_to_abs (p0 p1 p2 : FT_Vector)
  | close_path
deriving DecidableEq, Repr

/-- The ways a run of `copyglyphoutline` ends without a table: the three
`luaL_error` calls, and the three kinds of undefined behaviour. -/
inductive Err where
  | illformedQuadratic
  | illformedCubic
  | unknownControlTag
  | windowIndex
  | uninitialisedPoint
  | outlineIndex
deriving DecidableEq, Repr

/-- The constant `INT_MAX` of `<climits>`, for a 32-bit `int`. -/
def INT_MAX : Int := 2147483647

/-- On-curve: `tag & 0x1`. -/
def isi (tag : Int) : Bool := tag.testBit 0

/-- Quadratic control: `!(tag & 0x1) && !(tag & 0x2)`. -/
def isq (tag : Int) : Bool := !tag.testBit 0 && !tag.testBit 1

/-- Cubic control: `!(tag & 0x1) && (tag & 0x2)`. -/
def isc (tag : Int) : Bool := !tag.testBit 0 && tag.testBit 1

/-- The helper `moveto`, on the command list. -/
def moveto (out : List Cmd) (p0 : FT_Vector) : List Cmd := out ++ [Cmd.move_to_abs p0]

/-- The helper `lineto`, on the command list. -/
def lineto (out : List Cmd) (p0 : FT_Vector) : List Cmd := out ++ [Cmd.line_to_abs p0]

/-- The helper `quadto`, on the command list. -/
def quadto (out : List Cmd) (p0 p1 : FT_Vector) : List Cmd := out ++ [Cmd.quad_to_abs p0 p1]

/-- The helper `cubicto`, on the command list. -/
def cubicto (out : List Cmd) (p0 p1 p2 : FT_Vector) : List Cmd :=
  out ++ [Cmd.cubic_to_abs p0 p1 p2]

/-- The helper `closepath`, on the command list. -/
def closepath (out : List Cmd) : List Cmd := out ++ [Cmd.close_path]

/-- The subscript `k % 4` into `p` or `tag`: C++ remainder has the sign of `k`,
and a negative subscript is outside the array. -/
def slot (k : Int) : Except Err Nat :=
  if 0 ≤ Int.tmod k 4 then .ok (Int.tmod k 4).toNat else .error Err.windowIndex

/-- A read `a[k]` of one of the outline arrays. -/
def fetch {α : Type} (a : List α) (k : Int) : Except Err α :=
  if 0 ≤ k then
    match a[k.toNat]? with
    | some v => .ok v
    | none => .error Err.outlineIndex
  else .error Err.outlineIndex

/-- The locals of `copyglyphoutline` inside one contour: the window `p`
(a slot is `none` until written), the window `tag`, the running point index
`j`, and the commands written so far. -/
structure Frame where
  p : Nat → Option FT_Vector
  tag : Nat → Int
  j : Int
  out : List Cmd

/-- The read `p[k % 4]`. -/
def Frame.getP (s : Frame) (k : Int) : Except Err FT_Vector :=
  match slot k with
  | .ok n =>
    match s.p n with
    | some v => .ok v
    | none => .error Err.uninitialisedPoint
  | .error e => .error e

/-- The read `tag[k % 4]`. -/
def Frame.getTag (s : Frame) (k : Int) : Except Err Int :=
  match slot k with
  | .ok n => .ok (s.tag n)
  | .error e => .error e

/-- The write `p[k % 4] = v`. -/
def Frame.setP (s : Frame) (k : Int) (v : FT_Vector) : Except Err Frame :=
  match slot k with
  | .ok n => .ok { s with p := fun m => if m = n then some v else s.p m }
  | .error e => .error e

/-- The write `tag[k % 4] = t`. -/
def Frame.setTag (s : Frame) (k : Int) (t : Int) : Except Err Frame :=
  match slot k with
  | .ok n => .ok { s with tag := fun m => if m = n then t else s.tag m }
  | .error e => .error e

/-- The value is representable in `FT_Pos`, a `signed long` of 64 bits. -/
def fitsLong (v : Int) : Bool :=
  decide (-9223372036854775808 ≤ v) && decide (v ≤ 9223372036854775807)

/-- The result of `FT_Pos` arithmetic whose exact value is `v`: the value
itself when it is representable, and the two's complement wrap-around of the
compiled code when it is not (C++ leaves that case undefined). -/
def wrapLong (v : Int) : Int :=
  (v + 9223372036854775808) % 18446744073709551616 - 9223372036854775808

/-- The midpoint `pm` of two quadratic controls (lines 173-175): per
coordinate the `FT_Pos` sum, then the division by 2 truncating toward zero. -/
def midpoint (a b : FT_Vector) : FT_Vector :=
  { x := Int.tdiv (wrapLong (a.x + b.x)) 2, y := Int.tdiv (wrapLong (a.y + b.y)) 2 }

/-- The transition table of the inner loop (lines 166-193), run after point
`j` has been stored in the window. -/
def transition (s : Frame) : Except Err Frame := do
  let tprev ← s.getTag (s.j - 1)
  if isi tprev then
    let tcur ← s.getTag s.j
    if isi tcur then
      let pj ← s.getP s.j
      pure { s with out := lineto s.out pj }
    else pure s
  else if isq tprev then
    let tcur ← s.getTag s.j
    if isi tcur then
      let pprev ← s.getP (s.j - 1)
      let pj ← s.getP s.j
      pure { s with out := quadto s.out pprev pj }
    else if isq tcur then
      let pprev ← s.getP (s.j - 1)
      let pj ← s.getP s.j
      let pm := midpoint pprev pj
      let s1 : Frame := { s with out := quadto s.out pprev pm }
      let s2 ← s1.setP (s.j - 1) pm
      s2.setTag (s.j - 1) 1
    else throw Err.illformedQuadratic
  else if isc tprev then
    let tcur ← s.getTag s.j
    if isi tcur then
      let t2 ← s.getTag (s.j - 2)
      if isc t2 then
        let t3 ← s.getTag (s.j - 3)
        if isi t3 then
          let p2 ← s.getP (s.j - 2)
          let p1 ← s.getP (s.j - 1)
          let pj ← s.getP s.j
          pure { s with out := cubicto s.out p2 p1 pj }
        else throw Err.illformedCubic
      else throw Err.illformedCubic
    else pure s
  else throw Err.unknownControlTag

/-- One iteration of the inner loop (lines 164-194) for the outline entries
`pj = outline.points[j]` and `tj = outline.tags[j]`. -/
def step (pj : FT_Vector) (tj : Int) (s : Frame) : Except Err Frame := do
  let s1 ← s.setP s.j pj
  let s2 ← s1.setTag s.j tj
  let s3 ← transition s2
  pure { s3 with j := s3.j + 1 }

/-- The inner loop `while (j <= outline.contours[i])` (lines 163-195); the
first argument bounds the number of iterations. -/
def innerLoop (o : FT_Outline) (i : Int) : Nat → Frame → Except Err Frame
  | 0, s => .ok s
  | n + 1, s => do
    let e ← fetch o.contours i
    if s.j ≤ e then
      let pj ← fetch o.points s.j
      let tj ← fetch o.tags s.j
      let s1 ← step pj tj s
      innerLoop o i n s1
    else pure s

/-- The emission of the closing segment (lines 199-206), run after the
closing point has been stored in the window at subscript `j`. -/
def closeSegment (s : Frame) : Except Err Frame := do
  let tprev ← s.getTag (s.j - 1)
  if isi tprev then
    let pj ← s.getP s.j
    pure { s with out := lineto s.out pj }
  else if isq tprev then
    let pprev ← s.getP (s.j - 1)
    let pj ← s.getP s.j
    pure { s with out := quadto s.out pprev pj }
  else if isc tprev then
    let p2 ← s.getP (s.j - 2)
    let p1 ← s.getP (s.j - 1)
    let pj ← s.getP s.j
    pure { s with out := cubicto s.out p2 p1 pj }
  else pure s

/-- The closing segment back to the first point `p0` (lines 196-206): the
closing point is stored with the on-curve tag 1, then the segment is emitted. -/
def closing (p0 : FT_Vector) (s : Frame) : Except Err Frame := do
  let s1 ← s.setP s.j p0
  let s2 ← s1.setTag s.j 1
  closeSegment s2

/-- The number of iterations the inner loop makes from index `j` when the
contour ends at index `e`: `j` grows by one each time and `e` is fixed. -/
def iterations (e j : Int) : Nat := (e + 1 - j).toNat

/-- The body of the outer loop (lines 157-208) for contour `i`, entered with
running point index `j` and the commands `out` of the earlier contours. It
returns the running index and the commands after the contour. -/
def contour (o : FT_Outline) (i j : Int) (out : List Cmd) :
    Except Err (Int × List Cmd) := do
  let s0 : Frame := { p := fun _ => none, tag := fun _ => INT_MAX, j := j, out := out }
  let p0 ← fetch o.points j
  let s1 ← s0.setP j p0
  let t0 ← fetch o.tags j
  let s2 ← s1.setTag j t0
  let pj ← s2.getP j
  let s3 : Frame := { s2 with out := moveto s2.out pj, j := j + 1 }
  let e ← fetch o.contours i
  let s4 ← innerLoop o i (iterations e s3.j) s3
  let s5 ← closing p0 s4
  pure (s5.j, closepath s5.out)

/-- The outer loop `while (i < outline.n_contours)` (lines 156-209); the
first argument bounds the number of iterations. -/
def outerLoop (o : FT_Outline) : Nat → Int → Int → List Cmd → Except Err (List Cmd)
  | 0, _, _, out => .ok out
  | n + 1, i, j, out =>
    if i < o.n_contours then do
      let r ← contour o i j out
      outerLoop o n (i + 1) r.1 r.2
    else .ok out

/-- The function `copyglyphoutline` (lines 152-210): the commands written into
the table, or the way the run ends without one. -/
def copyglyphoutline (o : FT_Outline) : Except Err (List Cmd) :=
  outerLoop o o.n_contours.toNat 0 0 []

/-- A contour as the ordered list of its points with their raw tags. -/
abbrev Contour := List (FT_Vector × Int)

/-- The end indices `contours[i]` of contours laid out one after another
from point index `start`. -/
def endIndices : Int → List Contour → List Int
  | _, [] => []
  | start, c :: cs => (start + c.length - 1) :: endIndices (start + c.length) cs

/-- The outline whose contours are `cs`, in order. -/
def mkOutline (cs : List Contour) : FT_Outline :=
  { n_contours := cs.length
    points := cs.flatten.map Prod.fst
    tags := cs.flatten.map Prod.snd
    contours := endIndices 0 cs }

/-- Shorthand for a point. -/
def pt (x y : Int) : FT_Vector := { x := x, y := y }

/-- The contour `c` occupies the points `j .. j + c.length - 1` of the outline
and is its contour number `i`. -/
def ContourAt (o : FT_Outline) (i j : Nat) (c : Contour) : Prop :=
  o.contours[i]? = some ((j : Int) + c.length - 1) ∧
  (o.points.drop j).take c.length = c.map Prod.fst ∧
  (o.tags.drop j).take c.length = c.map Prod.snd

instance (o : FT_Outline) (i j : Nat) (c : Contour) : Decidable (ContourAt o i j c) := by
  unfold ContourAt
  exact inferInstance

/-- A window cell: the point (if written in this contour) and the tag. -/
abbrev Entry := Option FT_Vector × Int

/-- The window as the transition table sees it when point `j` is looked at:
the cells of subscripts `j-1`, `j-2`, `j-3` (`none` where the subscript is
negative) and the commands written so far. -/
structure Hist where
  e1 : Entry
  e2 : Option Entry
  e3 : Option Entry
  out : List Cmd

/-- The tag of a window cell. -/
def cellTag : Option Entry → Except Err Int
  | some e => .ok e.2
  | none => .error Err.windowIndex

/-- The point of a window cell. -/
def cellPt : Option Entry → Except Err FT_Vector
  | some (some v, _) => .ok v
  | some (none, _) => .error Err.uninitialisedPoint
  | none => .error Err.windowIndex

/-- One iteration of the inner loop, on the window seen as its last three
cells. -/
def hstep (pj : FT_Vector) (tj : Int) (h : Hist) : Except Err Hist :=
  if isi h.e1.2 then
    if isi tj then
      .ok { e1 := (some pj, tj), e2 := some h.e1, e3 := h.e2, out := lineto h.out pj }
    else .ok { e1 := (some pj, tj), e2 := some h.e1, e3 := h.e2, out := h.out }
  else if isq h.e1.2 then
    if isi tj then
      match cellPt (some h.e1) with
      | .ok a => .ok { e1 := (some pj, tj), e2 := some h.e1, e3 := h.e2, out := quadto h.out a pj }
      | .error e => .error e
    else if isq tj then
      match cellPt (some h.e1) with
      | .ok a =>
        .ok { e1 := (some pj, tj), e2 := some (some (midpoint a pj), 1), e3 := h.e2,
              out := quadto h.out a (midpoint a pj) }
      | .error e => .error e
    else .error Err.illformedQuadratic
  else if isc h.e1.2 then
    if isi tj then
      match cellTag h.e2 with
      | .ok t2 =>
        if isc t2 then
          match cellTag h.e3 with
          | .ok t3 =>
            if isi t3 then
              match cellPt h.e2, cellPt (some h.e1) with
              | .ok c1, .ok c2 =>
                .ok { e1 := (some pj, tj), e2 := some h.e1, e3 := h.e2,
                      out := cubicto h.out c1 c2 pj }
              | .error e, _ => .error e
              | .ok _, .error e => .error e
            else .error Err.illformedCubic
          | .error e => .error e
        else .error Err.illformedCubic
      | .error e => .error e
    else .ok { e1 := (some pj, tj), e2 := some h.e1, e3 := h.e2, out := h.out }
  else .error Err.unknownControlTag

/-- The inner loop over the remaining points of a contour. -/
def hrun : List (FT_Vector × Int) → Hist → Except Err Hist
  | [], h => .ok h
  | e :: es, h =>
    match hstep e.1 e.2 h with
    | .ok h1 => hrun es h1
    | .error err => .error err

/-- The closing segment, on the window seen as its last three cells. -/
def hclosing (p0 : FT_Vector) (h : Hist) : Except Err (List Cmd) :=
  if isi h.e1.2 then .ok (lineto h.out p0)
  else if isq h.e1.2 then
    match cellPt (some h.e1) with
    | .ok a => .ok (quadto h.out a p0)
    | .error e => .error e
  else if isc h.e1.2 then
    match cellPt h.e2, cellPt (some h.e1) with
    | .ok c1, .ok c2 => .ok (cubicto h.out c1 c2 p0)
    | .error e, _ => .error e
    | .ok _, .error e => .error e
  else .ok h.out

/-- The window after the first point of a contour entered at index `j`: the
cells behind the first point hold the reset tag and no point. -/
def hinit (j : Nat) (p0 : FT_Vector) (t0 : Int) (out : List Cmd) : Hist :=
  { e1 := (some p0, t0)
    e2 := if 1 ≤ j then some (none, INT_MAX) else none
    e3 := if 2 ≤ j then some (none, INT_MAX) else none
    out := moveto out p0 }

/-- The commands after a contour entered at index `j`, computed on the list of
its points. -/
def hcontour (j : Nat) (c : Contour) (out : List Cmd) : Except Err (List Cmd) :=
  match c with
  | [] => .error Err.outlineIndex
  | (p0, t0) :: rest =>
    match hrun rest (hinit j p0 t0 out) with
    | .ok h =>
      match hclosing p0 h with
      | .ok l => .ok (closepath l)
      | .error e => .error e
    | .error e => .error e


/-- The window cell of subscript `k % 4`, `none` where the subscript is negative. -/
def Frame.cell (s : Frame) (k : Int) : Option Entry :=
  if 0 ≤ Int.tmod k 4 then some (s.p (Int.tmod k 4).toNat, s.tag (Int.tmod k 4).toNat)
  else none

/-- The frame after point `j` has been stored in the window (lines 164-165). -/
def Frame.store (s : Frame) (pj : FT_Vector) (tj : Int) : Frame :=
  { p := fun m => if m = (Int.tmod s.j 4).toNat then some pj else s.p m
    tag := fun m => if m = (Int.tmod s.j 4).toNat then tj else s.tag m
    j := s.j
    out := s.out }

/-- The frame `s`, about to look at point `s.j`, shows the window `h`. -/
def Rel (s : Frame) (h : Hist) : Prop :=
  1 ≤ s.j ∧ s.out = h.out ∧ s.cell (s.j - 1) = some h.e1 ∧
    s.cell (s.j - 2) = h.e2 ∧ s.cell (s.j - 3) = h.e3

/-- Two results agree: the same error, or a frame at index `j` showing the
window of the other result. -/
def RelR (j : Int) : Except Err Frame → Except Err Hist → Prop
  | .ok s, .ok h => Rel s h ∧ s.j = j
  | .error e, .error e1 => e = e1
  | _, _ => False

/-- The results of the closing segment agree: the same error, or the same
commands with the running index left at `j`. -/
def RelC (j : Int) : Except Err Frame → Except Err (List Cmd) → Prop
  | .ok s, .ok l => s.out = l ∧ s.j = j
  | .error e, .error e1 => e = e1
  | _, _ => False

/-- The frame after the first point of a contour entered at index `j` has
been stored and its `moveto` written (lines 157-162). -/
def firstFrame (j : Int) (p0 : FT_Vector) (t0 : Int) (out : List Cmd) : Frame :=
  { p := fun m => if m = (Int.tmod j 4).toNat then some p0 else none
    tag := fun m => if m = (Int.tmod j 4).toNat then t0 else INT_MAX
    j := j + 1
    out := moveto out p0 }

/-- The `quad_to_abs` commands of a run of quadratic controls `qs` that ends
at the on-curve point `b`: each control but the last ends at its midpoint with
the next control, the last control ends at `b`. -/
def quadRun : List FT_Vector → FT_Vector → List Cmd
  | [], _ => []
  | [q], b => [Cmd.quad_to_abs q b]
  | q :: q1 :: qs, b => Cmd.quad_to_abs q (midpoint q q1) :: quadRun (q1 :: qs) b

/-- No cubic control of the contour `ct` that is followed by an on-curve point
fails the lookback test of line 184, for a contour entered at point index `j`:
such a control is never the first point; when it is the second point, the first
point is a cubic control and `j ≥ 1` (the cell behind the first point then holds
the reset tag `INT_MAX`, which classifies as on-curve, while for `j = 0` its
subscript is negative); from the third point on, the two points before it are
a cubic control and, before that, an on-curve point. -/
def NoIllFormedCubic (j : Nat) (ct : Contour) : Prop :=
  (∀ x e v, ct = x :: e :: v → isc x.2 = true → isi e.2 = true → False) ∧
  (∀ y x e v, ct = y :: x :: e :: v → isc x.2 = true → isi e.2 = true →
    isc y.2 = true ∧ 1 ≤ j) ∧
  (∀ u z y x e v, ct = u ++ z :: y :: x :: e :: v → isc x.2 = true → isi e.2 = true →
    isc y.2 = true ∧ isi z.2 = true)

/-- The window `h` after the points `past` of a contour entered at index `j`
have been looked at (`past` lists them last first): the newest cell is the last
point; behind a cubic control the older cells still hold the points before it,
or the reset tag where the contour has no such point. -/
def Inv (j : Nat) : List (FT_Vector × Int) → Hist → Prop
  | [], _ => False
  | [x], h =>
    h.e1 = (some x.1, x.2) ∧ h.e2 = (if 1 ≤ j then some (none, INT_MAX) else none) ∧
      h.e3 = (if 2 ≤ j then some (none, INT_MAX) else none)
  | [x, y], h =>
    h.e1 = (some x.1, x.2) ∧ (isc x.2 = true → h.e2 = some (some y.1, y.2)) ∧
      h.e3 = (if 1 ≤ j then some (none, INT_MAX) else none)
  | x :: y :: z :: _, h =>
    h.e1 = (some x.1, x.2) ∧ (isc x.2 = true → h.e2 = some (some y.1, y.2)) ∧
      (isc y.2 = true → h.e3 = some (some z.1, z.2))

/-- Two raw tags are classified alike by `isi`, `isq` and `isc`. -/
def sameClass (t u : Int) : Prop := isi t = isi u ∧ isq t = isq u ∧ isc t = isc u

/-- Two window cells hold the same point and tags classified alike. -/
def EntrySim (e f : Entry) : Prop := e.1 = f.1 ∧ sameClass e.2 f.2

/-- Two window cells are both out of range, or both in range and alike. -/
def CellSim : Option Entry → Option Entry → Prop
  | none, none => True
  | some e, some f => EntrySim e f
  | _, _ => False

/-- Two windows are alike cell by cell and hold the same commands. -/
def Sim (h k : Hist) : Prop :=
  EntrySim h.e1 k.e1 ∧ CellSim h.e2 k.e2 ∧ CellSim h.e3 k.e3 ∧ h.out = k.out

/-- Two results of the inner loop are alike: the same error, or like windows. -/
def SimR : Except Err Hist → Except Err Hist → Prop
  | .ok a, .ok b => Sim a b
  | .error e, .error f => e = f
  | _, _ => False

/-- The point at which a drawing command ends; `move_to_abs` and `close_path`
draw nothing. -/
def endPoint : Cmd → Option FT_Vector
  | .line_to_abs e => some e
  | .quad_to_abs _ e => some e
  | .cubic_to_abs _ _ e => some e
  | .move_to_abs _ => none
  | .close_path => none

/-- The point `e` is a point of the contour `ct` tagged on-curve, or the
midpoint of two consecutive quadratic controls of `ct`. -/
def EndOk (ct : Contour) (e : FT_Vector) : Prop :=
  (∃ t, (e, t) ∈ ct ∧ isi t = true) ∨
    ∃ u q1 t1 q2 t2 v, ct = u ++ (q1, t1) :: (q2, t2) :: v ∧ isq t1 = true ∧
      isq t2 = true ∧ e = midpoint q1 q2

/-- The command is a `line_to_abs`, `quad_to_abs` or `cubic_to_abs` that ends
at an on-curve point of `ct` or at the midpoint of two consecutive quadratic
controls of `ct`. -/
def Seg (ct : Contour) (cmd : Cmd) : Prop := ∃ e, endPoint cmd = some e ∧ EndOk ct e

/-- The running point index and the commands after the bodies of the outer
loop for contours `0 .. k-1` have run in order, or the error of the first body
that failed. -/
def contourResults (o : FT_Outline) : Nat → Except Err (Int × List Cmd)
  | 0 => .ok (0, [])
  | k + 1 =>
    match contourResults o k with
    | .ok s => contour o k s.1 s.2
    | .error e => .error e

/-- The outer loop over the list of the contours still to run, entered at
point index `j`: each contour is run on the list of its points. -/
def glyphRun : Nat → List Contour → List Cmd → Except Err (List Cmd)
  | _, [], out => .ok out
  | j, ct :: cs, out =>
    match hcontour j ct out with
    | .ok l => glyphRun (j + ct.length) cs l
    | .error e => .error e

/-- One iteration of the inner loop on the window seen as its last three
cells, with the overwrite of lines 177-178 performed (`ow = true`, as in
`hstep`) or left out (`ow = false`). -/
def hstepW (ow : Bool) (pj : FT_Vector) (tj : Int) (h : Hist) : Except Err Hist :=
  if isi h.e1.2 then
    if isi tj then
      .ok { e1 := (some pj, tj), e2 := some h.e1, e3 := h.e2, out := lineto h.out pj }
    else .ok { e1 := (some pj, tj), e2 := some h.e1, e3 := h.e2, out := h.out }
  else if isq h.e1.2 then
    if isi tj then
      match cellPt (some h.e1) with
      | .ok a => .ok { e1 := (some pj, tj), e2 := some h.e1, e3 := h.e2, out := quadto h.out a pj }
      | .error e => .error e
    else if isq tj then
      match cellPt (some h.e1) with
      | .ok a =>
        .ok { e1 := (some pj, tj),
              e2 := if ow then some (some (midpoint a pj), 1) else some h.e1,
              e3 := h.e2,
              out := quadto h.out a (midpoint a pj) }
      | .error e => .error e
    else .error Err.illformedQuadratic
  else if isc h.e1.2 then
    if isi tj then
      match cellTag h.e2 with
      | .ok t2 =>
        if isc t2 then
          match cellTag h.e3 with
          | .ok t3 =>
            if isi t3 then
              match cellPt h.e2, cellPt (some h.e1) with
              | .ok c1, .ok c2 =>
                .ok { e1 := (some pj, tj), e2 := some h.e1, e3 := h.e2,
                      out := cubicto h.out c1 c2 pj }
              | .error e, _ => .error e
              | .ok _, .error e => .error e
            else .error Err.illformedCubic
          | .error e => .error e
        else .error Err.illformedCubic
      | .error e => .error e
    else .ok { e1 := (some pj, tj), e2 := some h.e1, e3 := h.e2, out := h.out }
  else .error Err.unknownControlTag

/-- Two windows agree on everything the transition table can still read: the
newest cell and the commands, and behind a pending cubic control the cell
before it, and behind two cubic controls the cell before them. -/
def Off (h k : Hist) : Prop :=
  h.e1 = k.e1 ∧ h.out = k.out ∧ (isc h.e1.2 = true → h.e2 = k.e2) ∧
    (isc h.e1.2 = true → ∀ x, h.e2 = some x → isc x.2 = true → h.e3 = k.e3)

/-- Two results of the inner loop agree: the same error, or windows that agree
on what can still be read. -/
def OffR : Except Err Hist → Except Err Hist → Prop
  | .ok a, .ok b => Off a b
  | .error e, .error f => e = f
  | _, _ => False

/-- The window `h` with the commands `o` put in front of its commands. -/
def Hist.shift (o : List Cmd) (h : Hist) : Hist :=
  { e1 := h.e1, e2 := h.e2, e3 := h.e3, out := o ++ h.out }

/-- The decomposition of one contour on its own: `copyglyphoutline` on the
outline that has this contour only. -/
def decompose (ct : Contour) : Except Err (List Cmd) := copyglyphoutline (mkOutline [ct])

/-- The concatenation, in contour order, of the commands of each contour
decomposed on its own; the error of the first contour that fails. -/
def concatBlocks : List Contour → Except Err (List Cmd)
  | [] => .ok []
  | ct :: cs =>
    match decompose ct with
    | .ok b =>
      match concatBlocks cs with
      | .ok l => .ok (b ++ l)
      | .error e => .error e
    | .error e => .error e

/-- The result is not the error of the last `else` branch of the transition
table, `unknown control tag!`. -/
def NoUnknown {α : Type} (r : Except Err α) : Prop := r ≠ .error Err.unknownControlTag

/-- The transition table of the inner loop with lines 177-178 left out: after
two consecutive quadratic controls the window cell of subscript `j-1` keeps
the first control and its tag. Everything else is `transition`. -/
def transitionKeep (s : Frame) : Except Err Frame := do
  let tprev ← s.getTag (s.j - 1)
  if isi tprev then
    let tcur ← s.getTag s.j
    if isi tcur then
      let pj ← s.getP s.j
      pure { s with out := lineto s.out pj }
    else pure s
  else if isq tprev then
    let tcur ← s.getTag s.j
    if isi tcur then
      let pprev ← s.getP (s.j - 1)
      let pj ← s.getP s.j
      pure { s with out := quadto s.out pprev pj }
    else if isq tcur then
      let pprev ← s.getP (s.j - 1)
      let pj ← s.getP s.j
      let pm := midpoint pprev pj
      pure { s with out := quadto s.out pprev pm }
    else throw Err.illformedQuadratic
  else if isc tprev then
    let tcur ← s.getTag s.j
    if isi tcur then
      let t2 ← s.getTag (s.j - 2)
      if isc t2 then
        let t3 ← s.getTag (s.j - 3)
        if isi t3 then
          let p2 ← s.getP (s.j - 2)
          let p1 ← s.getP (s.j - 1)
          let pj ← s.getP s.j
          pure { s with out := cubicto s.out p2 p1 pj }
        else throw Err.illformedCubic
      else throw Err.illformedCubic
    else pure s
  else throw Err.unknownControlTag

/-- One iteration of the inner loop with `transitionKeep` for `transition`. -/
def stepKeep (pj : FT_Vector) (tj : Int) (s : Frame) : Except Err Frame := do
  let s1 ← s.setP s.j pj
  let s2 ← s1.setTag s.j tj
  let s3 ← transitionKeep s2
  pure { s3 with j := s3.j + 1 }

/-- The inner loop with `stepKeep` for `step`. -/
def innerLoopKeep (o : FT_Outline) (i : Int) : Nat → Frame → Except Err Frame
  | 0, s => .ok s
  | n + 1, s => do
    let e ← fetch o.contours i
    if s.j ≤ e then
      let pj ← fetch o.points s.j
      let tj ← fetch o.tags s.j
      let s1 ← stepKeep pj tj s
      innerLoopKeep o i n s1
    else pure s

/-- The body of the outer loop with `innerLoopKeep` for `innerLoop`. -/
def contourKeep (o : FT_Outline) (i j : Int) (out : List Cmd) :
    Except Err (Int × List Cmd) := do
  let s0 : Frame := { p := fun _ => none, tag := fun _ => INT_MAX, j := j, out := out }
  let p0 ← fetch o.points j
  let s1 ← s0.setP j p0
  let t0 ← fetch o.tags j
  let s2 ← s1.setTag j t0
  let pj ← s2.getP j
  let s3 : Frame := { s2 with out := moveto s2.out pj, j := j + 1 }
  let e ← fetch o.contours i
  let s4 ← innerLoopKeep o i (iterations e s3.j) s3
  let s5 ← closing p0 s4
  pure (s5.j, closepath s5.out)

/-- The outer loop with `contourKeep` for `contour`. -/
def outerLoopKeep (o : FT_Outline) : Nat → Int → Int → List Cmd → Except Err (List Cmd)
  | 0, _, _, out => .ok out
  | n + 1, i, j, out =>
    if i < o.n_contours then do
      let r ← contourKeep o i j out
      outerLoopKeep o n (i + 1) r.1 r.2
    else .ok out

/-- The decomposition that never overwrites a window cell: `copyglyphoutline`
with lines 177-178 left out. -/
def copyglyphoutlineKeep (o : FT_Outline) : Except Err (List Cmd) :=
  outerLoopKeep o o.n_contours.toNat 0 0 []

/-- Two frames, one of the run that overwrites and one of the run that does
not, at the same index with windows that agree on what can still be read. -/
def FRel (s k : Frame) : Prop :=
  s.j = k.j ∧ ∃ h h1, Rel s h ∧ Rel k h1 ∧ Off h h1

/-- Two results of the inner loop, one of each run, agree: the same error, or
frames related by `FRel`. -/
def FRelR : Except Err Frame → Except Err Frame → Prop
  | .ok s, .ok k => FRel s k
  | .error e, .error f => e = f
  | _, _ => False

/-- A value stored in the command table: a string (`lua_pushliteral`) or an
integer (`lua_pushinteger`). -/
inductive LuaVal where
  | str (s : String)
  | int (n : Int)
deriving DecidableEq, Repr

/-- The table under construction, as the log of its writes, oldest first. -/
abbrev Table := List (Int × LuaVal)

/-- The write `lua_rawseti(L, tabidx, k)` of the value `v` on top of the stack. -/
def rawseti (t : Table) (k : Int) (v : LuaVal) : Table := t ++ [(k, v)]

/-- The helper `moveto` on the table (lines 54-62): it returns the table and
the new `cmdidx`. -/
def Tab.moveto (t : Table) (cmdidx : Int) (p0 : FT_Vector) : Table × Int :=
  let t := rawseti t cmdidx (LuaVal.str "move_to_abs")
  let cmdidx := cmdidx + 1
  let t := rawseti t cmdidx (LuaVal.int p0.x)
  let cmdidx := cmdidx + 1
  let t := rawseti t cmdidx (LuaVal.int p0.y)
  let cmdidx := cmdidx + 1
  (t, cmdidx)

/-- The helper `lineto` on the table (lines 64-72). -/
def Tab.lineto (t : Table) (cmdidx : Int) (p0 : FT_Vector) : Table × Int :=
  let t := rawseti t cmdidx (LuaVal.str "line_to_abs")
  let cmdidx := cmdidx + 1
  let t := rawseti t cmdidx (LuaVal.int p0.x)
  let cmdidx := cmdidx + 1
  let t := rawseti t cmdidx (LuaVal.int p0.y)
  let cmdidx := cmdidx + 1
  (t, cmdidx)

/-- The helper `quadto` on the table (lines 74-87). -/
def Tab.quadto (t : Table) (cmdidx : Int) (p0 p1 : FT_Vector) : Table × Int :=
  let t := rawseti t cmdidx (LuaVal.str "quad_to_abs")
  let cmdidx := cmdidx + 1
  let t := rawseti t cmdidx (LuaVal.int p0.x)
  let cmdidx := cmdidx + 1
  let t := rawseti t cmdidx (LuaVal.int p0.y)
  let cmdidx := cmdidx + 1
  let t := rawseti t cmdidx (LuaVal.int p1.x)
  let cmdidx := cmdidx + 1
  let t := rawseti t cmdidx (LuaVal.int p1.y)
  let cmdidx := cmdidx + 1
  (t, cmdidx)

/-- The helper `cubicto` on the table (lines 89-106). -/
def Tab.cubicto (t : Table) (cmdidx : Int) (p0 p1 p2 : FT_Vector) : Table × Int :=
  let t := rawseti t cmdidx (LuaVal.str "cubic_to_abs")
  let cmdidx := cmdidx + 1
  let t := rawseti t cmdidx (LuaVal.int p0.x)
  let cmdidx := cmdidx + 1
  let t := rawseti t cmdidx (LuaVal.int p0.y)
  let cmdidx := cmdidx + 1
  let t := rawseti t cmdidx (LuaVal.int p1.x)
  let cmdidx := cmdidx + 1
  let t := rawseti t cmdidx (LuaVal.int p1.y)
  let cmdidx := cmdidx + 1
  let t := rawseti t cmdidx (LuaVal.int p2.x)
  let cmdidx := cmdidx + 1
  let t := rawseti t cmdidx (LuaVal.int p2.y)
  let cmdidx := cmdidx + 1
  (t, cmdidx)

/-- The helper `closepath` on the table (lines 108-112). -/
def Tab.closepath (t : Table) (cmdidx : Int) : Table × Int :=
  let t := rawseti t cmdidx (LuaVal.str "close_path")
  let cmdidx := cmdidx + 1
  (t, cmdidx)

/-- One helper call `cmdidx = helper(L, tabidx, cmdidx, ...)` on the table and
the running `cmdidx`, for the call that the command records. -/
def emit (st : Table × Int) : Cmd → Table × Int
  | .move_to_abs p0 => Tab.moveto st.1 st.2 p0
  | .line_to_abs p0 => Tab.lineto st.1 st.2 p0
  | .quad_to_abs p0 p1 => Tab.quadto st.1 st.2 p0 p1
  | .cubic_to_abs p0 p1 p2 => Tab.cubicto st.1 st.2 p0 p1 p2
  | .close_path => Tab.closepath st.1 st.2

/-- The helper calls of a run in their order, from the empty table and
`cmdidx = 1` (line 154). The `int cmdidx` is an unbounded integer here: a
FreeType outline has fewer than 2^16 points and contours, every command takes
at most seven cells, and so the count stays far from `INT_MAX`. -/
def flatten (l : List Cmd) : Table × Int := l.foldl emit ([], 1)

/-- The table that `copyglyphoutline` fills and the final `cmdidx`. -/
def copyglyphoutlineTab (o : FT_Outline) : Except Err (Table × Int) := do
  let l ← copyglyphoutline o
  pure (flatten l)

/-- The number of scalars a command carries, in the words of the
specification: two for MoveTo and LineTo, four for QuadTo, six for CubicTo,
none for ClosePath. -/
def scalarCount : Cmd → Nat
  | .move_to_abs _ => 2
  | .line_to_abs _ => 2
  | .quad_to_abs _ _ => 4
  | .cubic_to_abs _ _ _ => 6
  | .close_path => 0

/-- A command as its tag followed by its coordinates, in the words of the
specification. -/
def cells : Cmd → List LuaVal
  | .move_to_abs p0 => [.str "move_to_abs", .int p0.x, .int p0.y]
  | .line_to_abs p0 => [.str "line_to_abs", .int p0.x, .int p0.y]
  | .quad_to_abs p0 p1 => [.str "quad_to_abs", .int p0.x, .int p0.y, .int p1.x, .int p1.y]
  | .cubic_to_abs p0 p1 p2 =>
    [.str "cubic_to_abs", .int p0.x, .int p0.y, .int p1.x, .int p1.y, .int p2.x, .int p2.y]
  | .close_path => [.str "close_path"]

/-- The values `vs` written at the consecutive indices `k`, `k+1`, ... -/
def place : Int → List LuaVal → Table
  | _, [] => []
  | k, v :: vs => (k, v) :: place (k + 1) vs

/-- The sum over the commands of one plus the scalar count. -/
def tableSize (l : List Cmd) : Nat := (l.map fun c => 1 + scalarCount c).sum

/-- The inner loop over the list of the remaining points of a contour. -/
def runSteps : List (FT_Vector × Int) → Frame → Except Err Frame
  | [], s => .ok s
  | e :: es, s =>
    match step e.1 e.2 s with
    | .ok s1 => runSteps es s1
    | .error err => .error err

end LuaFreetype

/-! # The pixel buffer (modules-1.0/image.h, image.cpp)

A shallow embedding of `image::RGBA` with `resize`, `get` and `set`. The
`int` arguments are 32 bits wide and `size_t` 64; signed overflow and a
subscript outside a vector are undefined behaviour and are reported as a
`Fault`. Running out of memory is not modelled. -/

namespace image

/-- The ways a call on an `RGBA` ends without a result: undefined behaviour
(signed overflow of an `int` expression, a subscript outside a vector), a
failed `assert`, and the exception of `std::vector::resize`. -/
inductive Fault where
  | intOverflow
  | assertion
  | lengthError
  | outOfRange
deriving DecidableEq, Repr

/-- The value is representable in a 32-bit `int`. -/
def fitsInt (v : Int) : Bool := decide (-2147483648 ≤ v) && decide (v ≤ 2147483647)

/-- The conversion `size_t(v)` of an `int`, for a 64-bit `size_t`. -/
def toSize (v : Int) : Nat := (v % 18446744073709551616).toNat

/-- The bound `max_size()` of a `std::vector<float>` with a 64-bit `size_t`. -/
def max_size : Nat := 2305843009213693951

/-- The class `image::RGBA` (image.h, lines 9-63). The sample type `float` is
the parameter `F`; its zero is the value of a new element. -/
structure RGBA (F : Type) where
  m_width : Int
  m_height : Int
  m_red : List F
  m_green : List F
  m_blue : List F
  m_alpha : List F

/-- The constructor `RGBA(void)` (line 11). -/
def RGBA.empty {F : Type} : RGBA F :=
  { m_width := 0, m_height := 0, m_red := [], m_green := [], m_blue := [], m_alpha := [] }

/-- The accessor `width()` (line 25). -/
def RGBA.width {F : Type} (s : RGBA F) : Int := s.m_width

/-- The accessor `height()` (line 26). -/
def RGBA.height {F : Type} (s : RGBA F) : Int := s.m_height

/-- The call `v.resize(n)` of `std::vector<float>`: the first `n` elements are
kept and zeros are appended up to the length `n`. -/
def vresize {F : Type} [Zero F] (v : List F) (n : Nat) : Except Fault (List F) :=
  if max_size < n then .error Fault.lengthError
  else .ok (v.take n ++ List.replicate (n - v.length) 0)

/-- The method `RGBA::resize` (image.cpp, lines 6-19). -/
def RGBA.resize {F : Type} [Zero F] (s : RGBA F) (width height : Int) :
    Except Fault (RGBA F) := do
  let old_size := s.m_red.length
  if !fitsInt (width * height) then throw Fault.intOverflow
  let size := toSize (width * height)
  if !(old_size == s.m_green.length && old_size == s.m_blue.length &&
      old_size == s.m_alpha.length) then throw Fault.assertion
  if old_size < size || (2 * size) % 18446744073709551616 < old_size then
    let r ← vresize s.m_red size
    let g ← vresize s.m_green size
    let b ← vresize s.m_blue size
    let a ← vresize s.m_alpha size
    pure { m_width := width, m_height := height, m_red := r, m_green := g, m_blue := b,
           m_alpha := a }
  else pure s

/-- The subscript `int i = y*m_width+x` of `get` and `set`, as the `size_t`
that `operator[]` receives. -/
def RGBA.index {F : Type} (s : RGBA F) (x y : Int) : Except Fault Nat :=
  if fitsInt (y * s.m_width) && fitsInt (y * s.m_width + x) then
    .ok (toSize (y * s.m_width + x))
  else .error Fault.intOverflow

/-- The read `v[i]`. -/
def vget {F : Type} (v : List F) (i : Nat) : Except Fault F :=
  match v[i]? with
  | some a => .ok a
  | none => .error Fault.outOfRange

/-- The write `v[i] = a`. -/
def vset {F : Type} (v : List F) (i : Nat) (a : F) : Except Fault (List F) :=
  if i < v.length then .ok (v.set i a) else .error Fault.outOfRange

/-- The method `RGBA::get` with four outputs (image.h, lines 82-89). -/
def RGBA.get {F : Type} (s : RGBA F) (x y : Int) : Except Fault (F × F × F × F) := do
  let i ← s.index x y
  let r ← vget s.m_red i
  let g ← vget s.m_green i
  let b ← vget s.m_blue i
  let a ← vget s.m_alpha i
  pure (r, g, b, a)

/-- The method `RGBA::get` with three outputs (image.h, lines 74-80). -/
def RGBA.getRGB {F : Type} (s : RGBA F) (x y : Int) : Except Fault (F × F × F) := do
  let i ← s.index x y
  let r ← vget s.m_red i
  let g ← vget s.m_green i
  let b ← vget s.m_blue i
  pure (r, g, b)

/-- The method `RGBA::set` (image.h, lines 65-72). -/
def RGBA.set {F : Type} (s : RGBA F) (x y : Int) (r g b a : F) : Except Fault (RGBA F) := do
  let i ← s.index x y
  let vr ← vset s.m_red i r
  let vg ← vset s.m_green i g
  let vb ← vset s.m_blue i b
  let va ← vset s.m_alpha i a
  pure { s with m_red := vr, m_green := vg, m_blue := vb, m_alpha := va }

/-- The image of 4 by 4 zero pixels. -/
def img44 : RGBA Int :=
  { m_width := 4, m_height := 4, m_red := List.replicate 16 0, m_green := List.replicate 16 0,
    m_blue := List.replicate 16 0, m_alpha := List.replicate 16 0 }

/-- The image of 16 by 1 zero pixels. -/
def img16 : RGBA Int :=
  { m_width := 16, m_height := 1, m_red := List.replicate 16 0, m_green := List.replicate 16 0,
    m_blue := List.replicate 16 0, m_alpha := List.replicate 16 0 }

end image

namespace LuaFreetype

/-! ## The Except monad -/

theorem ok_bind {α β : Type} (a : α) (f : α → Except Err β) :
    (Except.ok a >>= f) = f a := rfl

theorem error_bind {α β : Type} (e : Err) (f : α → Except Err β) :
    ((Except.error e : Except Err α) >>= f) = Except.error e := rfl

theorem pure_eq_ok {α : Type} (a : α) : (pure a : Except Err α) = Except.ok a := rfl

theorem throw_eq_error {α : Type} (e : Err) : (throw e : Except Err α) = Except.error e := rfl

/-! ## Window subscripts and cells -/

theorem tmod_nonneg_of_nonneg {k : Int} (h : 0 ≤ k) : 0 ≤ Int.tmod k 4 := by
  rw [Int.tmod_eq_emod h (by decide)]
  exact Int.emod_nonneg k (by decide)

theorem getTag_cell (s : Frame) (k : Int) : s.getTag k = cellTag (s.cell k) := by
  unfold Frame.getTag Frame.cell slot
  by_cases h : 0 ≤ Int.tmod k 4 <;> simp [h, cellTag]

theorem getP_cell (s : Frame) (k : Int) : s.getP k = cellPt (s.cell k) := by
  unfold Frame.getP Frame.cell slot
  by_cases h : 0 ≤ Int.tmod k 4
  · simp only [h, if_true]
    cases hp : s.p (Int.tmod k 4).toNat <;> simp [cellPt]
  · simp [h, cellPt]

theorem setP_of_nonneg (s : Frame) {k : Int} (h : 0 ≤ k) (v : FT_Vector) :
    s.setP k v =
      .ok { s with p := fun m => if m = (Int.tmod k 4).toNat then some v else s.p m } := by
  simp [Frame.setP, slot, tmod_nonneg_of_nonneg h]

theorem setTag_of_nonneg (s : Frame) {k : Int} (h : 0 ≤ k) (t : Int) :
    s.setTag k t =
      .ok { s with tag := fun m => if m = (Int.tmod k 4).toNat then t else s.tag m } := by
  simp [Frame.setTag, slot, tmod_nonneg_of_nonneg h]

theorem slot_distinct {j d : Int} (hj : 0 ≤ j) (h1 : 0 < d) (h2 : d < 4)
    (hv : 0 ≤ Int.tmod (j - d) 4) : (Int.tmod (j - d) 4).toNat ≠ (Int.tmod j 4).toNat := by
  have hcases : 0 ≤ j - d ∨ j - d = -1 ∨ j - d = -2 ∨ j - d = -3 := by omega
  rcases hcases with h | h | h | h
  · rw [Int.tmod_eq_emod h (by decide), Int.tmod_eq_emod hj (by decide)]
    omega
  · rw [h] at hv; exact absurd hv (by decide)
  · rw [h] at hv; exact absurd hv (by decide)
  · rw [h] at hv; exact absurd hv (by decide)

theorem cell_store_same (s : Frame) (pj : FT_Vector) (tj : Int) (h : 0 ≤ s.j) :
    (s.store pj tj).cell s.j = some (some pj, tj) := by
  simp [Frame.cell, Frame.store, tmod_nonneg_of_nonneg h]

theorem cell_store_other (s : Frame) (pj : FT_Vector) (tj : Int) (h : 0 ≤ s.j)
    {d : Int} (h1 : 0 < d) (h2 : d < 4) :
    (s.store pj tj).cell (s.j - d) = s.cell (s.j - d) := by
  unfold Frame.cell Frame.store
  by_cases hv : 0 ≤ Int.tmod (s.j - d) 4
  · simp [hv, slot_distinct h h1 h2 hv]
  · simp [hv]

theorem step_eq (pj : FT_Vector) (tj : Int) (s : Frame) (h : 0 ≤ s.j) :
    step pj tj s =
      match transition (s.store pj tj) with
      | .ok s3 => .ok { s3 with j := s3.j + 1 }
      | .error e => .error e := by
  unfold step
  rw [setP_of_nonneg s h, ok_bind, setTag_of_nonneg _ h, ok_bind]
  show (transition (s.store pj tj) >>= fun s3 => pure _) = _
  cases transition (s.store pj tj) <;> rfl

theorem cell_congr (s s1 : Frame) (k : Int) (hp : s1.p = s.p) (ht : s1.tag = s.tag) :
    s1.cell k = s.cell k := by
  unfold Frame.cell
  rw [hp, ht]

theorem store_j (s : Frame) (pj : FT_Vector) (tj : Int) : (s.store pj tj).j = s.j := rfl

theorem store_out (s : Frame) (pj : FT_Vector) (tj : Int) : (s.store pj tj).out = s.out := rfl

theorem rel_next (f : Frame) (j : Int) (hj : 0 ≤ j) (out : List Cmd) (e1 : Entry)
    (e2 e3 : Option Entry) (hc0 : f.cell j = some e1) (hc1 : f.cell (j - 1) = e2)
    (hc2 : f.cell (j - 2) = e3) :
    Rel { p := f.p, tag := f.tag, j := j + 1, out := out }
      { e1 := e1, e2 := e2, e3 := e3, out := out } := by
  have a1 : j + 1 - 1 = j := by ring
  have a2 : j + 1 - 2 = j - 1 := by ring
  have a3 : j + 1 - 3 = j - 2 := by ring
  refine ⟨by show 1 ≤ j + 1; omega, rfl, ?_, ?_, ?_⟩
  · show Frame.cell _ (j + 1 - 1) = _
    rw [a1, ← hc0]; exact cell_congr _ _ _ rfl rfl
  · show Frame.cell _ (j + 1 - 2) = _
    rw [a2, ← hc1]; exact cell_congr _ _ _ rfl rfl
  · show Frame.cell _ (j + 1 - 3) = _
    rw [a3, ← hc2]; exact cell_congr _ _ _ rfl rfl

theorem isq_not_isi {t : Int} (h : isq t = true) : isi t = false := by
  unfold isq at h; unfold isi
  cases h0 : t.testBit 0 <;> simp_all

theorem isc_not_isi {t : Int} (h : isc t = true) : isi t = false := by
  unfold isc at h; unfold isi
  cases h0 : t.testBit 0 <;> simp_all

theorem isc_not_isq {t : Int} (h : isc t = true) : isq t = false := by
  unfold isc at h; unfold isq
  cases h0 : t.testBit 0 <;> cases h1 : t.testBit 1 <;> simp_all

theorem isq_eq_false_of_isi {t : Int} (h : isi t = true) : isq t = false := by
  unfold isi at h; unfold isq
  simp [h]

theorem isc_eq_false_of_isi {t : Int} (h : isi t = true) : isc t = false := by
  unfold isi at h; unfold isc
  simp [h]

theorem class_total (t : Int) : isi t = true ∨ isq t = true ∨ isc t = true := by
  unfold isi isq isc
  cases h0 : t.testBit 0 <;> cases h1 : t.testBit 1 <;> simp

theorem cell_put_same (f : Frame) (v : FT_Vector) (t : Int) (j : Int) (out : List Cmd)
    {k : Int} (hk : 0 ≤ k) :
    Frame.cell { p := fun m => if m = (Int.tmod k 4).toNat then some v else f.p m
                 tag := fun m => if m = (Int.tmod k 4).toNat then t else f.tag m
                 j := j, out := out } k = some (some v, t) := by
  simp [Frame.cell, tmod_nonneg_of_nonneg hk]

theorem cell_put_other (f : Frame) (v : FT_Vector) (t : Int) (j : Int) (out : List Cmd)
    (n : Nat) (k : Int) (hne : 0 ≤ Int.tmod k 4 → (Int.tmod k 4).toNat ≠ n) :
    Frame.cell { p := fun m => if m = n then some v else f.p m
                 tag := fun m => if m = n then t else f.tag m
                 j := j, out := out } k = f.cell k := by
  unfold Frame.cell
  by_cases hv : 0 ≤ Int.tmod k 4
  · simp [hv, hne hv]
  · simp [hv]

theorem step_refines {s : Frame} {h : Hist} (hrel : Rel s h) (pj : FT_Vector) (tj : Int) :
    RelR (s.j + 1) (step pj tj s) (hstep pj tj h) := by
  rcases h with ⟨⟨p1, t1⟩, e2, e3, o⟩
  obtain ⟨hj, hout, h1, h2, h3⟩ := hrel
  simp only at hout h1 h2 h3
  subst hout
  have hj0 : 0 ≤ s.j := by omega
  have hj1 : 0 ≤ s.j - 1 := by omega
  rw [step_eq _ _ _ hj0]
  have c0 := cell_store_same s pj tj hj0
  have c1 : (s.store pj tj).cell (s.j - 1) = some (p1, t1) := by
    rw [cell_store_other s pj tj hj0 (by decide) (by decide)]; exact h1
  have c2 : (s.store pj tj).cell (s.j - 2) = e2 := by
    rw [cell_store_other s pj tj hj0 (by decide) (by decide)]; exact h2
  have c3 : (s.store pj tj).cell (s.j - 3) = e3 := by
    rw [cell_store_other s pj tj hj0 (by decide) (by decide)]; exact h3
  have base := fun out => rel_next (s.store pj tj) s.j hj0 out _ _ _ c0 c1 c2
  unfold transition hstep
  simp only [getTag_cell, getP_cell, store_j, store_out, c0, c1, c2, c3, cellTag, ok_bind]
  cases hi : isi t1 <;> simp only [Bool.false_eq_true, ↓reduceIte]
  · cases hq : isq t1 <;> simp only [Bool.false_eq_true, ↓reduceIte]
    · cases hc : isc t1 <;> simp only [Bool.false_eq_true, ↓reduceIte]
      · simp [throw_eq_error, RelR]
      · cases hci : isi tj <;> simp only [Bool.false_eq_true, ↓reduceIte]
        · exact ⟨base _, rfl⟩
        · rcases e2 with _ | ⟨p2, t2⟩
          · simp [error_bind, RelR]
          · simp only [ok_bind]
            cases hc2 : isc t2 <;> simp only [Bool.false_eq_true, ↓reduceIte]
            · simp [throw_eq_error, RelR]
            · rcases e3 with _ | ⟨p3, t3⟩
              · simp [error_bind, RelR]
              · simp only [ok_bind]
                cases hc3 : isi t3 <;> simp only [Bool.false_eq_true, ↓reduceIte]
                · simp [throw_eq_error, RelR]
                · rcases p2 with _ | p2
                  · simp [cellPt, error_bind, RelR]
                  · rcases p1 with _ | p1
                    · simp [cellPt, error_bind, ok_bind, RelR]
                    · simp only [cellPt, ok_bind, pure_eq_ok]
                      exact ⟨base _, rfl⟩
    · cases hci : isi tj <;> simp only [Bool.false_eq_true, ↓reduceIte]
      · cases hcq : isq tj <;> simp only [Bool.false_eq_true, ↓reduceIte]
        · simp [throw_eq_error, RelR]
        · rcases p1 with _ | a
          · simp [cellPt, error_bind, RelR]
          · simp only [cellPt, ok_bind, pure_eq_ok]
            rw [setP_of_nonneg _ hj1, ok_bind, setTag_of_nonneg _ hj1]
            refine ⟨rel_next _ s.j hj0 _ _ _ _ ?_ ?_ ?_, rfl⟩
            · rw [cell_put_other _ _ _ _ _ _ _
                (fun _ => (slot_distinct hj0 (by decide) (by decide)
                  (tmod_nonneg_of_nonneg hj1)).symm)]
              exact c0
            · exact cell_put_same _ _ _ _ _ hj1
            · have e : s.j - 2 = s.j - 1 - 1 := by ring
              rw [cell_put_other _ _ _ _ _ _ _
                (fun hv => by rw [e] at hv ⊢; exact slot_distinct hj1 (by decide) (by decide) hv)]
              exact c2
      · rcases p1 with _ | a
        · simp [cellPt, error_bind, RelR]
        · simp only [cellPt, ok_bind, pure_eq_ok]
          exact ⟨base _, rfl⟩
  · cases hci : isi tj <;> simp only [Bool.false_eq_true, ↓reduceIte]
    · exact ⟨base _, rfl⟩
    · simp only [cellPt, ok_bind, pure_eq_ok]
      exact ⟨base _, rfl⟩

theorem runSteps_refines (es : List (FT_Vector × Int)) :
    ∀ {s : Frame} {h : Hist}, Rel s h →
      RelR (s.j + es.length) (runSteps es s) (hrun es h) := by
  induction es with
  | nil =>
    intro s h hrel
    simpa [runSteps, hrun, RelR] using hrel
  | cons e es ih =>
    intro s h hrel
    have hs := step_refines hrel e.1 e.2
    unfold runSteps hrun
    cases h1 : step e.1 e.2 s with
    | error err =>
      cases h2 : hstep e.1 e.2 h with
      | error err2 => rw [h1, h2] at hs; simpa [RelR] using hs
      | ok h3 => rw [h1, h2] at hs; simp [RelR] at hs
    | ok s1 =>
      cases h2 : hstep e.1 e.2 h with
      | error err2 => rw [h1, h2] at hs; simp [RelR] at hs
      | ok h3 =>
        rw [h1, h2] at hs
        obtain ⟨hr, hj⟩ := hs
        have := ih hr
        rw [hj] at this
        have e : s.j + 1 + (es.length : Int) = s.j + ((es.length + 1 : Nat) : Int) := by
          push_cast; ring
        rw [e] at this
        simpa using this

theorem closing_refines {s : Frame} {h : Hist} (hrel : Rel s h) (p0 : FT_Vector) :
    RelC s.j (closing p0 s) (hclosing p0 h) := by
  rcases h with ⟨⟨p1, t1⟩, e2, e3, o⟩
  obtain ⟨hj, hout, h1, h2, h3⟩ := hrel
  simp only at hout h1 h2 h3
  subst hout
  have hj0 : 0 ≤ s.j := by omega
  have c0 := cell_store_same s p0 1 hj0
  have c1 : (s.store p0 1).cell (s.j - 1) = some (p1, t1) := by
    rw [cell_store_other s p0 1 hj0 (by decide) (by decide)]; exact h1
  have c2 : (s.store p0 1).cell (s.j - 2) = e2 := by
    rw [cell_store_other s p0 1 hj0 (by decide) (by decide)]; exact h2
  have hc : closing p0 s = closeSegment (s.store p0 1) := by
    unfold closing
    rw [setP_of_nonneg s hj0, ok_bind, setTag_of_nonneg _ hj0, ok_bind]
    rfl
  rw [hc]
  unfold closeSegment hclosing
  simp only [getTag_cell, getP_cell, store_j, store_out, c0, c1, c2, cellTag, ok_bind]
  cases hi : isi t1 <;> simp only [Bool.false_eq_true, ↓reduceIte]
  · cases hq : isq t1 <;> simp only [Bool.false_eq_true, ↓reduceIte]
    · cases hc : isc t1 <;> simp only [Bool.false_eq_true, ↓reduceIte]
      · simp [pure_eq_ok, RelC, Frame.store]
      · rcases e2 with _ | ⟨_ | p2, t2⟩
        · simp [cellPt, error_bind, RelC]
        · simp [cellPt, error_bind, RelC]
        · rcases p1 with _ | p1
          · simp [cellPt, error_bind, ok_bind, RelC]
          · simp [cellPt, ok_bind, pure_eq_ok, RelC]
    · rcases p1 with _ | p1
      · simp [cellPt, error_bind, ok_bind, RelC]
      · simp [cellPt, ok_bind, pure_eq_ok, RelC]
  · simp [cellPt, ok_bind, pure_eq_ok, RelC]

/-! ## From the outline arrays to the list of a contour -/

theorem fetch_nat {α : Type} (a : List α) (k : Nat) (v : α) (h : a[k]? = some v) :
    fetch a (k : Int) = .ok v := by
  unfold fetch
  simp [h]

theorem slice_get {α : Type} {l m : List α} {j n k : Nat} {v : α}
    (h : (l.drop j).take n = m) (hk : m[k]? = some v) : l[j + k]? = some v := by
  rw [← h, List.getElem?_take] at hk
  by_cases hlt : k < n
  · simpa [hlt, List.getElem?_drop] using hk
  · simp [hlt] at hk

theorem contourAt_fetch {o : FT_Outline} {i j : Nat} {c : Contour} (hc : ContourAt o i j c)
    {k : Nat} {e : FT_Vector × Int} (hk : c.get? k = some e) :
    fetch o.points ((j : Int) + k) = .ok e.1 ∧ fetch o.tags ((j : Int) + k) = .ok e.2 := by
  obtain ⟨_, hp, ht⟩ := hc
  rw [List.get?_eq_getElem?] at hk
  have e1 : ((j : Int) + (k : Int)) = ((j + k : Nat) : Int) := by push_cast; rfl
  rw [e1]
  constructor
  · apply fetch_nat
    apply slice_get hp
    simp [List.getElem?_map, hk]
  · apply fetch_nat
    apply slice_get ht
    simp [List.getElem?_map, hk]

theorem innerLoop_eq_runSteps (o : FT_Outline) (i e : Int)
    (he : fetch o.contours i = .ok e) (es : List (FT_Vector × Int)) :
    ∀ (s : Frame) (h : Hist), Rel s h → s.j + es.length = e + 1 →
      (∀ (k : Nat) (x : FT_Vector × Int), es[k]? = some x →
        fetch o.points (s.j + k) = .ok x.1 ∧ fetch o.tags (s.j + k) = .ok x.2) →
      innerLoop o i (iterations e s.j) s = runSteps es s := by
  induction es with
  | nil =>
    intro s h _ hlen _
    have : iterations e s.j = 0 := by
      unfold iterations
      simp at hlen
      omega
    rw [this]
    rfl
  | cons x es ih =>
    intro s h hrel hlen hf
    have hit : iterations e s.j = iterations e (s.j + 1) + 1 := by
      unfold iterations
      simp at hlen
      omega
    have hle : s.j ≤ e := by
      simp at hlen
      omega
    obtain ⟨hp, ht⟩ := hf 0 x (by simp)
    simp only [Nat.cast_zero, add_zero] at hp ht
    rw [hit]
    unfold innerLoop runSteps
    rw [he, ok_bind]
    simp only [hle, if_true, hp, ht, ok_bind]
    have hs := step_refines hrel x.1 x.2
    cases h1 : step x.1 x.2 s with
    | error err => rfl
    | ok s1 =>
      cases h2 : hstep x.1 x.2 h with
      | error err2 => rw [h1, h2] at hs; simp [RelR] at hs
      | ok h3 =>
        rw [h1, h2] at hs
        obtain ⟨hr, hj⟩ := hs
        rw [ok_bind]
        simp only []
        rw [← hj]
        apply ih s1 h3 hr
        · rw [hj]; simp at hlen ⊢; omega
        · intro k y hy
          have := hf (k + 1) y (by simpa using hy)
          rw [hj]
          have e2 : s.j + ((k + 1 : Nat) : Int) = s.j + 1 + (k : Int) := by push_cast; ring
          rw [e2] at this
          exact this

theorem rel_first (j : Nat) (p0 : FT_Vector) (t0 : Int) (out : List Cmd) :
    Rel (firstFrame j p0 t0 out) (hinit j p0 t0 out) := by
  have hj0 : (0 : Int) ≤ j := Int.ofNat_nonneg j
  let f : Frame := { p := fun _ => none, tag := fun _ => INT_MAX, j := j, out := out }
  have c0 : (f.store p0 t0).cell j = some (some p0, t0) := cell_store_same f p0 t0 hj0
  have c1 : (f.store p0 t0).cell ((j : Int) - 1) =
      if 1 ≤ j then some (none, INT_MAX) else none := by
    rw [show ((j : Int) - 1) = f.j - 1 from rfl,
      cell_store_other f p0 t0 hj0 (by decide) (by decide)]
    unfold Frame.cell
    rcases Nat.eq_zero_or_pos j with h | h
    · subst h; rfl
    · have : (0 : Int) ≤ (j : Int) - 1 := by omega
      simp [tmod_nonneg_of_nonneg this, f, show 1 ≤ j from h]
  have c2 : (f.store p0 t0).cell ((j : Int) - 2) =
      if 2 ≤ j then some (none, INT_MAX) else none := by
    rw [show ((j : Int) - 2) = f.j - 2 from rfl,
      cell_store_other f p0 t0 hj0 (by decide) (by decide)]
    unfold Frame.cell
    have hcases : j = 0 ∨ j = 1 ∨ 2 ≤ j := by omega
    rcases hcases with h | h | h
    · subst h; rfl
    · subst h; rfl
    · have : (0 : Int) ≤ (j : Int) - 2 := by omega
      simp [tmod_nonneg_of_nonneg this, f, h]
  exact rel_next (f.store p0 t0) j hj0 (moveto out p0) _ _ _ c0 c1 c2

theorem contour_unfold (o : FT_Outline) (i : Int) (j : Nat) (out : List Cmd)
    (p0 : FT_Vector) (t0 : Int) (e : Int)
    (hp : fetch o.points (j : Int) = .ok p0) (ht : fetch o.tags (j : Int) = .ok t0)
    (he : fetch o.contours i = .ok e) :
    contour o i j out =
      match innerLoop o i (iterations e ((j : Int) + 1)) (firstFrame j p0 t0 out) with
      | .ok s4 =>
        match closing p0 s4 with
        | .ok s5 => .ok (s5.j, closepath s5.out)
        | .error err => .error err
      | .error err => .error err := by
  have hj0 : (0 : Int) ≤ j := Int.ofNat_nonneg j
  unfold contour
  rw [hp, ok_bind]
  simp only []
  rw [setP_of_nonneg _ hj0, ok_bind, ht, ok_bind, setTag_of_nonneg _ hj0, ok_bind]
  rw [getP_cell, cell_put_same _ _ _ _ _ hj0]
  simp only [cellPt, ok_bind, he]
  show (innerLoop o i (iterations e ((j : Int) + 1)) (firstFrame j p0 t0 out) >>= _) = _
  cases innerLoop o i (iterations e ((j : Int) + 1)) (firstFrame j p0 t0 out) with
  | error err => rfl
  | ok s4 =>
    rw [ok_bind]
    cases hcl : closing p0 s4 <;> simp only [hcl] <;> rfl

/-- The body of the outer loop, for a contour given as the list of its
points, is the list-level run `hcontour`; the running index ends at the first
point after the contour. -/
theorem contour_eq {o : FT_Outline} {i j : Nat} {p0 : FT_Vector} {t0 : Int}
    {rest : List (FT_Vector × Int)} (hc : ContourAt o i j ((p0, t0) :: rest))
    (out : List Cmd) :
    contour o i j out =
      match hcontour j ((p0, t0) :: rest) out with
      | .ok l => .ok ((j : Int) + (rest.length + 1 : Nat), l)
      | .error e => .error e := by
  have hj0 : (0 : Int) ≤ j := Int.ofNat_nonneg j
  have h0 := contourAt_fetch hc (k := 0) (e := (p0, t0)) (by simp)
  simp only [Nat.cast_zero, add_zero] at h0
  have he : fetch o.contours (i : Int) = .ok ((j : Int) + (rest.length + 1 : Nat) - 1) := by
    apply fetch_nat
    have := hc.1
    simpa using this
  rw [contour_unfold o i j out p0 t0 _ h0.1 h0.2 he]
  have hrel := rel_first j p0 t0 out
  have hin := innerLoop_eq_runSteps o i _ he rest (firstFrame j p0 t0 out) _ hrel
    (by show (j : Int) + 1 + (rest.length : Int) = _; push_cast; ring)
    (by
      intro k x hx
      have := contourAt_fetch hc (k := k + 1) (e := x) (by simpa using hx)
      have e2 : (j : Int) + ((k + 1 : Nat) : Int) = (firstFrame j p0 t0 out).j + (k : Int) := by
        show _ = (j : Int) + 1 + (k : Int)
        push_cast; ring
      rw [e2] at this
      exact this)
  have hfj : (firstFrame j p0 t0 out).j = (j : Int) + 1 := rfl
  rw [hfj] at hin
  rw [hin]
  have hrr := runSteps_refines rest hrel
  unfold hcontour
  simp only []
  cases h1 : runSteps rest (firstFrame j p0 t0 out) with
  | error err =>
    cases h2 : hrun rest (hinit j p0 t0 out) with
    | error err2 => rw [h1, h2] at hrr; simp only [RelR] at hrr; simp [hrr]
    | ok h3 => rw [h1, h2] at hrr; simp [RelR] at hrr
  | ok s4 =>
    cases h2 : hrun rest (hinit j p0 t0 out) with
    | error err2 => rw [h1, h2] at hrr; simp [RelR] at hrr
    | ok h3 =>
      rw [h1, h2] at hrr
      obtain ⟨hr, hj⟩ := hrr
      have hcl := closing_refines hr p0
      simp only []
      cases h4 : closing p0 s4 with
      | error err =>
        cases h5 : hclosing p0 h3 with
        | error err2 => rw [h4, h5] at hcl; simp only [RelC] at hcl; simp [hcl]
        | ok l => rw [h4, h5] at hcl; simp [RelC] at hcl
      | ok s5 =>
        cases h5 : hclosing p0 h3 with
        | error err2 => rw [h4, h5] at hcl; simp [RelC] at hcl
        | ok l =>
          rw [h4, h5] at hcl
          obtain ⟨ho, hj5⟩ := hcl
          simp only [ho, hj5, hj, hfj]
          congr 2
          push_cast; ring

theorem contour_ok {o : FT_Outline} {i j : Nat} {p0 : FT_Vector} {t0 : Int}
    {rest : List (FT_Vector × Int)} (hc : ContourAt o i j ((p0, t0) :: rest))
    (out : List Cmd) {h : Hist} {l : List Cmd}
    (hr : hrun rest (hinit j p0 t0 out) = .ok h) (hcl : hclosing p0 h = .ok l) :
    contour o i j out = .ok ((j : Int) + ((p0, t0) :: rest).length, closepath l) := by
  rw [contour_eq hc out]
  simp only [hcontour, hr, hcl, List.length_cons]

theorem contour_error_run {o : FT_Outline} {i j : Nat} {p0 : FT_Vector} {t0 : Int}
    {rest : List (FT_Vector × Int)} (hc : ContourAt o i j ((p0, t0) :: rest))
    (out : List Cmd) {e : Err} (hr : hrun rest (hinit j p0 t0 out) = .error e) :
    contour o i j out = .error e := by
  rw [contour_eq hc out]
  simp only [hcontour, hr]

theorem contour_error_closing {o : FT_Outline} {i j : Nat} {p0 : FT_Vector} {t0 : Int}
    {rest : List (FT_Vector × Int)} (hc : ContourAt o i j ((p0, t0) :: rest))
    (out : List Cmd) {h : Hist} {e : Err}
    (hr : hrun rest (hinit j p0 t0 out) = .ok h) (hcl : hclosing p0 h = .error e) :
    contour o i j out = .error e := by
  rw [contour_eq hc out]
  simp only [hcontour, hr, hcl]

/-! ## Runs on the list of a contour -/

theorem hrun_append (as bs : List (FT_Vector × Int)) :
    ∀ h : Hist, hrun (as ++ bs) h =
      match hrun as h with
      | .ok h1 => hrun bs h1
      | .error e => .error e := by
  induction as with
  | nil => intro h; rfl
  | cons a as ih =>
    intro h
    simp only [List.cons_append, hrun]
    cases hstep a.1 a.2 h with
    | error e => rfl
    | ok h1 => exact ih h1

theorem hstep_on_on {h : Hist} {pj : FT_Vector} {tj : Int} (h1 : isi h.e1.2 = true)
    (h2 : isi tj = true) :
    hstep pj tj h =
      .ok { e1 := (some pj, tj), e2 := some h.e1, e3 := h.e2, out := lineto h.out pj } := by
  simp [hstep, h1, h2]

theorem hstep_on_off {h : Hist} {pj : FT_Vector} {tj : Int} (h1 : isi h.e1.2 = true)
    (h2 : isi tj = false) :
    hstep pj tj h = .ok { e1 := (some pj, tj), e2 := some h.e1, e3 := h.e2, out := h.out } := by
  simp [hstep, h1, h2]

theorem hstep_quad_on {h : Hist} {pj a : FT_Vector} {t1 tj : Int} (he : h.e1 = (some a, t1))
    (h1 : isq t1 = true) (h2 : isi tj = true) :
    hstep pj tj h =
      .ok { e1 := (some pj, tj), e2 := some h.e1, e3 := h.e2, out := quadto h.out a pj } := by
  simp [hstep, he, h1, h2, isq_not_isi h1, cellPt]

theorem hstep_quad_quad {h : Hist} {pj a : FT_Vector} {t1 tj : Int} (he : h.e1 = (some a, t1))
    (h1 : isq t1 = true) (h2 : isq tj = true) :
    hstep pj tj h =
      .ok { e1 := (some pj, tj), e2 := some (some (midpoint a pj), 1), e3 := h.e2,
            out := quadto h.out a (midpoint a pj) } := by
  simp [hstep, he, h1, h2, isq_not_isi h1, isq_not_isi h2, cellPt]

theorem hstep_quad_cubic {h : Hist} {pj : FT_Vector} {tj : Int}
    (h1 : isq h.e1.2 = true) (h2 : isc tj = true) :
    hstep pj tj h = .error Err.illformedQuadratic := by
  simp [hstep, h1, isq_not_isi h1, isc_not_isi h2, isc_not_isq h2]

theorem hstep_cubic_off {h : Hist} {pj : FT_Vector} {tj : Int} (h1 : isc h.e1.2 = true)
    (h2 : isi tj = false) :
    hstep pj tj h = .ok { e1 := (some pj, tj), e2 := some h.e1, e3 := h.e2, out := h.out } := by
  simp [hstep, h1, h2, isc_not_isi h1, isc_not_isq h1]

theorem hstep_cubic_on {h : Hist} {pj c1 c2 : FT_Vector} {t1 t2 t3 tj : Int}
    {p3 : Option FT_Vector} (he1 : h.e1 = (some c2, t1)) (he2 : h.e2 = some (some c1, t2))
    (he3 : h.e3 = some (p3, t3)) (h1 : isc t1 = true) (h2 : isc t2 = true)
    (h3 : isi t3 = true) (hj : isi tj = true) :
    hstep pj tj h =
      .ok { e1 := (some pj, tj), e2 := some h.e1, e3 := h.e2,
            out := cubicto h.out c1 c2 pj } := by
  simp [hstep, he1, he2, he3, h1, h2, h3, hj, isc_not_isi h1, isc_not_isq h1, cellPt, cellTag]

theorem hstep_cubic_on_bad2 {h : Hist} {pj : FT_Vector} {t2 tj : Int}
    {p2 : Option FT_Vector} (he2 : h.e2 = some (p2, t2))
    (h1 : isc h.e1.2 = true) (h2 : isc t2 = false) (hj : isi tj = true) :
    hstep pj tj h = .error Err.illformedCubic := by
  simp [hstep, he2, h1, h2, hj, isc_not_isi h1, isc_not_isq h1, cellTag]

theorem hstep_cubic_on_bad3 {h : Hist} {pj : FT_Vector} {t2 t3 tj : Int}
    {p2 p3 : Option FT_Vector} (he2 : h.e2 = some (p2, t2)) (he3 : h.e3 = some (p3, t3))
    (h1 : isc h.e1.2 = true) (h2 : isc t2 = true) (h3 : isi t3 = false) (hj : isi tj = true) :
    hstep pj tj h = .error Err.illformedCubic := by
  simp [hstep, he2, he3, h1, h2, h3, hj, isc_not_isi h1, isc_not_isq h1, cellTag]

theorem hstep_e1 {h h1 : Hist} {pj : FT_Vector} {tj : Int} (hs : hstep pj tj h = .ok h1) :
    h1.e1 = (some pj, tj) ∧ h1.e3 = h.e2 ∧ ∃ l, h1.out = h.out ++ l ∧ l.length ≤ 1 := by
  unfold hstep at hs
  split_ifs at hs
  all_goals first
    | (injection hs with hs; subst hs; exact ⟨rfl, rfl, _, rfl, by simp [lineto]⟩)
    | (injection hs with hs; subst hs; exact ⟨rfl, rfl, [], by simp, by simp⟩)
    | (split at hs
       · injection hs with hs; subst hs
         exact ⟨rfl, rfl, _, rfl, by simp [quadto]⟩
       · cases hs)
    | cases hs
    | skip
  repeat' split at hs
  all_goals first
    | (injection hs with hs; subst hs; exact ⟨rfl, rfl, _, rfl, by simp [cubicto]⟩)
    | cases hs

theorem hclosing_on {h : Hist} (p0 : FT_Vector) (h1 : isi h.e1.2 = true) :
    hclosing p0 h = .ok (lineto h.out p0) := by
  simp [hclosing, h1]

theorem hclosing_quad {h : Hist} (p0 : FT_Vector) {a : FT_Vector} {t1 : Int}
    (he : h.e1 = (some a, t1)) (h1 : isq t1 = true) :
    hclosing p0 h = .ok (quadto h.out a p0) := by
  simp [hclosing, he, h1, isq_not_isi h1, cellPt]

theorem hrun_all_on (es : List (FT_Vector × Int)) :
    ∀ h : Hist, isi h.e1.2 = true → (∀ e ∈ es, isi e.2 = true) →
      ∃ h1, hrun es h = .ok h1 ∧ isi h1.e1.2 = true ∧
        h1.out = h.out ++ es.map fun e => Cmd.line_to_abs e.1 := by
  induction es with
  | nil => intro h h1 _; exact ⟨h, rfl, h1, by simp⟩
  | cons e es ih =>
    intro h h1 hall
    have he : isi e.2 = true := hall e (List.mem_cons_self _ _)
    obtain ⟨h2, hr, hi, ho⟩ :=
      ih { e1 := (some e.1, e.2), e2 := some h.e1, e3 := h.e2, out := lineto h.out e.1 } he
        (fun x hx => hall x (List.mem_cons_of_mem _ hx))
    refine ⟨h2, ?_, hi, ?_⟩
    · simp only [hrun, hstep_on_on h1 he]
      exact hr
    · rw [ho]
      simp [lineto]

/-- C1. A contour whose points are all tagged on-curve, placed anywhere in an
outline, decomposes into `move_to_abs` of its first point, one `line_to_abs`
per further point in input order, the closing `line_to_abs` back to the first
point and `close_path`: as many commands as the contour has points, plus two. -/
theorem C1_all_on_curve (o : FT_Outline) (i j : Nat) (p0 : FT_Vector) (t0 : Int)
    (rest : List (FT_Vector × Int)) (out : List Cmd)
    (hc : ContourAt o i j ((p0, t0) :: rest))
    (hall : ∀ e ∈ (p0, t0) :: rest, isi e.2 = true) :
    contour o i j out =
        .ok ((j : Int) + ((p0, t0) :: rest).length,
          out ++ Cmd.move_to_abs p0 :: (rest.map fun e => Cmd.line_to_abs e.1) ++
            [Cmd.line_to_abs p0, Cmd.close_path]) ∧
      (Cmd.move_to_abs p0 :: (rest.map fun e => Cmd.line_to_abs e.1) ++
          [Cmd.line_to_abs p0, Cmd.close_path]).length = ((p0, t0) :: rest).length + 2 := by
  have h0 : isi t0 = true := hall (p0, t0) (List.mem_cons_self _ _)
  obtain ⟨h1, hr, hi, ho⟩ := hrun_all_on rest (hinit j p0 t0 out) h0
    (fun x hx => hall x (List.mem_cons_of_mem _ hx))
  refine ⟨?_, by simp⟩
  rw [contour_eq hc out]
  simp only [hcontour, hr, hclosing_on p0 hi, ho]
  simp [hinit, moveto, lineto, closepath]

/-- The triangle `(0,0), (10,0), (0,10)` as second contour of an outline. -/
theorem C1_all_on_curve_witness :
    contour (mkOutline [[(pt 5 5, 1)], [(pt 0 0, 1), (pt 10 0, 1), (pt 0 10, 1)]]) 1 1
        [Cmd.close_path] =
      .ok (4, [Cmd.close_path, Cmd.move_to_abs (pt 0 0), Cmd.line_to_abs (pt 10 0),
        Cmd.line_to_abs (pt 0 10), Cmd.line_to_abs (pt 0 0), Cmd.close_path]) :=
  (C1_all_on_curve (mkOutline [[(pt 5 5, 1)], [(pt 0 0, 1), (pt 10 0, 1), (pt 0 10, 1)]]) 1 1
    (pt 0 0) 1 [(pt 10 0, 1), (pt 0 10, 1)] [Cmd.close_path] (by decide) (by decide)).1

theorem quadRun_length (b : FT_Vector) : ∀ l : List FT_Vector, (quadRun l b).length = l.length
  | [] => rfl
  | [_] => rfl
  | _ :: q1 :: qs => by
    simp only [quadRun, List.length_cons]
    rw [quadRun_length b (q1 :: qs)]
    rfl

theorem quadRun_get_mid (b : FT_Vector) :
    ∀ (l : List FT_Vector) (n : Nat) (q1 q2 : FT_Vector), l[n]? = some q1 →
      l[n + 1]? = some q2 → (quadRun l b)[n]? = some (Cmd.quad_to_abs q1 (midpoint q1 q2))
  | [], _, _, _, h, _ => by simp at h
  | [_], n, _, _, _, h2 => by simp at h2
  | q :: q' :: qs, 0, q1, q2, h1, h2 => by
    simp at h1 h2
    subst h1 h2
    simp [quadRun]
  | q :: q' :: qs, n + 1, q1, q2, h1, h2 => by
    have h1a : (q' :: qs)[n]? = some q1 := by simpa using h1
    have h2a : (q' :: qs)[n + 1]? = some q2 := by simpa using h2
    simp only [quadRun, List.getElem?_cons_succ]
    exact quadRun_get_mid b (q' :: qs) n q1 q2 h1a h2a

theorem quadRun_get_last (b : FT_Vector) :
    ∀ (l : List FT_Vector) (n : Nat) (q1 : FT_Vector), l[n]? = some q1 →
      l[n + 1]? = none → (quadRun l b)[n]? = some (Cmd.quad_to_abs q1 b)
  | [], _, _, h, _ => by simp at h
  | [q], 0, q1, h1, _ => by
    simp at h1
    subst h1
    simp [quadRun]
  | [q], n + 1, q1, h1, _ => by simp at h1
  | q :: q' :: qs, 0, q1, _, h2 => by simp at h2
  | q :: q' :: qs, n + 1, q1, h1, h2 => by
    have h1a : (q' :: qs)[n]? = some q1 := by simpa using h1
    have h2a : (q' :: qs)[n + 1]? = none := by simpa using h2
    simp only [quadRun, List.getElem?_cons_succ]
    exact quadRun_get_last b (q' :: qs) n q1 h1a h2a

theorem hrun_quads (b : FT_Vector) (tb : Int) (hb : isi tb = true)
    (qs : List (FT_Vector × Int)) :
    ∀ (q : FT_Vector) (tq : Int) (h : Hist), h.e1 = (some q, tq) → isq tq = true →
      (∀ e ∈ qs, isq e.2 = true) →
      ∃ h1, hrun (qs ++ [(b, tb)]) h = .ok h1 ∧ h1.e1 = (some b, tb) ∧
        h1.out = h.out ++ quadRun (q :: qs.map Prod.fst) b := by
  induction qs with
  | nil =>
    intro q tq h he hq _
    refine ⟨{ e1 := (some b, tb), e2 := some h.e1, e3 := h.e2, out := quadto h.out q b },
      ?_, rfl, ?_⟩
    · simp only [List.nil_append, hrun, hstep_quad_on he hq hb]
    · simp [quadRun, quadto]
  | cons e qs ih =>
    intro q tq h he hq hall
    have heq : isq e.2 = true := hall e (List.mem_cons_self _ _)
    obtain ⟨h1, hr, h1e, ho⟩ :=
      ih e.1 e.2
        { e1 := (some e.1, e.2), e2 := some (some (midpoint q e.1), 1), e3 := h.e2,
          out := quadto h.out q (midpoint q e.1) } rfl heq
        (fun x hx => hall x (List.mem_cons_of_mem _ hx))
    refine ⟨h1, ?_, h1e, ?_⟩
    · simp only [List.cons_append, hrun, hstep_quad_quad he hq heq]
      exact hr
    · rw [ho]
      simp [quadRun, quadto]

theorem wrapLong_of_fits {v : Int} (h : fitsLong v = true) : wrapLong v = v := by
  unfold fitsLong at h
  simp only [Bool.and_eq_true, decide_eq_true_eq] at h
  unfold wrapLong
  rw [Int.emod_eq_of_lt (by omega) (by omega)]
  omega

theorem midpoint_of_fits {a b : FT_Vector} (hx : fitsLong (a.x + b.x) = true)
    (hy : fitsLong (a.y + b.y) = true) :
    midpoint a b = { x := Int.tdiv (a.x + b.x) 2, y := Int.tdiv (a.y + b.y) 2 } := by
  unfold midpoint
  rw [wrapLong_of_fits hx, wrapLong_of_fits hy]

/-- C2, as stated, fails where a coordinate sum leaves `FT_Pos`. For the
controls `(2^62, 2^63-1)` and `(2^62, 1)` between two on-curve points both
sums are `2^63`: the first `quad_to_abs` ends at `(-2^62, -2^62)`, and the
midpoint of the two controls is `(2^62, 2^62)`. -/
theorem C2_quadratic_run_counterexample :
    contour (mkOutline [[(pt 0 0, 1), (pt 4611686018427387904 9223372036854775807, 0),
        (pt 4611686018427387904 1, 0), (pt 3 3, 1)]]) 0 0 [] =
      .ok (4, [Cmd.move_to_abs (pt 0 0),
        Cmd.quad_to_abs (pt 4611686018427387904 9223372036854775807)
          (pt (-4611686018427387904) (-4611686018427387904)),
        Cmd.quad_to_abs (pt 4611686018427387904 1) (pt 3 3), Cmd.line_to_abs (pt 0 0),
        Cmd.close_path]) ∧
    pt (Int.tdiv (4611686018427387904 + 4611686018427387904) 2)
        (Int.tdiv (9223372036854775807 + 1) 2) =
      pt 4611686018427387904 4611686018427387904 ∧
    pt (-4611686018427387904) (-4611686018427387904) ≠
      pt 4611686018427387904 4611686018427387904 :=
  ⟨by rfl, by decide, by decide⟩

/-- C2, amended. A contour made of an on-curve point `a`, then `k ≥ 1`
quadratic controls `q :: qs`, then an on-curve point `b` decomposes into
`move_to_abs a`, the `k` commands `quadRun`, the closing `line_to_abs a` and
`close_path`. The `k` commands are: for each control followed by another
control, a `quad_to_abs` with that control, ending at the point that
`midpoint` computes in `FT_Pos` arithmetic, which is the truncated midpoint
`((x1 + x2) / 2, (y1 + y2) / 2)` of the two whenever both coordinate sums are
within `FT_Pos`; for the last control, a `quad_to_abs` from it to `b`. -/
theorem C2_quadratic_run (o : FT_Outline) (i j : Nat) (a : FT_Vector) (ta : Int)
    (q : FT_Vector) (tq : Int) (qs : List (FT_Vector × Int)) (b : FT_Vector) (tb : Int)
    (out : List Cmd)
    (hc : ContourAt o i j ((a, ta) :: (q, tq) :: qs ++ [(b, tb)]))
    (ha : isi ta = true) (hq : isq tq = true) (hqs : ∀ e ∈ qs, isq e.2 = true)
    (hb : isi tb = true) :
    contour o i j out =
        .ok ((j : Int) + ((a, ta) :: (q, tq) :: qs ++ [(b, tb)]).length,
          out ++ Cmd.move_to_abs a :: quadRun (q :: qs.map Prod.fst) b ++
            [Cmd.line_to_abs a, Cmd.close_path]) ∧
      (quadRun (q :: qs.map Prod.fst) b).length = qs.length + 1 ∧
      (∀ (n : Nat) (q1 q2 : FT_Vector), (q :: qs.map Prod.fst)[n]? = some q1 →
        (q :: qs.map Prod.fst)[n + 1]? = some q2 →
        (quadRun (q :: qs.map Prod.fst) b)[n]? =
            some (Cmd.quad_to_abs q1 (midpoint q1 q2)) ∧
          (fitsLong (q1.x + q2.x) = true → fitsLong (q1.y + q2.y) = true →
            (quadRun (q :: qs.map Prod.fst) b)[n]? =
              some (Cmd.quad_to_abs q1
                { x := Int.tdiv (q1.x + q2.x) 2, y := Int.tdiv (q1.y + q2.y) 2 }))) ∧
      (∀ (q1 : FT_Vector), (q :: qs.map Prod.fst)[qs.length]? = some q1 →
        (quadRun (q :: qs.map Prod.fst) b)[qs.length]? = some (Cmd.quad_to_abs q1 b)) := by
  refine ⟨?_, by simp [quadRun_length],
    fun n q1 q2 hn1 hn2 => ⟨quadRun_get_mid b _ n q1 q2 hn1 hn2, fun hx hy => by
      rw [← midpoint_of_fits hx hy]; exact quadRun_get_mid b _ n q1 q2 hn1 hn2⟩,
    fun q1 h1 => quadRun_get_last b _ _ q1 h1 (by simp)⟩
  have hfirst : hstep q tq (hinit j a ta out) =
      .ok { e1 := (some q, tq), e2 := some (hinit j a ta out).e1, e3 := (hinit j a ta out).e2,
            out := (hinit j a ta out).out } :=
    hstep_on_off (h := hinit j a ta out) (show isi ta = true from ha)
      (isq_not_isi hq)
  obtain ⟨h1, hr, h1e, ho⟩ := hrun_quads b tb hb qs q tq
    { e1 := (some q, tq), e2 := some (hinit j a ta out).e1, e3 := (hinit j a ta out).e2,
      out := (hinit j a ta out).out } rfl hq hqs
  have hb1 : isi h1.e1.2 = true := by rw [h1e]; exact hb
  have hall : hrun ((q, tq) :: qs ++ [(b, tb)]) (hinit j a ta out) = .ok h1 := by
    simp only [List.cons_append, hrun, hfirst]
    exact hr
  rw [contour_ok hc out hall (hclosing_on a hb1), ho]
  simp [hinit, moveto, lineto, closepath]

/-- Two quadratic controls between two on-curve points, with negative and odd
coordinate sums: two `quad_to_abs`, the first ending at the truncated midpoint. -/
theorem C2_quadratic_run_witness :
    contour (mkOutline [[(pt 0 0, 1), (pt (-1) (-1), 0), (pt (-2) (-2), 0), (pt 3 3, 1)]]) 0 0 [] =
      .ok (4, [Cmd.move_to_abs (pt 0 0), Cmd.quad_to_abs (pt (-1) (-1)) (pt (-1) (-1)),
        Cmd.quad_to_abs (pt (-2) (-2)) (pt 3 3), Cmd.line_to_abs (pt 0 0), Cmd.close_path]) :=
  (C2_quadratic_run
    (mkOutline [[(pt 0 0, 1), (pt (-1) (-1), 0), (pt (-2) (-2), 0), (pt 3 3, 1)]]) 0 0
    (pt 0 0) 1 (pt (-1) (-1)) 0 [(pt (-2) (-2), 0)] (pt 3 3) 1 []
    (by decide) (by decide) (by decide) (by decide) (by decide)).1.trans (by rfl)

/-- C3. A contour made of an on-curve point `a`, two cubic controls `c1`, `c2`
and an on-curve point `b` decomposes into `move_to_abs a`, the single
`cubic_to_abs c1 c2 b`, the closing `line_to_abs a` and `close_path`. -/
theorem C3_cubic_segment (o : FT_Outline) (i j : Nat) (a : FT_Vector) (ta : Int)
    (c1 : FT_Vector) (t1 : Int) (c2 : FT_Vector) (t2 : Int) (b : FT_Vector) (tb : Int)
    (out : List Cmd)
    (hc : ContourAt o i j [(a, ta), (c1, t1), (c2, t2), (b, tb)])
    (ha : isi ta = true) (h1 : isc t1 = true) (h2 : isc t2 = true) (hb : isi tb = true) :
    contour o i j out =
      .ok ((j : Int) + 4,
        out ++ [Cmd.move_to_abs a, Cmd.cubic_to_abs c1 c2 b, Cmd.line_to_abs a,
          Cmd.close_path]) := by
  have s1 : hstep c1 t1 (hinit j a ta out) =
      .ok { e1 := (some c1, t1), e2 := some (some a, ta), e3 := (hinit j a ta out).e2,
            out := moveto out a } :=
    hstep_on_off (h := hinit j a ta out) (show isi ta = true from ha) (isc_not_isi h1)
  have s2 :
      hstep c2 t2
          { e1 := (some c1, t1), e2 := some (some a, ta), e3 := (hinit j a ta out).e2,
            out := moveto out a } =
        .ok { e1 := (some c2, t2), e2 := some (some c1, t1), e3 := some (some a, ta),
              out := moveto out a } :=
    hstep_cubic_off (h := Hist.mk (some c1, t1) (some (some a, ta)) (hinit j a ta out).e2
      (moveto out a)) h1 (isc_not_isi h2)
  have s3 :
      hstep b tb
          { e1 := (some c2, t2), e2 := some (some c1, t1), e3 := some (some a, ta),
            out := moveto out a } =
        .ok { e1 := (some b, tb), e2 := some (some c2, t2), e3 := some (some c1, t1),
              out := cubicto (moveto out a) c1 c2 b } :=
    hstep_cubic_on (h := Hist.mk (some c2, t2) (some (some c1, t1)) (some (some a, ta))
      (moveto out a)) rfl rfl rfl h2 h1 ha hb
  have hall : hrun [(c1, t1), (c2, t2), (b, tb)] (hinit j a ta out) =
      .ok { e1 := (some b, tb), e2 := some (some c2, t2), e3 := some (some c1, t1),
            out := cubicto (moveto out a) c1 c2 b } := by
    simp only [hrun, s1, s2, s3]
  have hcl := hclosing_on a (h := Hist.mk (some b, tb) (some (some c2, t2))
    (some (some c1, t1)) (cubicto (moveto out a) c1 c2 b)) (show isi tb = true from hb)
  rw [contour_ok hc out hall hcl]
  simp [moveto, lineto, cubicto, closepath]

/-- Example B of the specification. -/
theorem C3_cubic_segment_witness :
    contour (mkOutline [[(pt 0 0, 1), (pt 0 50, 2), (pt 50 100, 2), (pt 100 0, 1)]]) 0 0 [] =
      .ok (4, [Cmd.move_to_abs (pt 0 0), Cmd.cubic_to_abs (pt 0 50) (pt 50 100) (pt 100 0),
        Cmd.line_to_abs (pt 0 0), Cmd.close_path]) :=
  C3_cubic_segment (mkOutline [[(pt 0 0, 1), (pt 0 50, 2), (pt 50 100, 2), (pt 100 0, 1)]]) 0 0
    (pt 0 0) 1 (pt 0 50) 2 (pt 50 100) 2 (pt 100 0) 1 []
    (by decide) (by decide) (by decide) (by decide) (by decide)

theorem hstep_e2 {h h1 : Hist} {pj : FT_Vector} {tj : Int} (hs : hstep pj tj h = .ok h1)
    (hc : isc tj = true) : h1.e2 = some h.e1 := by
  have hq : isq tj = false := isc_not_isq hc
  unfold hstep at hs
  simp only [hq, Bool.false_eq_true, ↓reduceIte] at hs
  repeat' split at hs
  all_goals first
    | (injection hs with hs; subst hs; rfl)
    | cases hs

theorem inv_first (j : Nat) (p0 : FT_Vector) (t0 : Int) (out : List Cmd) :
    Inv j [(p0, t0)] (hinit j p0 t0 out) := ⟨rfl, rfl, rfl⟩

theorem inv_e1 {j : Nat} {x : FT_Vector × Int} {past : List (FT_Vector × Int)} {h : Hist}
    (hinv : Inv j (x :: past) h) : h.e1 = (some x.1, x.2) := by
  match past, hinv with
  | [], hinv => exact hinv.1
  | [_], hinv => exact hinv.1
  | _ :: _ :: _, hinv => exact hinv.1

theorem inv_step {j : Nat} {past : List (FT_Vector × Int)} {h h1 : Hist}
    {e : FT_Vector × Int} (hinv : Inv j past h) (hs : hstep e.1 e.2 h = .ok h1) :
    Inv j (e :: past) h1 := by
  obtain ⟨h1e1, h1e3, _⟩ := hstep_e1 hs
  have h1e2 := hstep_e2 hs
  match past, hinv with
  | [x], hinv =>
    refine ⟨h1e1, fun hc => ?_, ?_⟩
    · rw [h1e2 hc, hinv.1]
    · rw [h1e3, hinv.2.1]
  | [x, y], hinv =>
    refine ⟨h1e1, fun hc => ?_, fun hc => ?_⟩
    · rw [h1e2 hc, hinv.1]
    · rw [h1e3, hinv.2.1 hc]
  | x :: y :: z :: w, hinv =>
    refine ⟨h1e1, fun hc => ?_, fun hc => ?_⟩
    · rw [h1e2 hc, hinv.1]
    · rw [h1e3, hinv.2.1 hc]

theorem hstep_wf {j : Nat} {past : List (FT_Vector × Int)} {h : Hist}
    {e : FT_Vector × Int} {es : List (FT_Vector × Int)} (hinv : Inv j past h)
    (hwf : NoIllFormedCubic j (past.reverse ++ e :: es)) :
    (∃ h1, hstep e.1 e.2 h = .ok h1) ∨ hstep e.1 e.2 h = .error Err.illformedQuadratic := by
  match past, hinv with
  | x :: more, hinv =>
    have he1 := inv_e1 hinv
    have hx : h.e1.2 = x.2 := by rw [he1]
    rcases class_total x.2 with hi | hq | hc
    · cases hci : isi e.2
      · exact Or.inl ⟨_, hstep_on_off (by rw [hx]; exact hi) hci⟩
      · exact Or.inl ⟨_, hstep_on_on (by rw [hx]; exact hi) hci⟩
    · rcases class_total e.2 with hei | heq | hec
      · exact Or.inl ⟨_, hstep_quad_on he1 hq hei⟩
      · exact Or.inl ⟨_, hstep_quad_quad he1 hq heq⟩
      · exact Or.inr (hstep_quad_cubic (by rw [hx]; exact hq) hec)
    · cases hci : isi e.2
      · exact Or.inl ⟨_, hstep_cubic_off (by rw [hx]; exact hc) hci⟩
      · match more, hinv, hwf with
        | [], _, hwf => exact (hwf.1 x e es (by simp) hc hci).elim
        | [y], hinv, hwf =>
          obtain ⟨hy, hj⟩ := hwf.2.1 y x e es (by simp) hc hci
          have h2 := hinv.2.1 hc
          have h3 : h.e3 = some (none, INT_MAX) := by rw [hinv.2.2]; simp [hj]
          exact Or.inl ⟨_, hstep_cubic_on he1 h2 h3 hc hy (by decide) hci⟩
        | y :: z :: w, hinv, hwf =>
          obtain ⟨hy, hz⟩ := hwf.2.2 w.reverse z y x e es (by simp) hc hci
          have h2 := hinv.2.1 hc
          have h3 := hinv.2.2 hy
          exact Or.inl ⟨_, hstep_cubic_on he1 h2 h3 hc hy hz hci⟩

theorem hrun_wf (j : Nat) (es : List (FT_Vector × Int)) :
    ∀ (past : List (FT_Vector × Int)) (h : Hist), Inv j past h →
      NoIllFormedCubic j (past.reverse ++ es) →
      (∃ h1, hrun es h = .ok h1 ∧ Inv j (es.reverse ++ past) h1) ∨
        hrun es h = .error Err.illformedQuadratic := by
  induction es with
  | nil => intro past h hinv _; exact Or.inl ⟨h, rfl, by simpa using hinv⟩
  | cons e es ih =>
    intro past h hinv hwf
    rcases hstep_wf hinv hwf with ⟨h1, hs⟩ | hs
    · have hinv1 := inv_step hinv hs
      have := ih (e :: past) h1 hinv1 (by simpa using hwf)
      simp only [hrun, hs]
      simpa using this
    · right
      simp only [hrun, hs]

theorem hrun_inv (j : Nat) (es : List (FT_Vector × Int)) :
    ∀ (past : List (FT_Vector × Int)) (h h1 : Hist), Inv j past h → hrun es h = .ok h1 →
      Inv j (es.reverse ++ past) h1 := by
  induction es with
  | nil =>
    intro past h h1 hinv hr
    simp only [hrun] at hr
    injection hr with hr
    subst hr
    simpa using hinv
  | cons e es ih =>
    intro past h h1 hinv hr
    simp only [hrun] at hr
    cases hs : hstep e.1 e.2 h with
    | error err => rw [hs] at hr; cases hr
    | ok h2 =>
      rw [hs] at hr
      have := ih (e :: past) h2 h1 (inv_step hinv hs) hr
      simpa using this

theorem hrun_quad_then_cubic (j : Nat) (p0 : FT_Vector) (t0 : Int) (out : List Cmd)
    (mid : List (FT_Vector × Int)) (q : FT_Vector) (tq : Int) (x : FT_Vector) (tc : Int)
    (post : List (FT_Vector × Int)) (hq : isq tq = true) (hx : isc tc = true) :
    (∃ e, hrun (mid ++ (q, tq) :: (x, tc) :: post) (hinit j p0 t0 out) = .error e) ∧
      (NoIllFormedCubic j ((p0, t0) :: mid ++ [(q, tq)]) →
        hrun (mid ++ (q, tq) :: (x, tc) :: post) (hinit j p0 t0 out) =
          .error Err.illformedQuadratic) := by
  have hsplit : mid ++ (q, tq) :: (x, tc) :: post = (mid ++ [(q, tq)]) ++ (x, tc) :: post := by
    simp
  rw [hsplit, hrun_append]
  cases hr : hrun (mid ++ [(q, tq)]) (hinit j p0 t0 out) with
  | error e =>
    refine ⟨⟨e, rfl⟩, fun hwf => ?_⟩
    rcases hrun_wf j (mid ++ [(q, tq)]) [(p0, t0)] _ (inv_first j p0 t0 out)
      (by simpa using hwf) with ⟨h1, hr1, _⟩ | hr1
    · rw [hr] at hr1; cases hr1
    · rw [hr] at hr1; simpa using hr1
  | ok h1 =>
    have hinv := hrun_inv j (mid ++ [(q, tq)]) [(p0, t0)] _ h1 (inv_first j p0 t0 out) hr
    rw [List.reverse_append, List.reverse_singleton, List.singleton_append] at hinv
    have he1 := inv_e1 hinv
    have hs : hstep x tc h1 = .error Err.illformedQuadratic :=
      hstep_quad_cubic (by rw [he1]; exact hq) hx
    have hfin : hrun ((x, tc) :: post) h1 = .error Err.illformedQuadratic := by
      simp only [hrun, hs]
    exact ⟨⟨_, hfin⟩, fun _ => hfin⟩

/-- C4. A contour in which a quadratic control `q` is immediately followed by
a cubic control `x` never decomposes into commands: the body of the outer loop
ends in an error. The error is `illformedQuadratic` whenever, among the points
up to `q`, no cubic control followed by an on-curve point fails the lookback
test (`NoIllFormedCubic`). -/
theorem C4_quadratic_then_cubic (o : FT_Outline) (i j : Nat)
    (pre : List (FT_Vector × Int)) (q : FT_Vector) (tq : Int) (x : FT_Vector) (tc : Int)
    (post : List (FT_Vector × Int)) (out : List Cmd)
    (hc : ContourAt o i j (pre ++ (q, tq) :: (x, tc) :: post))
    (hq : isq tq = true) (hx : isc tc = true) :
    (∃ e, contour o i j out = .error e) ∧
      (NoIllFormedCubic j (pre ++ [(q, tq)]) →
        contour o i j out = .error Err.illformedQuadratic) := by
  match pre, hc with
  | [], hc =>
    have hs : hstep x tc (hinit j q tq out) = .error Err.illformedQuadratic :=
      hstep_quad_cubic (h := hinit j q tq out) (show isq tq = true from hq) hx
    have hr : hrun ((x, tc) :: post) (hinit j q tq out) = .error Err.illformedQuadratic := by
      simp only [hrun, hs]
    have := contour_error_run hc out hr
    exact ⟨⟨_, this⟩, fun _ => this⟩
  | (p0, t0) :: mid, hc =>
    obtain ⟨⟨e, he⟩, h2⟩ := hrun_quad_then_cubic j p0 t0 out mid q tq x tc post hq hx
    exact ⟨⟨e, contour_error_run hc out he⟩, fun hwf => contour_error_run hc out (h2 hwf)⟩

theorem noIllFormedCubic_of_no_cubic (j : Nat) (ct : Contour)
    (h : ∀ e ∈ ct, isc e.2 = false) : NoIllFormedCubic j ct := by
  refine ⟨fun x e v hct hx _ => ?_, fun y x e v hct hx _ => ?_,
    fun u z y x e v hct hx _ => ?_⟩
  · have := h x (by rw [hct]; simp)
    rw [this] at hx; cases hx
  · have := h x (by rw [hct]; simp)
    rw [this] at hx; cases hx
  · have := h x (by rw [hct]; simp)
    rw [this] at hx; cases hx

theorem noIllFormedCubic_example :
    NoIllFormedCubic 0
      [(pt 0 0, 1), (pt 0 50, 2), (pt 50 100, 2), (pt 100 0, 1), (pt 7 7, 0)] := by
  refine ⟨fun x e v hct hx he => ?_, fun y x e v hct hx he => ?_,
    fun u z y x e v hct hx he => ?_⟩
  · simp only [List.cons.injEq] at hct
    obtain ⟨rfl, rfl, _⟩ := hct
    exact absurd hx (by decide)
  · simp only [List.cons.injEq] at hct
    obtain ⟨rfl, rfl, rfl, _⟩ := hct
    exact absurd he (by decide)
  · rcases u with _ | ⟨u0, _ | ⟨u1, u2⟩⟩
    · simp only [List.nil_append, List.cons.injEq] at hct
      obtain ⟨rfl, rfl, rfl, rfl, _⟩ := hct
      exact ⟨by decide, by decide⟩
    · simp only [List.cons_append, List.nil_append, List.cons.injEq] at hct
      obtain ⟨_, rfl, rfl, rfl, rfl, _⟩ := hct
      exact absurd hx (by decide)
    · simp only [List.cons_append, List.cons.injEq] at hct
      obtain ⟨_, _, h3⟩ := hct
      have := congrArg List.length h3
      simp at this
      omega

/-- Example C of the specification, and a contour in which a well-formed cubic
segment comes before the quadratic control. -/
theorem C4_quadratic_then_cubic_witness :
    contour (mkOutline [[(pt 0 0, 1), (pt 0 50, 0), (pt 10 60, 2)]]) 0 0 [] =
        .error Err.illformedQuadratic ∧
      contour (mkOutline [[(pt 0 0, 1), (pt 0 50, 2), (pt 50 100, 2), (pt 100 0, 1),
          (pt 7 7, 0), (pt 8 8, 2), (pt 9 9, 1)]]) 0 0 [] =
        .error Err.illformedQuadratic :=
  ⟨(C4_quadratic_then_cubic (mkOutline [[(pt 0 0, 1), (pt 0 50, 0), (pt 10 60, 2)]]) 0 0
      [(pt 0 0, 1)] (pt 0 50) 0 (pt 10 60) 2 [] [] (by decide) (by decide) (by decide)).2
      (noIllFormedCubic_of_no_cubic 0 _ (by decide)),
    (C4_quadratic_then_cubic
      (mkOutline [[(pt 0 0, 1), (pt 0 50, 2), (pt 50 100, 2), (pt 100 0, 1),
        (pt 7 7, 0), (pt 8 8, 2), (pt 9 9, 1)]]) 0 0
      [(pt 0 0, 1), (pt 0 50, 2), (pt 50 100, 2), (pt 100 0, 1)] (pt 7 7) 0 (pt 8 8) 2
      [(pt 9 9, 1)] [] (by decide) (by decide) (by decide)).2 noIllFormedCubic_example⟩

theorem hrun_cubics (cs : List (FT_Vector × Int)) :
    ∀ h : Hist, isi h.e1.2 = true ∨ isc h.e1.2 = true → (∀ e ∈ cs, isc e.2 = true) →
      ∃ h1, hrun cs h = .ok h1 ∧ h1.out = h.out := by
  induction cs with
  | nil => intro h _ _; exact ⟨h, rfl, rfl⟩
  | cons e cs ih =>
    intro h hp hall
    have hec : isc e.2 = true := hall e (List.mem_cons_self _ _)
    have hs : hstep e.1 e.2 h =
        .ok { e1 := (some e.1, e.2), e2 := some h.e1, e3 := h.e2, out := h.out } := by
      rcases hp with hp | hp
      · exact hstep_on_off hp (isc_not_isi hec)
      · exact hstep_cubic_off hp (isc_not_isi hec)
    obtain ⟨h1, hr, ho⟩ :=
      ih { e1 := (some e.1, e.2), e2 := some h.e1, e3 := h.e2, out := h.out } (Or.inr hec)
        (fun x hx => hall x (List.mem_cons_of_mem _ hx))
    exact ⟨h1, by simp only [hrun, hs]; exact hr, ho⟩

theorem hstep_cubic_on_inv {h h1 : Hist} {pj : FT_Vector} {tj : Int}
    (hs : hstep pj tj h = .ok h1) (hc : isc h.e1.2 = true) (hj : isi tj = true) :
    ∃ t2 t3, cellTag h.e2 = .ok t2 ∧ isc t2 = true ∧ cellTag h.e3 = .ok t3 ∧
      isi t3 = true := by
  unfold hstep at hs
  simp only [isc_not_isi hc, isc_not_isq hc, hc, hj, Bool.false_eq_true, ↓reduceIte] at hs
  cases h2 : cellTag h.e2 with
  | error e => rw [h2] at hs; cases hs
  | ok t2 =>
    rw [h2] at hs
    simp only [] at hs
    cases hc2 : isc t2 with
    | false => rw [hc2] at hs; simp at hs
    | true =>
      rw [hc2] at hs
      simp only [↓reduceIte] at hs
      cases h3 : cellTag h.e3 with
      | error e => rw [h3] at hs; cases hs
      | ok t3 =>
        rw [h3] at hs
        simp only [] at hs
        cases hc3 : isi t3 with
        | false => rw [hc3] at hs; simp at hs
        | true => exact ⟨t2, t3, rfl, hc2, rfl, hc3⟩

theorem hrun_bad_cubic_run (j : Nat) (a : FT_Vector) (ta : Int) (out : List Cmd)
    (cs : List (FT_Vector × Int)) (b : FT_Vector) (tb : Int)
    (post : List (FT_Vector × Int)) (ha : isi ta = true)
    (hcs : ∀ e ∈ cs, isc e.2 = true) (hb : isi tb = true)
    (hk : cs.length = 1 ∨ 3 ≤ cs.length) :
    hrun (cs ++ (b, tb) :: post) (hinit j a ta out) = .error Err.illformedCubic := by
  obtain ⟨h1, hr, _⟩ := hrun_cubics cs (hinit j a ta out) (Or.inl ha) hcs
  have hinv := hrun_inv j cs [(a, ta)] _ h1 (inv_first j a ta out) hr
  have hmem : ∀ e ∈ cs.reverse, isc e.2 = true := fun e he => hcs e (List.mem_reverse.mp he)
  have hlen : cs.reverse.length = cs.length := List.length_reverse cs
  rw [hrun_append, hr]
  simp only [hrun]
  suffices hs : hstep b tb h1 = .error Err.illformedCubic by rw [hs]
  match hrev : cs.reverse, hinv, hmem, hlen with
  | [], _, _, hlen => simp at hlen; omega
  | [x], hinv, hmem, _ =>
    have hx : isc x.2 = true := hmem x (by simp)
    have he1 : h1.e1 = (some x.1, x.2) := hinv.1
    have he2 := hinv.2.1 hx
    exact hstep_cubic_on_bad2 he2 (by rw [he1]; exact hx)
      (by cases hh : isc ta <;> simp_all [isc_not_isi]) hb
  | [x, y], _, _, hlen => simp at hlen; omega
  | x :: y :: z :: w, hinv, hmem, _ =>
    have hx : isc x.2 = true := hmem x (by simp)
    have hy : isc y.2 = true := hmem y (by simp)
    have hz : isc z.2 = true := hmem z (by simp)
    have he1 : h1.e1 = (some x.1, x.2) := hinv.1
    have he2 := hinv.2.1 hx
    have he3 := hinv.2.2 hy
    exact hstep_cubic_on_bad3 he2 he3 (by rw [he1]; exact hx) hy (isc_not_isi hz) hb

theorem rel_of_frame (s : Frame) (hj : 1 ≤ s.j) :
    Rel s { e1 := (s.p (Int.tmod (s.j - 1) 4).toNat, s.tag (Int.tmod (s.j - 1) 4).toNat),
            e2 := s.cell (s.j - 2), e3 := s.cell (s.j - 3), out := s.out } := by
  have h1 : (0 : Int) ≤ s.j - 1 := by omega
  exact ⟨hj, rfl, by simp [Frame.cell, tmod_nonneg_of_nonneg h1], rfl, rfl⟩

theorem step_cubic_on_accepts (s s1 : Frame) (pj : FT_Vector) (tj t1 : Int) (hj : 1 ≤ s.j)
    (h1 : s.getTag (s.j - 1) = .ok t1) (hc : isc t1 = true) (hi : isi tj = true)
    (hs : step pj tj s = .ok s1) :
    ∃ t2 t3, s.getTag (s.j - 2) = .ok t2 ∧ isc t2 = true ∧ s.getTag (s.j - 3) = .ok t3 ∧
      isi t3 = true := by
  have hrel := rel_of_frame s hj
  have href := step_refines hrel pj tj
  rw [hs] at href
  have hj1 : (0 : Int) ≤ s.j - 1 := by omega
  have ht1 : s.tag (Int.tmod (s.j - 1) 4).toNat = t1 := by
    rw [getTag_cell] at h1
    simp only [Frame.cell, tmod_nonneg_of_nonneg hj1, if_true, cellTag] at h1
    injection h1
  cases hh : hstep pj tj
      { e1 := (s.p (Int.tmod (s.j - 1) 4).toNat, s.tag (Int.tmod (s.j - 1) 4).toNat),
        e2 := s.cell (s.j - 2), e3 := s.cell (s.j - 3), out := s.out } with
  | error e => rw [hh] at href; simp [RelR] at href
  | ok h2 =>
    have := hstep_cubic_on_inv hh (by simpa [ht1] using hc) hi
    simpa [getTag_cell] using this

/-- C5. A contour that begins with an on-curve point `a`, then `k` cubic
controls `cs` with `k = 1` or `k ≥ 3`, then an on-curve point `b`, whatever
follows `b`, makes the body of the outer loop end in `illformedCubic`. In the
inner loop an on-curve point after a cubic control is accepted only when the
window cell two places back holds a cubic-control tag and the cell three places
back an on-curve tag. -/
theorem C5_cubic_run_length (o : FT_Outline) (i j : Nat) (a : FT_Vector) (ta : Int)
    (cs : List (FT_Vector × Int)) (b : FT_Vector) (tb : Int)
    (post : List (FT_Vector × Int)) (out : List Cmd)
    (hc : ContourAt o i j ((a, ta) :: cs ++ (b, tb) :: post))
    (ha : isi ta = true) (hcs : ∀ e ∈ cs, isc e.2 = true) (hb : isi tb = true)
    (hk : cs.length = 1 ∨ 3 ≤ cs.length) :
    contour o i j out = .error Err.illformedCubic ∧
      ∀ (s s1 : Frame) (pj : FT_Vector) (tj t1 : Int), 1 ≤ s.j →
        s.getTag (s.j - 1) = .ok t1 → isc t1 = true → isi tj = true →
        step pj tj s = .ok s1 →
        ∃ t2 t3, s.getTag (s.j - 2) = .ok t2 ∧ isc t2 = true ∧
          s.getTag (s.j - 3) = .ok t3 ∧ isi t3 = true :=
  ⟨contour_error_run hc out (hrun_bad_cubic_run j a ta out cs b tb post ha hcs hb hk),
    step_cubic_on_accepts⟩

/-- A single cubic control, and three cubic controls, between on-curve points. -/
theorem C5_cubic_run_length_witness :
    contour (mkOutline [[(pt 0 0, 1), (pt 0 50, 2), (pt 100 0, 1)]]) 0 0 [] =
        .error Err.illformedCubic ∧
      contour (mkOutline [[(pt 9 9, 1)],
          [(pt 0 0, 1), (pt 0 50, 2), (pt 20 70, 2), (pt 50 100, 2), (pt 100 0, 1),
            (pt 50 0, 1)]]) 1 1 [] =
        .error Err.illformedCubic :=
  ⟨(C5_cubic_run_length (mkOutline [[(pt 0 0, 1), (pt 0 50, 2), (pt 100 0, 1)]]) 0 0
      (pt 0 0) 1 [(pt 0 50, 2)] (pt 100 0) 1 [] [] (by decide) (by decide) (by decide)
      (by decide) (by decide)).1,
    (C5_cubic_run_length (mkOutline [[(pt 9 9, 1)],
        [(pt 0 0, 1), (pt 0 50, 2), (pt 20 70, 2), (pt 50 100, 2), (pt 100 0, 1),
          (pt 50 0, 1)]]) 1 1
      (pt 0 0) 1 [(pt 0 50, 2), (pt 20 70, 2), (pt 50 100, 2)] (pt 100 0) 1 [(pt 50 0, 1)] []
      (by decide) (by decide) (by decide) (by decide) (by decide)).1⟩

/-- C6 (the code departs from the claim). The closing step does not apply the
lookback test of the inner loop: a contour that ends in a single cubic control,
or in the third of three cubic controls, is decomposed, with a closing
`cubic_to_abs` whose first control is whatever the window holds two places
back. -/
theorem C6_closing_cubic_unchecked :
    copyglyphoutline (mkOutline [[(pt 0 0, 1), (pt 0 50, 2)]]) =
        .ok [Cmd.move_to_abs (pt 0 0), Cmd.cubic_to_abs (pt 0 0) (pt 0 50) (pt 0 0),
          Cmd.close_path] ∧
      copyglyphoutline
          (mkOutline [[(pt 0 0, 1), (pt 0 50, 2), (pt 20 70, 2), (pt 50 100, 2)]]) =
        .ok [Cmd.move_to_abs (pt 0 0), Cmd.cubic_to_abs (pt 20 70) (pt 50 100) (pt 0 0),
          Cmd.close_path] :=
  ⟨by rfl, by rfl⟩

/-- C7 (the code departs from the claim). A cubic control immediately
followed by a quadratic control is deferred, not rejected: the contour is
decomposed and the cubic control appears in no command. -/
theorem C7_cubic_then_quadratic_accepted :
    copyglyphoutline (mkOutline [[(pt 0 0, 1), (pt 0 50, 2), (pt 50 100, 0), (pt 100 0, 1)]]) =
      .ok [Cmd.move_to_abs (pt 0 0), Cmd.quad_to_abs (pt 50 100) (pt 100 0),
        Cmd.line_to_abs (pt 0 0), Cmd.close_path] := by
  rfl

theorem hrun_out (es : List (FT_Vector × Int)) :
    ∀ (h h1 : Hist), hrun es h = .ok h1 → ∃ l, h1.out = h.out ++ l ∧ l.length ≤ es.length := by
  induction es with
  | nil =>
    intro h h1 hr
    simp only [hrun] at hr
    injection hr with hr
    subst hr
    exact ⟨[], by simp, by simp⟩
  | cons e es ih =>
    intro h h1 hr
    simp only [hrun] at hr
    cases hs : hstep e.1 e.2 h with
    | error err => rw [hs] at hr; cases hr
    | ok h2 =>
      rw [hs] at hr
      obtain ⟨_, _, l1, hl1, hn1⟩ := hstep_e1 hs
      obtain ⟨l2, hl2, hn2⟩ := ih h2 h1 hr
      refine ⟨l1 ++ l2, by rw [hl2, hl1, List.append_assoc], ?_⟩
      simp only [List.length_append, List.length_cons]
      omega

theorem hclosing_cases {p0 : FT_Vector} {h : Hist} {l : List Cmd}
    (hcl : hclosing p0 h = .ok l) :
    (isi h.e1.2 = true ∧ l = h.out ++ [Cmd.line_to_abs p0]) ∨
      (isq h.e1.2 = true ∧ ∃ a, h.e1.1 = some a ∧ l = h.out ++ [Cmd.quad_to_abs a p0]) ∨
      (isc h.e1.2 = true ∧ ∃ c1 c2, h.e1.1 = some c2 ∧
        l = h.out ++ [Cmd.cubic_to_abs c1 c2 p0]) := by
  rcases h with ⟨⟨p1, t1⟩, e2, e3, o⟩
  unfold hclosing at hcl
  simp only at hcl ⊢
  rcases class_total t1 with hi | hq | hc
  · left
    simp only [hi, if_true] at hcl
    injection hcl with hcl
    exact ⟨hi, hcl.symm⟩
  · right; left
    simp only [isq_not_isi hq, hq, Bool.false_eq_true, ↓reduceIte] at hcl
    rcases p1 with _ | a
    · simp [cellPt] at hcl
    · simp only [cellPt] at hcl
      injection hcl with hcl
      exact ⟨hq, a, rfl, hcl.symm⟩
  · right; right
    simp only [isc_not_isi hc, isc_not_isq hc, hc, Bool.false_eq_true, ↓reduceIte] at hcl
    rcases e2 with _ | ⟨_ | c1, t2⟩
    · simp [cellPt] at hcl
    · simp [cellPt] at hcl
    · rcases p1 with _ | c2
      · simp [cellPt] at hcl
      · simp only [cellPt] at hcl
        injection hcl with hcl
        exact ⟨hc, c1, c2, rfl, hcl.symm⟩

theorem contour_ok_inv {o : FT_Outline} {i j : Nat} {p0 : FT_Vector} {t0 : Int}
    {rest : List (FT_Vector × Int)} (hc : ContourAt o i j ((p0, t0) :: rest))
    {out : List Cmd} {r : Int × List Cmd} (hr : contour o i j out = .ok r) :
    ∃ h l, hrun rest (hinit j p0 t0 out) = .ok h ∧ hclosing p0 h = .ok l ∧
      r = ((j : Int) + ((p0, t0) :: rest).length, closepath l) := by
  rw [contour_eq hc out] at hr
  unfold hcontour at hr
  simp only [] at hr
  cases h1 : hrun rest (hinit j p0 t0 out) with
  | error e => rw [h1] at hr; cases hr
  | ok h =>
    rw [h1] at hr
    simp only [] at hr
    cases h2 : hclosing p0 h with
    | error e => rw [h2] at hr; cases hr
    | ok l =>
      rw [h2] at hr
      simp only [] at hr
      injection hr with hr
      exact ⟨h, l, rfl, h2, by rw [← hr]; simp⟩

/-- C9. When the body of the outer loop succeeds on a non-empty contour, the
command written just before the final `close_path` is a `line_to_abs`,
`quad_to_abs` or `cubic_to_abs` that ends at the first point `p0` of the
contour: `line_to_abs p0` when the last point `pl` is tagged on-curve, and
`quad_to_abs pl p0` when it is tagged as a quadratic control. -/
theorem C9_closing_segment (o : FT_Outline) (i j : Nat) (p0 : FT_Vector) (t0 : Int)
    (rest init : List (FT_Vector × Int)) (pl : FT_Vector) (tl : Int) (out : List Cmd)
    (r : Int × List Cmd)
    (hc : ContourAt o i j ((p0, t0) :: rest))
    (hlast : (p0, t0) :: rest = init ++ [(pl, tl)])
    (hr : contour o i j out = .ok r) :
    ∃ l cmd, r.2 = l ++ [cmd, Cmd.close_path] ∧
      (cmd = Cmd.line_to_abs p0 ∨ (∃ a, cmd = Cmd.quad_to_abs a p0) ∨
        ∃ c1 c2, cmd = Cmd.cubic_to_abs c1 c2 p0) ∧
      (isi tl = true → cmd = Cmd.line_to_abs p0) ∧
      (isq tl = true → cmd = Cmd.quad_to_abs pl p0) := by
  obtain ⟨h, l, hrun1, hcl, rfl⟩ := contour_ok_inv hc hr
  have hinv := hrun_inv j rest [(p0, t0)] _ h (inv_first j p0 t0 out) hrun1
  have hrev : rest.reverse ++ [(p0, t0)] = (pl, tl) :: init.reverse := by
    have := congrArg List.reverse hlast
    simpa using this
  rw [hrev] at hinv
  have he1 := inv_e1 hinv
  simp only at he1
  rcases hclosing_cases hcl with ⟨hi, hl⟩ | ⟨hq, a, ha, hl⟩ | ⟨hcc, c1, c2, _, hl⟩
  · refine ⟨h.out, Cmd.line_to_abs p0, by simp [closepath, hl], Or.inl rfl, fun _ => rfl,
      fun hq => ?_⟩
    rw [he1] at hi
    rw [isq_not_isi hq] at hi
    cases hi
  · rw [he1] at hq ha
    simp only [Option.some.injEq] at ha
    subst ha
    refine ⟨h.out, Cmd.quad_to_abs pl p0, by simp [closepath, hl], Or.inr (Or.inl ⟨_, rfl⟩),
      fun hi => ?_, fun _ => rfl⟩
    rw [isq_not_isi hq] at hi
    cases hi
  · rw [he1] at hcc
    refine ⟨h.out, Cmd.cubic_to_abs c1 c2 p0, by simp [closepath, hl],
      Or.inr (Or.inr ⟨_, _, rfl⟩), fun hi => ?_, fun hq => ?_⟩
    · rw [isc_not_isi hcc] at hi
      cases hi
    · rw [isc_not_isq hcc] at hq
      cases hq

/-- Example A of the specification: the closing segment is a `quad_to_abs`
from the last point, a quadratic control, to the first point. -/
theorem C9_closing_segment_witness :
    ∃ l cmd,
      [Cmd.move_to_abs (pt 0 0), Cmd.quad_to_abs (pt 0 100) (pt 100 100),
          Cmd.quad_to_abs (pt 100 0) (pt 0 0), Cmd.close_path] =
        l ++ [cmd, Cmd.close_path] ∧
      (cmd = Cmd.line_to_abs (pt 0 0) ∨ (∃ a, cmd = Cmd.quad_to_abs a (pt 0 0)) ∨
        ∃ c1 c2, cmd = Cmd.cubic_to_abs c1 c2 (pt 0 0)) ∧
      (isi 0 = true → cmd = Cmd.line_to_abs (pt 0 0)) ∧
      (isq 0 = true → cmd = Cmd.quad_to_abs (pt 100 0) (pt 0 0)) :=
  C9_closing_segment
    (mkOutline [[(pt 0 0, 1), (pt 0 100, 0), (pt 100 100, 1), (pt 100 0, 0)]]) 0 0
    (pt 0 0) 1 [(pt 0 100, 0), (pt 100 100, 1), (pt 100 0, 0)]
    [(pt 0 0, 1), (pt 0 100, 0), (pt 100 100, 1)] (pt 100 0) 0 []
    (4, [Cmd.move_to_abs (pt 0 0), Cmd.quad_to_abs (pt 0 100) (pt 100 100),
      Cmd.quad_to_abs (pt 100 0) (pt 0 0), Cmd.close_path])
    (by decide) (by decide) (by rfl)

theorem hrun_two_quads (j : Nat) (p0 : FT_Vector) (t0 : Int) (out : List Cmd)
    (mid : List (FT_Vector × Int)) (q1 : FT_Vector) (t1 : Int) (q2 : FT_Vector) (t2 : Int)
    (post : List (FT_Vector × Int)) (h1 : isq t1 = true) (h2 : isq t2 = true) (h : Hist)
    (hr : hrun (mid ++ (q1, t1) :: (q2, t2) :: post) (hinit j p0 t0 out) = .ok h) :
    Cmd.quad_to_abs q1 (midpoint q1 q2) ∈ h.out := by
  have hsplit : mid ++ (q1, t1) :: (q2, t2) :: post =
      (mid ++ [(q1, t1)]) ++ (q2, t2) :: post := by simp
  rw [hsplit, hrun_append] at hr
  cases hr1 : hrun (mid ++ [(q1, t1)]) (hinit j p0 t0 out) with
  | error e => rw [hr1] at hr; cases hr
  | ok ha =>
    rw [hr1] at hr
    simp only [hrun] at hr
    have hinv := hrun_inv j (mid ++ [(q1, t1)]) [(p0, t0)] _ ha (inv_first j p0 t0 out) hr1
    rw [List.reverse_append, List.reverse_singleton, List.singleton_append] at hinv
    have he1 := inv_e1 hinv
    rw [hstep_quad_quad he1 h1 h2] at hr
    simp only [] at hr
    obtain ⟨l, hl, _⟩ := hrun_out post _ h hr
    rw [hl]
    simp [quadto]

/-- C10, as stated, fails where a coordinate sum leaves `FT_Pos`. With the
quadratic control `(2^63-1, 5)` in the window and the quadratic control
`(1, 6)` as the next point, the iteration writes a `quad_to_abs` ending at
`(-2^62, 5)`: the sum of the two x is `2^63` and wraps to `-2^63`, while
`(x1 + x2) / 2` is `2^62`. -/
theorem C10_midpoint_counterexample :
    (step (pt 1 6) 0
        { p := fun m => if m = 0 then some (pt 9223372036854775807 5) else none
          tag := fun m => if m = 0 then 0 else INT_MAX
          j := 1
          out := [] } >>= fun s1 => pure s1.out) =
      .ok [Cmd.quad_to_abs (pt 9223372036854775807 5) (pt (-4611686018427387904) 5)] ∧
    midpoint (pt 9223372036854775807 5) (pt 1 6) = pt (-4611686018427387904) 5 ∧
    pt (Int.tdiv (9223372036854775807 + 1) 2) (Int.tdiv (5 + 6) 2) =
      pt 4611686018427387904 5 ∧
    pt (-4611686018427387904) 5 ≠ pt 4611686018427387904 5 :=
  ⟨by rfl, by decide, by decide, by decide⟩

/-- C10, amended. Where a quadratic control `q1` is immediately followed by a
quadratic control `q2` and both coordinate sums `x1 + x2`, `y1 + y2` are
within `FT_Pos`, the inner loop writes `quad_to_abs` with control `q1` and end
point `((x1 + x2) / 2, (y1 + y2) / 2)`, the division truncating toward zero
(`Int.tdiv`): for a non-negative sum it is the floor of the half, for a
negative sum the negated floor of the half of the negated sum. The command is
written by the iteration that looks at `q2`, and it is among the commands of
every successful run of the body of the outer loop on such a contour. -/
theorem C10_midpoint (o : FT_Outline) (i j : Nat) (pre : List (FT_Vector × Int))
    (q1 : FT_Vector) (t1 : Int) (q2 : FT_Vector) (t2 : Int)
    (post : List (FT_Vector × Int)) (out : List Cmd)
    (hc : ContourAt o i j (pre ++ (q1, t1) :: (q2, t2) :: post))
    (h1 : isq t1 = true) (h2 : isq t2 = true)
    (hfx : fitsLong (q1.x + q2.x) = true) (hfy : fitsLong (q1.y + q2.y) = true) :
    (∀ r, contour o i j out = .ok r →
        Cmd.quad_to_abs q1
          { x := Int.tdiv (q1.x + q2.x) 2, y := Int.tdiv (q1.y + q2.y) 2 } ∈ r.2) ∧
      (∀ s : Frame, 1 ≤ s.j → s.getTag (s.j - 1) = .ok t1 → s.getP (s.j - 1) = .ok q1 →
        ∃ s1, step q2 t2 s = .ok s1 ∧
          s1.out = s.out ++ [Cmd.quad_to_abs q1
            { x := Int.tdiv (q1.x + q2.x) 2, y := Int.tdiv (q1.y + q2.y) 2 }]) ∧
      (∀ n : Int, (0 ≤ n → Int.tdiv n 2 = n / 2) ∧ (n < 0 → Int.tdiv n 2 = -(-n / 2))) ∧
      midpoint (pt (-1) (-1)) (pt (-2) (-2)) = pt (-1) (-1) := by
  rw [← midpoint_of_fits hfx hfy]
  refine ⟨fun r hr => ?_, fun s hj ht hp => ?_, fun n => ⟨fun hn => ?_, fun hn => ?_⟩, by decide⟩
  · show Cmd.quad_to_abs q1 (midpoint q1 q2) ∈ r.2
    match pre, hc with
    | [], hc =>
      obtain ⟨h, l, hrun1, hcl, rfl⟩ := contour_ok_inv hc hr
      simp only [hrun] at hrun1
      rw [hstep_quad_quad (h := hinit j q1 t1 out) rfl h1 h2] at hrun1
      simp only [] at hrun1
      obtain ⟨l1, hl1, _⟩ := hrun_out post _ h hrun1
      have hmem : Cmd.quad_to_abs q1 (midpoint q1 q2) ∈ h.out := by
        rw [hl1]; simp [quadto]
      rcases hclosing_cases hcl with ⟨_, hl⟩ | ⟨_, _, _, hl⟩ | ⟨_, _, _, _, hl⟩ <;>
        simp [closepath, hl, hmem]
    | (p0, t0) :: mid, hc =>
      obtain ⟨h, l, hrun1, hcl, rfl⟩ := contour_ok_inv hc hr
      have hmem := hrun_two_quads j p0 t0 out mid q1 t1 q2 t2 post h1 h2 h hrun1
      rcases hclosing_cases hcl with ⟨_, hl⟩ | ⟨_, _, _, hl⟩ | ⟨_, _, _, _, hl⟩ <;>
        simp [closepath, hl, hmem]
  · have hj1 : (0 : Int) ≤ s.j - 1 := by omega
    have htag : s.tag (Int.tmod (s.j - 1) 4).toNat = t1 := by
      rw [getTag_cell] at ht
      simp only [Frame.cell, tmod_nonneg_of_nonneg hj1, if_true, cellTag] at ht
      injection ht
    have hpt : s.p (Int.tmod (s.j - 1) 4).toNat = some q1 := by
      rw [getP_cell] at hp
      simp only [Frame.cell, tmod_nonneg_of_nonneg hj1, if_true] at hp
      cases hsp : s.p (Int.tmod (s.j - 1) 4).toNat with
      | none => rw [hsp] at hp; simp [cellPt] at hp
      | some v =>
        rw [hsp] at hp
        simp only [cellPt] at hp
        injection hp with hp
        rw [hp]
    have href := step_refines (rel_of_frame s hj) q2 t2
    rw [hstep_quad_quad (a := q1) (by simp only [hpt, htag]) h1 h2] at href
    cases hs : step q2 t2 s with
    | error e => rw [hs] at href; simp [RelR] at href
    | ok s1 =>
      rw [hs] at href
      obtain ⟨⟨_, ho, _⟩, _⟩ := href
      exact ⟨s1, rfl, by rw [ho]; rfl⟩
  · exact Int.tdiv_eq_ediv hn (by decide)
  · have h1 : n = -(-n) := by ring
    rw [h1, Int.neg_tdiv, Int.tdiv_eq_ediv (by omega) (by decide)]
    simp

/-- The quadratic controls `(-1,-1)` and `(-2,-2)`: the coordinate sums are odd
and negative, and the implied point is `(-1,-1)`. -/
theorem C10_midpoint_witness :
    Cmd.quad_to_abs (pt (-1) (-1)) (pt (-1) (-1)) ∈
      [Cmd.move_to_abs (pt 0 0), Cmd.quad_to_abs (pt (-1) (-1)) (pt (-1) (-1)),
        Cmd.quad_to_abs (pt (-2) (-2)) (pt 3 3), Cmd.line_to_abs (pt 0 0), Cmd.close_path] :=
  (C10_midpoint
    (mkOutline [[(pt 0 0, 1), (pt (-1) (-1), 0), (pt (-2) (-2), 0), (pt 3 3, 1)]]) 0 0
    [(pt 0 0, 1)] (pt (-1) (-1)) 0 (pt (-2) (-2)) 0 [(pt 3 3, 1)] []
    (by decide) (by decide) (by decide) (by decide) (by decide)).1
    (4, [Cmd.move_to_abs (pt 0 0), Cmd.quad_to_abs (pt (-1) (-1)) (pt (-1) (-1)),
      Cmd.quad_to_abs (pt (-2) (-2)) (pt 3 3), Cmd.line_to_abs (pt 0 0), Cmd.close_path])
    (by rfl)

theorem cellSim_refl (e : Option Entry) : CellSim e e := by
  cases e with
  | none => trivial
  | some e => exact ⟨rfl, rfl, rfl, rfl⟩

theorem hstep_sim {h k : Hist} (hs : Sim h k) (pj : FT_Vector) (tj : Int) :
    SimR (hstep pj tj h) (hstep pj tj k) := by
  rcases h with ⟨⟨p1, t1⟩, e2, e3, o⟩
  rcases k with ⟨⟨q1, u1⟩, f2, f3, o1⟩
  obtain ⟨⟨hp, hi, hq, hc⟩, h2, h3, ho⟩ := hs
  simp only at hp hi hq hc h2 h3 ho
  subst hp ho
  have e1s : CellSim (some (p1, t1)) (some (p1, u1)) := ⟨rfl, hi, hq, hc⟩
  have new : EntrySim (some pj, tj) (some pj, tj) := ⟨rfl, rfl, rfl, rfl⟩
  unfold hstep
  simp only [← hi, ← hq, ← hc]
  cases ci : isi t1 <;> simp only [Bool.false_eq_true, ↓reduceIte]
  · cases cq : isq t1 <;> simp only [Bool.false_eq_true, ↓reduceIte]
    · cases cc : isc t1 <;> simp only [Bool.false_eq_true, ↓reduceIte]
      · rfl
      · cases cj : isi tj <;> simp only [Bool.false_eq_true, ↓reduceIte]
        · exact ⟨new, e1s, h2, rfl⟩
        · match e2, f2, h2 with
          | none, none, _ => rfl
          | some (p2, t2), some (q2, u2), h2 =>
            obtain ⟨hp2, hi2, hq2, hc2⟩ := h2
            simp only at hp2 hi2 hq2 hc2
            subst hp2
            simp only [cellTag, ← hc2]
            cases cc2 : isc t2 <;> simp only [Bool.false_eq_true, ↓reduceIte]
            · rfl
            · match e3, f3, h3 with
              | none, none, _ => rfl
              | some (p3, t3), some (q3, u3), h3 =>
                obtain ⟨hp3, hi3, hq3, hc3⟩ := h3
                simp only at hp3 hi3 hq3 hc3
                subst hp3
                simp only [cellTag, ← hi3]
                cases ci3 : isi t3 <;> simp only [Bool.false_eq_true, ↓reduceIte]
                · rfl
                · rcases p2 with _ | p2
                  · simp [cellPt, SimR]
                  · rcases p1 with _ | p1
                    · simp [cellPt, SimR]
                    · simp only [cellPt]
                      exact ⟨new, e1s, ⟨rfl, hi2, hq2, hc2⟩, rfl⟩
    · cases cj : isi tj <;> simp only [Bool.false_eq_true, ↓reduceIte]
      · cases cjq : isq tj <;> simp only [Bool.false_eq_true, ↓reduceIte]
        · rfl
        · rcases p1 with _ | p1
          · simp [cellPt, SimR]
          · simp only [cellPt]
            exact ⟨new, ⟨rfl, rfl, rfl, rfl⟩, h2, rfl⟩
      · rcases p1 with _ | p1
        · simp [cellPt, SimR]
        · simp only [cellPt]
          exact ⟨new, e1s, h2, rfl⟩
  · cases cj : isi tj <;> simp only [Bool.false_eq_true, ↓reduceIte]
    · exact ⟨new, e1s, h2, rfl⟩
    · exact ⟨new, e1s, h2, rfl⟩

theorem hrun_sim (es : List (FT_Vector × Int)) :
    ∀ {h k : Hist}, Sim h k → SimR (hrun es h) (hrun es k) := by
  induction es with
  | nil => intro h k hs; exact hs
  | cons e es ih =>
    intro h k hs
    have h1 := hstep_sim hs e.1 e.2
    simp only [hrun]
    cases ha : hstep e.1 e.2 h with
    | error err =>
      cases hb : hstep e.1 e.2 k with
      | error err2 => rw [ha, hb] at h1; exact h1
      | ok b => rw [ha, hb] at h1; exact h1.elim
    | ok a =>
      cases hb : hstep e.1 e.2 k with
      | error err2 => rw [ha, hb] at h1; exact h1.elim
      | ok b => rw [ha, hb] at h1; exact ih h1

theorem hclosing_sim {h k : Hist} (hs : Sim h k) (p0 : FT_Vector) :
    hclosing p0 h = hclosing p0 k := by
  rcases h with ⟨⟨p1, t1⟩, e2, e3, o⟩
  rcases k with ⟨⟨q1, u1⟩, f2, f3, o1⟩
  obtain ⟨⟨hp, hi, hq, hc⟩, h2, h3, ho⟩ := hs
  simp only at hp hi hq hc h2 h3 ho
  subst hp ho
  unfold hclosing
  simp only [← hi, ← hq, ← hc]
  cases ci : isi t1 <;> simp only [Bool.false_eq_true, ↓reduceIte]
  cases cq : isq t1 <;> simp only [Bool.false_eq_true, ↓reduceIte]
  · cases cc : isc t1 <;> simp only [Bool.false_eq_true, ↓reduceIte]
    match e2, f2, h2 with
    | none, none, _ => rfl
    | some (p2, t2), some (q2, u2), h2 =>
      obtain ⟨hp2, _⟩ := h2
      simp only at hp2
      subst hp2
      rcases p2 with _ | p2 <;> rcases p1 with _ | p1 <;> rfl
  · rcases p1 with _ | p1 <;> rfl

theorem hcontour_first_tag (j : Nat) (p0 : FT_Vector) (t0 : Int)
    (rest : List (FT_Vector × Int)) (out : List Cmd) (h0 : isi t0 = true) :
    hcontour j ((p0, t0) :: rest) out = hcontour j ((p0, 1) :: rest) out := by
  have hs : Sim (hinit j p0 t0 out) (hinit j p0 1 out) := by
    refine ⟨⟨rfl, ?_, ?_, ?_⟩, cellSim_refl _, cellSim_refl _, rfl⟩
    · show isi t0 = isi 1
      rw [h0]; rfl
    · show isq t0 = isq 1
      rw [isq_eq_false_of_isi h0]; rfl
    · show isc t0 = isc 1
      rw [isc_eq_false_of_isi h0]; rfl
  have hr := hrun_sim rest hs
  unfold hcontour
  simp only []
  cases ha : hrun rest (hinit j p0 t0 out) with
  | error err =>
    cases hb : hrun rest (hinit j p0 1 out) with
    | error err2 => rw [ha, hb] at hr; simp only [SimR] at hr; rw [hr]
    | ok b => rw [ha, hb] at hr; exact hr.elim
  | ok a =>
    cases hb : hrun rest (hinit j p0 1 out) with
    | error err2 => rw [ha, hb] at hr; exact hr.elim
    | ok b =>
      rw [ha, hb] at hr
      simp only []
      rw [hclosing_sim hr p0]

/-- C8 (counterexample to the claim as stated). The first point's own tag
decides the first transition: with the first point tagged as a quadratic
control the second point is reached by `quad_to_abs`, with the tag replaced by
on-curve it is reached by `line_to_abs`. -/
theorem C8_first_tag_counterexample :
    contour (mkOutline [[(pt 0 0, 0), (pt 10 10, 1)]]) 0 0 [] =
        .ok (2, [Cmd.move_to_abs (pt 0 0), Cmd.quad_to_abs (pt 0 0) (pt 10 10),
          Cmd.line_to_abs (pt 0 0), Cmd.close_path]) ∧
      contour (mkOutline [[(pt 0 0, 1), (pt 10 10, 1)]]) 0 0 [] =
        .ok (2, [Cmd.move_to_abs (pt 0 0), Cmd.line_to_abs (pt 10 10),
          Cmd.line_to_abs (pt 0 0), Cmd.close_path]) ∧
      contour (mkOutline [[(pt 0 0, 0), (pt 10 10, 1)]]) 0 0 [] ≠
        contour (mkOutline [[(pt 0 0, 1), (pt 10 10, 1)]]) 0 0 [] := by
  have h1 : contour (mkOutline [[(pt 0 0, 0), (pt 10 10, 1)]]) 0 0 [] =
      .ok (2, [Cmd.move_to_abs (pt 0 0), Cmd.quad_to_abs (pt 0 0) (pt 10 10),
        Cmd.line_to_abs (pt 0 0), Cmd.close_path]) := by rfl
  have h2 : contour (mkOutline [[(pt 0 0, 1), (pt 10 10, 1)]]) 0 0 [] =
      .ok (2, [Cmd.move_to_abs (pt 0 0), Cmd.line_to_abs (pt 10 10),
        Cmd.line_to_abs (pt 0 0), Cmd.close_path]) := by rfl
  refine ⟨h1, h2, ?_⟩
  rw [h1, h2]
  intro h
  injection h with h
  injection h with _ h
  injection h with _ h
  injection h with h _
  cases h

/-- C8 (amended). The `move_to_abs` of the first point is written whatever the
first point's tag, and the tag itself is what the first transition classifies:
the body of the outer loop gives the same result as for the contour with the
first tag replaced by the on-curve tag 1 whenever the first point's tag has
bit 0 set. -/
theorem C8_first_tag_on_curve (o o1 : FT_Outline) (i j : Nat) (p0 : FT_Vector) (t0 : Int)
    (rest : List (FT_Vector × Int)) (out : List Cmd)
    (hc : ContourAt o i j ((p0, t0) :: rest))
    (hc1 : ContourAt o1 i j ((p0, 1) :: rest)) :
    (isi t0 = true → contour o i j out = contour o1 i j out) ∧
      (∀ r, contour o i j out = .ok r → ∃ l, r.2 = out ++ Cmd.move_to_abs p0 :: l) := by
  refine ⟨fun h0 => ?_, fun r hr => ?_⟩
  · rw [contour_eq hc out, contour_eq hc1 out, hcontour_first_tag j p0 t0 rest out h0]
  · obtain ⟨h, l, hrun1, hcl, rfl⟩ := contour_ok_inv hc hr
    obtain ⟨l1, hl1, _⟩ := hrun_out rest _ h hrun1
    have hout : h.out = out ++ Cmd.move_to_abs p0 :: l1 := by
      rw [hl1]; simp [hinit, moveto]
    rcases hclosing_cases hcl with ⟨_, hl⟩ | ⟨_, a, _, hl⟩ | ⟨_, c1, c2, _, hl⟩
    · exact ⟨l1 ++ [Cmd.line_to_abs p0, Cmd.close_path], by simp [closepath, hl, hout]⟩
    · exact ⟨l1 ++ [Cmd.quad_to_abs a p0, Cmd.close_path], by simp [closepath, hl, hout]⟩
    · exact ⟨l1 ++ [Cmd.cubic_to_abs c1 c2 p0, Cmd.close_path],
        by simp [closepath, hl, hout]⟩

/-- A first point tagged 5 (bit 0 set, a higher bit set as well) against the
same contour with the first tag 1. -/
theorem C8_first_tag_on_curve_witness :
    contour (mkOutline [[(pt 0 0, 5), (pt 0 100, 0), (pt 100 100, 1)]]) 0 0 [] =
      contour (mkOutline [[(pt 0 0, 1), (pt 0 100, 0), (pt 100 100, 1)]]) 0 0 [] :=
  (C8_first_tag_on_curve
    (mkOutline [[(pt 0 0, 5), (pt 0 100, 0), (pt 100 100, 1)]])
    (mkOutline [[(pt 0 0, 1), (pt 0 100, 0), (pt 100 100, 1)]]) 0 0
    (pt 0 0) 5 [(pt 0 100, 0), (pt 100 100, 1)] [] (by decide) (by decide)).1 (by decide)

/-! ## The commands of one contour -/

theorem hstep_cubic_on_out {h h1 : Hist} {pj : FT_Vector} {tj : Int}
    (hs : hstep pj tj h = .ok h1) (hc : isc h.e1.2 = true) (hj : isi tj = true) :
    ∃ c1 c2, h1.out = h.out ++ [Cmd.cubic_to_abs c1 c2 pj] := by
  unfold hstep at hs
  simp only [isc_not_isi hc, isc_not_isq hc, hc, hj, Bool.false_eq_true, ↓reduceIte] at hs
  repeat' split at hs
  all_goals first
    | (injection hs with hs; subst hs; exact ⟨_, _, rfl⟩)
    | cases hs

theorem hstep_segment {j : Nat} {past : List (FT_Vector × Int)} {h h1 : Hist}
    {e : FT_Vector × Int} (es : List (FT_Vector × Int)) (hinv : Inv j past h)
    (hs : hstep e.1 e.2 h = .ok h1) :
    ∃ l, h1.out = h.out ++ l ∧ l.length ≤ 1 ∧ ∀ cmd ∈ l, Seg (past.reverse ++ e :: es) cmd := by
  match past, hinv with
  | x :: more, hinv =>
    have he1 := inv_e1 hinv
    have hx : h.e1.2 = x.2 := by rw [he1]
    have hmem : (e.1, e.2) ∈ (x :: more).reverse ++ e :: es := by simp
    rcases class_total x.2 with hi | hq | hc
    · cases hci : isi e.2
      · rw [hstep_on_off (by rw [hx]; exact hi) hci] at hs
        injection hs with hs; subst hs
        exact ⟨[], by simp, by simp, by simp⟩
      · rw [hstep_on_on (by rw [hx]; exact hi) hci] at hs
        injection hs with hs; subst hs
        refine ⟨[Cmd.line_to_abs e.1], rfl, by simp, ?_⟩
        intro cmd hcmd
        simp only [List.mem_singleton] at hcmd
        subst hcmd
        exact ⟨e.1, rfl, Or.inl ⟨e.2, hmem, hci⟩⟩
    · rcases class_total e.2 with hei | heq | hec
      · rw [hstep_quad_on he1 hq hei] at hs
        injection hs with hs; subst hs
        refine ⟨[Cmd.quad_to_abs x.1 e.1], rfl, by simp, ?_⟩
        intro cmd hcmd
        simp only [List.mem_singleton] at hcmd
        subst hcmd
        exact ⟨e.1, rfl, Or.inl ⟨e.2, hmem, hei⟩⟩
      · rw [hstep_quad_quad he1 hq heq] at hs
        injection hs with hs; subst hs
        refine ⟨[Cmd.quad_to_abs x.1 (midpoint x.1 e.1)], rfl, by simp, ?_⟩
        intro cmd hcmd
        simp only [List.mem_singleton] at hcmd
        subst hcmd
        exact ⟨_, rfl, Or.inr ⟨more.reverse, x.1, x.2, e.1, e.2, es, by simp, hq, heq, rfl⟩⟩
      · rw [hstep_quad_cubic (by rw [hx]; exact hq) hec] at hs
        cases hs
    · cases hci : isi e.2
      · rw [hstep_cubic_off (by rw [hx]; exact hc) hci] at hs
        injection hs with hs; subst hs
        exact ⟨[], by simp, by simp, by simp⟩
      · obtain ⟨c1, c2, ho⟩ := hstep_cubic_on_out hs (by rw [hx]; exact hc) hci
        refine ⟨[Cmd.cubic_to_abs c1 c2 e.1], ho, by simp, ?_⟩
        intro cmd hcmd
        simp only [List.mem_singleton] at hcmd
        subst hcmd
        exact ⟨e.1, rfl, Or.inl ⟨e.2, hmem, hci⟩⟩

theorem hrun_segments (j : Nat) (es : List (FT_Vector × Int)) :
    ∀ (past : List (FT_Vector × Int)) (h h1 : Hist), Inv j past h → hrun es h = .ok h1 →
      ∃ l, h1.out = h.out ++ l ∧ l.length ≤ es.length ∧
        ∀ cmd ∈ l, Seg (past.reverse ++ es) cmd := by
  induction es with
  | nil =>
    intro past h h1 _ hr
    simp only [hrun] at hr
    injection hr with hr
    subst hr
    exact ⟨[], by simp, by simp, by simp⟩
  | cons e es ih =>
    intro past h h1 hinv hr
    simp only [hrun] at hr
    cases hs : hstep e.1 e.2 h with
    | error err => rw [hs] at hr; cases hr
    | ok h2 =>
      rw [hs] at hr
      obtain ⟨l1, hl1, hn1, hseg1⟩ := hstep_segment es hinv hs
      obtain ⟨l2, hl2, hn2, hseg2⟩ := ih (e :: past) h2 h1 (inv_step hinv hs) hr
      refine ⟨l1 ++ l2, by rw [hl2, hl1, List.append_assoc], ?_, ?_⟩
      · simp only [List.length_append, List.length_cons]
        omega
      · intro cmd hcmd
        rcases List.mem_append.mp hcmd with hm | hm
        · exact hseg1 cmd hm
        · have := hseg2 cmd hm
          simpa using this

/-- The commands of a successful run of the body of the outer loop: the
`move_to_abs` of the first point, at most one drawing command per further
point, the closing command, `close_path`. -/
theorem contour_block {o : FT_Outline} {i j : Nat} {p0 : FT_Vector} {t0 : Int}
    {rest : List (FT_Vector × Int)} (hc : ContourAt o i j ((p0, t0) :: rest))
    {out : List Cmd} {r : Int × List Cmd} (hr : contour o i j out = .ok r) :
    ∃ l1 clos, r.2 = out ++ Cmd.move_to_abs p0 :: l1 ++ [clos, Cmd.close_path] ∧
      l1.length ≤ rest.length ∧ (∀ cmd ∈ l1, Seg ((p0, t0) :: rest) cmd) ∧
      endPoint clos = some p0 := by
  obtain ⟨h, l, hrun1, hcl, rfl⟩ := contour_ok_inv hc hr
  obtain ⟨l1, hl1, hn1, hseg⟩ := hrun_segments j rest [(p0, t0)] _ h (inv_first j p0 t0 out) hrun1
  have hout : h.out = out ++ Cmd.move_to_abs p0 :: l1 := by
    rw [hl1]; simp [hinit, moveto]
  have hseg1 : ∀ cmd ∈ l1, Seg ((p0, t0) :: rest) cmd := by
    intro cmd hcmd
    simpa using hseg cmd hcmd
  rcases hclosing_cases hcl with ⟨_, hl⟩ | ⟨_, a, _, hl⟩ | ⟨_, c1, c2, _, hl⟩
  · exact ⟨l1, Cmd.line_to_abs p0, by simp [closepath, hl, hout], hn1, hseg1, rfl⟩
  · exact ⟨l1, Cmd.quad_to_abs a p0, by simp [closepath, hl, hout], hn1, hseg1, rfl⟩
  · exact ⟨l1, Cmd.cubic_to_abs c1 c2 p0, by simp [closepath, hl, hout], hn1, hseg1, rfl⟩

theorem endPoint_some {cmd : Cmd} {e : FT_Vector} (h : endPoint cmd = some e) :
    (∀ p, cmd ≠ Cmd.move_to_abs p) ∧ cmd ≠ Cmd.close_path := by
  cases cmd <;> simp [endPoint] at h ⊢

/-- C11. When the body of the outer loop succeeds on a non-empty contour, the
commands it adds are `move_to_abs` of the first point, then commands none of
which is a `move_to_abs` or a `close_path`, then `close_path`. -/
theorem C11_block_shape (o : FT_Outline) (i j : Nat) (p0 : FT_Vector) (t0 : Int)
    (rest : List (FT_Vector × Int)) (out : List Cmd) (r : Int × List Cmd)
    (hc : ContourAt o i j ((p0, t0) :: rest)) (hr : contour o i j out = .ok r) :
    ∃ mid, r.2 = out ++ Cmd.move_to_abs p0 :: mid ++ [Cmd.close_path] ∧
      ∀ cmd ∈ mid, (∀ p, cmd ≠ Cmd.move_to_abs p) ∧ cmd ≠ Cmd.close_path := by
  obtain ⟨l1, clos, hblk, _, hseg, hcl⟩ := contour_block hc hr
  refine ⟨l1 ++ [clos], by rw [hblk]; simp, ?_⟩
  intro cmd hcmd
  rcases List.mem_append.mp hcmd with hm | hm
  · obtain ⟨e, he, _⟩ := hseg cmd hm
    exact endPoint_some he
  · simp only [List.mem_singleton] at hm
    subst hm
    exact endPoint_some hcl

/-- Example A of the specification. -/
theorem C11_block_shape_witness :
    ∃ mid,
      [Cmd.move_to_abs (pt 0 0), Cmd.quad_to_abs (pt 0 100) (pt 100 100),
          Cmd.quad_to_abs (pt 100 0) (pt 0 0), Cmd.close_path] =
        [] ++ Cmd.move_to_abs (pt 0 0) :: mid ++ [Cmd.close_path] ∧
      ∀ cmd ∈ mid, (∀ p, cmd ≠ Cmd.move_to_abs p) ∧ cmd ≠ Cmd.close_path :=
  C11_block_shape
    (mkOutline [[(pt 0 0, 1), (pt 0 100, 0), (pt 100 100, 1), (pt 100 0, 0)]]) 0 0
    (pt 0 0) 1 [(pt 0 100, 0), (pt 100 100, 1), (pt 100 0, 0)] []
    (4, [Cmd.move_to_abs (pt 0 0), Cmd.quad_to_abs (pt 0 100) (pt 100 100),
      Cmd.quad_to_abs (pt 100 0) (pt 0 0), Cmd.close_path])
    (by decide) (by rfl)

/-- C12, as stated, fails where a coordinate sum leaves `FT_Pos`. On the
contour of the on-curve point `(0, 0)` and the quadratic controls
`(2^62, 2^62)` and `(2^62, 2^62 + 1)` the run succeeds and its first
`quad_to_abs` ends at `(-2^62, -2^62 + 1)`, which is no point of the contour
and not the midpoint `(2^62, 2^62)` of the two controls. -/
theorem C12_end_points_counterexample :
    contour (mkOutline [[(pt 0 0, 1), (pt 4611686018427387904 4611686018427387904, 0),
        (pt 4611686018427387904 4611686018427387905, 0)]]) 0 0 [] =
      .ok (3, [Cmd.move_to_abs (pt 0 0),
        Cmd.quad_to_abs (pt 4611686018427387904 4611686018427387904)
          (pt (-4611686018427387904) (-4611686018427387903)),
        Cmd.quad_to_abs (pt 4611686018427387904 4611686018427387905) (pt 0 0),
        Cmd.close_path]) ∧
    ¬ ((∃ t, (pt (-4611686018427387904) (-4611686018427387903), t) ∈
          [(pt 0 0, (1 : Int)), (pt 4611686018427387904 4611686018427387904, 0),
            (pt 4611686018427387904 4611686018427387905, 0)] ∧ isi t = true) ∨
        ∃ u q1 t1 q2 t2 v,
          [(pt 0 0, (1 : Int)), (pt 4611686018427387904 4611686018427387904, 0),
            (pt 4611686018427387904 4611686018427387905, 0)] =
              u ++ (q1, t1) :: (q2, t2) :: v ∧
          isq t1 = true ∧ isq t2 = true ∧
          pt (-4611686018427387904) (-4611686018427387903) =
            { x := Int.tdiv (q1.x + q2.x) 2, y := Int.tdiv (q1.y + q2.y) 2 }) := by
  refine ⟨by rfl, ?_⟩
  rintro (⟨t, hmem, _⟩ | ⟨u, q1, t1, q2, t2, v, hct, hq1, _, he⟩)
  · simp only [List.mem_cons, List.mem_singleton, Prod.mk.injEq, List.mem_nil_iff,
      or_false] at hmem
    rcases hmem with ⟨h, _⟩ | ⟨h, _⟩ | ⟨h, _⟩ <;> exact absurd h (by decide)
  · rcases u with _ | ⟨a, _ | ⟨b, _ | ⟨c, u⟩⟩⟩
    · simp only [List.nil_append, List.cons.injEq, Prod.mk.injEq] at hct
      obtain ⟨⟨_, ht1⟩, _⟩ := hct
      rw [← ht1] at hq1
      exact absurd hq1 (by decide)
    · simp only [List.cons_append, List.nil_append, List.cons.injEq, Prod.mk.injEq] at hct
      obtain ⟨_, ⟨hq1e, _⟩, ⟨hq2e, _⟩, _⟩ := hct
      rw [← hq1e, ← hq2e] at he
      exact absurd he (by decide)
    · simp only [List.cons_append, List.nil_append, List.cons.injEq, Prod.mk.injEq] at hct
      obtain ⟨_, _, _, hnil⟩ := hct
      cases hnil
    · simp only [List.cons_append, List.cons.injEq, Prod.mk.injEq] at hct
      obtain ⟨_, _, _, hnil⟩ := hct
      cases u <;> cases hnil

/-- C12, amended. When the body of the outer loop succeeds on a non-empty
contour, every drawing command it writes before the closing one ends at a
point of the contour whose tag classifies as on-curve, or at the point that
`midpoint` computes in `FT_Pos` arithmetic from two consecutive quadratic
controls of the contour, which is their truncated midpoint whenever both
coordinate sums are within `FT_Pos`; the closing command ends at the first
point of the contour. -/
theorem C12_end_points (o : FT_Outline) (i j : Nat) (p0 : FT_Vector) (t0 : Int)
    (rest : List (FT_Vector × Int)) (out : List Cmd) (r : Int × List Cmd)
    (hc : ContourAt o i j ((p0, t0) :: rest)) (hr : contour o i j out = .ok r) :
    ∃ mid clos, r.2 = out ++ Cmd.move_to_abs p0 :: mid ++ [clos, Cmd.close_path] ∧
      (∀ cmd ∈ mid, ∃ e, endPoint cmd = some e ∧
        ((∃ t, (e, t) ∈ (p0, t0) :: rest ∧ isi t = true) ∨
          ∃ u q1 t1 q2 t2 v, (p0, t0) :: rest = u ++ (q1, t1) :: (q2, t2) :: v ∧
            isq t1 = true ∧ isq t2 = true ∧ e = midpoint q1 q2 ∧
            (fitsLong (q1.x + q2.x) = true → fitsLong (q1.y + q2.y) = true →
              e = { x := Int.tdiv (q1.x + q2.x) 2, y := Int.tdiv (q1.y + q2.y) 2 }))) ∧
      endPoint clos = some p0 := by
  obtain ⟨l1, clos, hblk, _, hseg, hcl⟩ := contour_block hc hr
  refine ⟨l1, clos, hblk, fun cmd hcmd => ?_, hcl⟩
  obtain ⟨e, he, hok⟩ := hseg cmd hcmd
  refine ⟨e, he, ?_⟩
  rcases hok with hon | ⟨u, q1, t1, q2, t2, v, hct, hq1, hq2, hm⟩
  · exact Or.inl hon
  · exact Or.inr ⟨u, q1, t1, q2, t2, v, hct, hq1, hq2, hm, fun hx hy => by
      rw [hm]; exact midpoint_of_fits hx hy⟩

/-- Two quadratic controls between on-curve points: the first `quad_to_abs`
ends at their midpoint, the second at an on-curve point, the closing
`line_to_abs` at the first point. -/
theorem C12_end_points_witness :
    ∃ mid clos,
      [Cmd.move_to_abs (pt 0 0), Cmd.quad_to_abs (pt 0 100) (pt 50 100),
          Cmd.quad_to_abs (pt 100 100) (pt 100 0), Cmd.line_to_abs (pt 0 0),
          Cmd.close_path] =
        [] ++ Cmd.move_to_abs (pt 0 0) :: mid ++ [clos, Cmd.close_path] ∧
      (∀ cmd ∈ mid, ∃ e, endPoint cmd = some e ∧
        ((∃ t, (e, t) ∈ [(pt 0 0, 1), (pt 0 100, 0), (pt 100 100, 0), (pt 100 0, 1)] ∧
            isi t = true) ∨
          ∃ u q1 t1 q2 t2 v,
            [(pt 0 0, 1), (pt 0 100, 0), (pt 100 100, 0), (pt 100 0, 1)] =
              u ++ (q1, t1) :: (q2, t2) :: v ∧
            isq t1 = true ∧ isq t2 = true ∧ e = midpoint q1 q2 ∧
            (fitsLong (q1.x + q2.x) = true → fitsLong (q1.y + q2.y) = true →
              e = { x := Int.tdiv (q1.x + q2.x) 2, y := Int.tdiv (q1.y + q2.y) 2 }))) ∧
      endPoint clos = some (pt 0 0) :=
  C12_end_points
    (mkOutline [[(pt 0 0, 1), (pt 0 100, 0), (pt 100 100, 0), (pt 100 0, 1)]]) 0 0
    (pt 0 0) 1 [(pt 0 100, 0), (pt 100 100, 0), (pt 100 0, 1)] []
    (4, [Cmd.move_to_abs (pt 0 0), Cmd.quad_to_abs (pt 0 100) (pt 50 100),
      Cmd.quad_to_abs (pt 100 100) (pt 100 0), Cmd.line_to_abs (pt 0 0), Cmd.close_path])
    (by decide) (by rfl)

/-- C20. When the body of the outer loop succeeds on a contour of `n ≥ 1`
points, it adds at least 3 and at most `n + 2` commands. -/
theorem C20_command_count (o : FT_Outline) (i j : Nat) (p0 : FT_Vector) (t0 : Int)
    (rest : List (FT_Vector × Int)) (out : List Cmd) (r : Int × List Cmd)
    (hc : ContourAt o i j ((p0, t0) :: rest)) (hr : contour o i j out = .ok r) :
    ∃ blk, r.2 = out ++ blk ∧ 3 ≤ blk.length ∧
      blk.length ≤ ((p0, t0) :: rest).length + 2 := by
  obtain ⟨l1, clos, hblk, hn, _, _⟩ := contour_block hc hr
  refine ⟨Cmd.move_to_abs p0 :: l1 ++ [clos, Cmd.close_path], by rw [hblk]; simp, ?_, ?_⟩
  · simp
  · simp only [List.cons_append, List.length_cons, List.length_append, List.length_nil]
    omega

/-- A single point (3 commands, the least) and a triangle (5 commands, the
most for 3 points). -/
theorem C20_command_count_witness :
    (∃ blk, [Cmd.move_to_abs (pt 7 7), Cmd.line_to_abs (pt 7 7), Cmd.close_path] = [] ++ blk ∧
        3 ≤ blk.length ∧ blk.length ≤ [(pt 7 7, (1 : Int))].length + 2) ∧
      ∃ blk,
        [Cmd.move_to_abs (pt 0 0), Cmd.line_to_abs (pt 10 0), Cmd.line_to_abs (pt 0 10),
            Cmd.line_to_abs (pt 0 0), Cmd.close_path] = [] ++ blk ∧
        3 ≤ blk.length ∧
        blk.length ≤ [(pt 0 0, (1 : Int)), (pt 10 0, 1), (pt 0 10, 1)].length + 2 :=
  ⟨C20_command_count (mkOutline [[(pt 7 7, 1)]]) 0 0 (pt 7 7) 1 [] []
      (1, [Cmd.move_to_abs (pt 7 7), Cmd.line_to_abs (pt 7 7), Cmd.close_path])
      (by decide) (by rfl),
    C20_command_count (mkOutline [[(pt 0 0, 1), (pt 10 0, 1), (pt 0 10, 1)]]) 0 0
      (pt 0 0) 1 [(pt 10 0, 1), (pt 0 10, 1)] []
      (3, [Cmd.move_to_abs (pt 0 0), Cmd.line_to_abs (pt 10 0), Cmd.line_to_abs (pt 0 10),
        Cmd.line_to_abs (pt 0 0), Cmd.close_path])
      (by decide) (by rfl)⟩

/-! ## Tag classification -/

theorem land_zero_right (m : Int) : Int.land m 0 = 0 := by
  cases m with
  | ofNat m => show ((m &&& 0 : Nat) : Int) = 0; simp
  | negSucc m => show ((Nat.ldiff 0 m : Nat) : Int) = 0; simp [Nat.ldiff]

theorem land_one (t : Int) : Int.land t 1 = if t.testBit 0 then 1 else 0 := by
  have h1 : (1 : Int) = Int.bit true 0 := by decide
  conv_lhs => rw [← Int.bit_decomp t, h1, Int.land_bit, land_zero_right]
  have h2 : t.testBit 0 = t.bodd := by
    conv_lhs => rw [← Int.bit_decomp t, Int.testBit_bit_zero]
  rw [h2]
  cases t.bodd <;> decide

theorem land_two (t : Int) : Int.land t 2 = if t.testBit 1 then 2 else 0 := by
  have h1 : (2 : Int) = Int.bit false 1 := by decide
  conv_lhs => rw [← Int.bit_decomp t, h1, Int.land_bit, land_one]
  have h2 : t.testBit 1 = t.div2.testBit 0 := by
    conv_lhs => rw [← Int.bit_decomp t, Int.testBit_bit_succ]
  rw [h2]
  rw [Bool.and_false]
  cases t.div2.testBit 0 <;> decide

/-- C13. Every raw tag falls in exactly one of the classes `isi`, `isq`,
`isc`; the class of a tag is the class of `tag & 3`; and the classes are the
tests of the source on the two low bits: `isi` is `tag & 1` non-zero, `isq` is
`tag & 1` and `tag & 2` both zero, `isc` is `tag & 1` zero and `tag & 2`
non-zero (`&` is `Int.land`, the bitwise and of two's complement integers). -/
theorem C13_classification (t : Int) :
    ((isi t = true ∧ isq t = false ∧ isc t = false) ∨
        (isi t = false ∧ isq t = true ∧ isc t = false) ∨
        (isi t = false ∧ isq t = false ∧ isc t = true)) ∧
      (isi (Int.land t 3) = isi t ∧ isq (Int.land t 3) = isq t ∧
        isc (Int.land t 3) = isc t) ∧
      (isi t = true ↔ Int.land t 1 ≠ 0) ∧
      (isq t = true ↔ Int.land t 1 = 0 ∧ Int.land t 2 = 0) ∧
      (isc t = true ↔ Int.land t 1 = 0 ∧ Int.land t 2 ≠ 0) := by
  have b0 : (Int.land t 3).testBit 0 = t.testBit 0 := by
    rw [Int.testBit_land, show Int.testBit 3 0 = true from by decide, Bool.and_true]
  have b1 : (Int.land t 3).testBit 1 = t.testBit 1 := by
    rw [Int.testBit_land, show Int.testBit 3 1 = true from by decide, Bool.and_true]
  refine ⟨?_, ⟨?_, ?_, ?_⟩, ?_, ?_, ?_⟩
  · unfold isi isq isc
    cases t.testBit 0 <;> cases t.testBit 1 <;> simp
  · unfold isi; exact b0
  · unfold isq; rw [b0, b1]
  · unfold isc; rw [b0, b1]
  · unfold isi
    rw [land_one]
    cases t.testBit 0 <;> simp
  · unfold isq
    rw [land_one, land_two]
    cases t.testBit 0 <;> cases t.testBit 1 <;> simp
  · unfold isc
    rw [land_one, land_two]
    cases t.testBit 0 <;> cases t.testBit 1 <;> simp

/-! ## The outer loop -/

theorem contourResults_error (o : FT_Outline) {k : Nat} {e : Err}
    (h : contourResults o k = .error e) : ∀ d : Nat, contourResults o (k + d) = .error e := by
  intro d
  induction d with
  | zero => exact h
  | succ d ih =>
    show contourResults o (k + d + 1) = _
    simp only [contourResults, ih]

theorem contourResults_ok_of_le (o : FT_Outline) {m : Nat} {s : Int × List Cmd}
    (h : contourResults o m = .ok s) {k : Nat} (hk : k ≤ m) :
    ∃ s1, contourResults o k = .ok s1 := by
  cases hr : contourResults o k with
  | ok s1 => exact ⟨s1, rfl⟩
  | error e =>
    have := contourResults_error o hr (m - k)
    rw [Nat.add_sub_cancel' hk, h] at this
    cases this

theorem outerLoop_eq (o : FT_Outline) :
    ∀ (fuel i : Nat) (s : Int × List Cmd), i + fuel = o.n_contours.toNat →
      contourResults o i = .ok s →
      outerLoop o fuel i s.1 s.2 =
        match contourResults o o.n_contours.toNat with
        | .ok s1 => .ok s1.2
        | .error e => .error e := by
  intro fuel
  induction fuel with
  | zero =>
    intro i s hi hs
    simp only [Nat.add_zero] at hi
    rw [← hi, hs]
    rfl
  | succ fuel ih =>
    intro i s hi hs
    have hlt : (i : Int) < o.n_contours := by omega
    unfold outerLoop
    simp only [hlt, if_true]
    have hnext : contourResults o (i + 1) = contour o i s.1 s.2 := by
      simp only [contourResults, hs]
    cases hc : contour o i s.1 s.2 with
    | error e =>
      rw [hc] at hnext
      have := contourResults_error o hnext fuel
      rw [show i + 1 + fuel = o.n_contours.toNat from by omega] at this
      rw [this]
      rfl
    | ok r =>
      rw [hc] at hnext
      rw [ok_bind]
      have := ih (i + 1) r (by omega) hnext
      rw [← this]
      simp

theorem copyglyphoutline_eq (o : FT_Outline) :
    copyglyphoutline o =
      match contourResults o o.n_contours.toNat with
      | .ok s1 => .ok s1.2
      | .error e => .error e :=
  outerLoop_eq o o.n_contours.toNat 0 (0, []) (by simp) rfl

/-- C15. The outer loop runs the contour bodies in order and stops at the first
one that fails: when the bodies of contours `0 .. k-1` have succeeded and the
body of contour `k` ends in an error, `copyglyphoutline` ends in that error and
gives no commands; and `copyglyphoutline` gives commands exactly when the body
of every contour, run in its turn, succeeds. -/
theorem C15_fail_fast (o : FT_Outline) :
    (∀ (k : Nat) (s : Int × List Cmd) (e : Err), k < o.n_contours.toNat →
        contourResults o k = .ok s → contour o k s.1 s.2 = .error e →
        copyglyphoutline o = .error e) ∧
      ((∃ l, copyglyphoutline o = .ok l) ↔
        ∀ k : Nat, k < o.n_contours.toNat →
          ∃ s r, contourResults o k = .ok s ∧ contour o k s.1 s.2 = .ok r) := by
  refine ⟨fun k s e hk hs hc => ?_, ⟨fun ⟨l, hl⟩ k hk => ?_, fun hall => ?_⟩⟩
  · have hnext : contourResults o (k + 1) = .error e := by
      simp only [contourResults, hs, hc]
    have := contourResults_error o hnext (o.n_contours.toNat - (k + 1))
    rw [Nat.add_sub_cancel' hk] at this
    rw [copyglyphoutline_eq, this]
  · rw [copyglyphoutline_eq] at hl
    cases hn : contourResults o o.n_contours.toNat with
    | error e => rw [hn] at hl; cases hl
    | ok sn =>
      obtain ⟨s, hs⟩ := contourResults_ok_of_le o hn (Nat.le_of_lt hk)
      obtain ⟨r, hr⟩ := contourResults_ok_of_le o hn hk
      refine ⟨s, r, hs, ?_⟩
      simp only [contourResults, hs] at hr
      exact hr
  · have hk : ∀ k : Nat, k ≤ o.n_contours.toNat → ∃ s, contourResults o k = .ok s := by
      intro k
      induction k with
      | zero => intro _; exact ⟨_, rfl⟩
      | succ k ih =>
        intro hle
        obtain ⟨s, r, hs, hr⟩ := hall k hle
        exact ⟨r, by simp only [contourResults, hs, hr]⟩
    obtain ⟨s, hs⟩ := hk _ (Nat.le_refl _)
    exact ⟨s.2, by rw [copyglyphoutline_eq, hs]⟩

/-- Three contours, the second with a quadratic control followed by a cubic
control: the first body succeeds, the second ends in `illformedQuadratic`, and so
does `copyglyphoutline`. -/
theorem C15_fail_fast_witness :
    copyglyphoutline
        (mkOutline [[(pt 0 0, 1), (pt 10 0, 1)], [(pt 0 0, 1), (pt 0 50, 0), (pt 10 60, 2)],
          [(pt 5 5, 1)]]) =
      .error Err.illformedQuadratic :=
  (C15_fail_fast
    (mkOutline [[(pt 0 0, 1), (pt 10 0, 1)], [(pt 0 0, 1), (pt 0 50, 0), (pt 10 60, 2)],
      [(pt 5 5, 1)]])).1 1
    (2, [Cmd.move_to_abs (pt 0 0), Cmd.line_to_abs (pt 10 0), Cmd.line_to_abs (pt 0 0),
      Cmd.close_path])
    Err.illformedQuadratic (by decide) (by rfl) (by rfl)

/-! ## Outlines given as lists of contours -/

theorem endIndices_get (ct : Contour) (post : List Contour) :
    ∀ (pre : List Contour) (start : Int),
      (endIndices start (pre ++ ct :: post))[pre.length]? =
        some (start + pre.flatten.length + ct.length - 1) := by
  intro pre
  induction pre with
  | nil =>
    intro start
    simp [endIndices]
  | cons p pre ih =>
    intro start
    have h1 : (endIndices start (p :: pre ++ ct :: post))[(p :: pre).length]? =
        (endIndices (start + p.length) (pre ++ ct :: post))[pre.length]? := by
      simp only [List.cons_append, endIndices, List.length_cons, List.getElem?_cons_succ]
      rfl
    rw [h1, ih, List.flatten_cons, List.length_append]
    congr 1
    push_cast
    ring

theorem contourAt_mkOutline (pre : List Contour) (ct : Contour) (post : List Contour) :
    ContourAt (mkOutline (pre ++ ct :: post)) pre.length pre.flatten.length ct := by
  refine ⟨?_, ?_, ?_⟩
  · show (endIndices 0 (pre ++ ct :: post))[pre.length]? = _
    rw [endIndices_get]
    simp
  · show List.take ct.length
        (List.drop pre.flatten.length (List.map Prod.fst (pre ++ ct :: post).flatten)) = _
    rw [List.flatten_append, List.flatten_cons, List.map_append, List.map_append,
      List.drop_left' (List.length_map _ _), List.take_left' (List.length_map _ _)]
  · show List.take ct.length
        (List.drop pre.flatten.length (List.map Prod.snd (pre ++ ct :: post).flatten)) = _
    rw [List.flatten_append, List.flatten_cons, List.map_append, List.map_append,
      List.drop_left' (List.length_map _ _), List.take_left' (List.length_map _ _)]

theorem outerLoop_mkOutline (post : List Contour) :
    ∀ (pre : List Contour) (out : List Cmd), (∀ ct ∈ post, ct ≠ []) →
      outerLoop (mkOutline (pre ++ post)) post.length pre.length pre.flatten.length out =
        glyphRun pre.flatten.length post out := by
  induction post with
  | nil => intro pre out _; rfl
  | cons ct post ih =>
    intro pre out hne
    match ct, hne ct (List.mem_cons_self _ _), hne, ih with
    | (p0, t0) :: rest, _, hne, ih =>
      have hlt : ((pre.length : Nat) : Int) <
          (mkOutline (pre ++ ((p0, t0) :: rest) :: post)).n_contours := by
        show ((pre.length : Nat) : Int) < ((pre ++ ((p0, t0) :: rest) :: post).length : Nat)
        simp
      have hat := contourAt_mkOutline pre ((p0, t0) :: rest) post
      simp only [List.length_cons, outerLoop, hlt, if_true, glyphRun]
      rw [contour_eq hat out]
      cases hcontour pre.flatten.length ((p0, t0) :: rest) out with
      | error e => rfl
      | ok l =>
        simp only [ok_bind]
        have h1 := ih (pre ++ [(p0, t0) :: rest]) l (fun x hx => hne x (List.mem_cons_of_mem _ hx))
        simp only [List.append_assoc, List.singleton_append, List.length_append,
          List.length_singleton, List.flatten_append, List.flatten_cons, List.flatten_nil,
          List.append_nil, List.length_cons] at h1
        rw [← h1]
        congr 1

theorem copyglyphoutline_mkOutline (cs : List Contour) (hne : ∀ ct ∈ cs, ct ≠ []) :
    copyglyphoutline (mkOutline cs) = glyphRun 0 cs [] := by
  have := outerLoop_mkOutline cs [] [] hne
  simpa [copyglyphoutline, mkOutline] using this

theorem hstepW_true (pj : FT_Vector) (tj : Int) (h : Hist) :
    hstepW true pj tj h = hstep pj tj h := by
  unfold hstepW hstep
  simp

theorem hstepW_off (a b : Bool) {h k : Hist} (hoff : Off h k) (pj : FT_Vector) (tj : Int) :
    OffR (hstepW a pj tj h) (hstepW b pj tj k) := by
  rcases h with ⟨⟨p1, t1⟩, e2, e3, o⟩
  rcases k with ⟨⟨q1, u1⟩, f2, f3, o1⟩
  obtain ⟨h1, ho, h2, h3⟩ := hoff
  simp only at h1 ho h2 h3
  injection h1 with hp ht
  subst hp ht ho
  unfold hstepW
  simp only []
  cases ci : isi t1 <;> simp only [Bool.false_eq_true, ↓reduceIte]
  · cases cq : isq t1 <;> simp only [Bool.false_eq_true, ↓reduceIte]
    · cases cc : isc t1 <;> simp only [Bool.false_eq_true, ↓reduceIte]
      · rfl
      · have he2 := h2 cc
        subst he2
        cases cj : isi tj <;> simp only [Bool.false_eq_true, ↓reduceIte]
        · refine ⟨rfl, rfl, fun _ => rfl, fun _ x hx _ => ?_⟩
          rfl
        · match e2, h3 with
          | none, _ => rfl
          | some (p2, t2), h3 =>
            simp only [cellTag]
            cases cc2 : isc t2 <;> simp only [Bool.false_eq_true, ↓reduceIte]
            · rfl
            · have he3 := h3 cc (p2, t2) rfl cc2
              subst he3
              match e3 with
              | none => rfl
              | some (p3, t3) =>
                simp only [cellTag]
                cases ci3 : isi t3 <;> simp only [Bool.false_eq_true, ↓reduceIte]
                · rfl
                · rcases p2 with _ | p2
                  · simp [cellPt, OffR]
                  · rcases p1 with _ | p1
                    · simp [cellPt, OffR]
                    · simp only [cellPt]
                      refine ⟨rfl, rfl, fun _ => rfl, fun hc => ?_⟩
                      rw [isc_eq_false_of_isi cj] at hc
                      cases hc
    · cases cj : isi tj <;> simp only [Bool.false_eq_true, ↓reduceIte]
      · cases cjq : isq tj <;> simp only [Bool.false_eq_true, ↓reduceIte]
        · rfl
        · rcases p1 with _ | p1
          · simp [cellPt, OffR]
          · simp only [cellPt]
            have hnc : isc tj = false := by
              cases hh : isc tj
              · rfl
              · rw [isc_not_isq hh] at cjq; cases cjq
            refine ⟨rfl, rfl, fun hc => ?_, fun hc => ?_⟩
            · rw [hnc] at hc; cases hc
            · rw [hnc] at hc; cases hc
      · rcases p1 with _ | p1
        · simp [cellPt, OffR]
        · simp only [cellPt]
          refine ⟨rfl, rfl, fun _ => rfl, fun hc => ?_⟩
          rw [isc_eq_false_of_isi cj] at hc
          cases hc
  · have hnc : isc t1 = false := isc_eq_false_of_isi ci
    cases cj : isi tj <;> simp only [Bool.false_eq_true, ↓reduceIte]
    · refine ⟨rfl, rfl, fun _ => rfl, fun _ x hx hcx => ?_⟩
      simp only [Option.some.injEq] at hx
      subst hx
      rw [hnc] at hcx
      cases hcx
    · refine ⟨rfl, rfl, fun _ => rfl, fun hc => ?_⟩
      rw [isc_eq_false_of_isi cj] at hc
      cases hc

theorem hrun_off (es : List (FT_Vector × Int)) :
    ∀ {h k : Hist}, Off h k → OffR (hrun es h) (hrun es k) := by
  induction es with
  | nil => intro h k hoff; exact hoff
  | cons e es ih =>
    intro h k hoff
    have h1 := hstepW_off true true hoff e.1 e.2
    rw [hstepW_true, hstepW_true] at h1
    simp only [hrun]
    cases ha : hstep e.1 e.2 h with
    | error err =>
      cases hb : hstep e.1 e.2 k with
      | error err2 => rw [ha, hb] at h1; exact h1
      | ok b => rw [ha, hb] at h1; exact h1.elim
    | ok a =>
      cases hb : hstep e.1 e.2 k with
      | error err2 => rw [ha, hb] at h1; exact h1.elim
      | ok b => rw [ha, hb] at h1; exact ih h1

theorem hclosing_off {h k : Hist} (hoff : Off h k) (p0 : FT_Vector) :
    hclosing p0 h = hclosing p0 k := by
  rcases h with ⟨⟨p1, t1⟩, e2, e3, o⟩
  rcases k with ⟨⟨q1, u1⟩, f2, f3, o1⟩
  obtain ⟨h1, ho, h2, _⟩ := hoff
  simp only at h1 ho h2
  injection h1 with hp ht
  subst hp ht ho
  unfold hclosing
  simp only []
  cases ci : isi t1 <;> simp only [Bool.false_eq_true, ↓reduceIte]
  cases cq : isq t1 <;> simp only [Bool.false_eq_true, ↓reduceIte]
  cases cc : isc t1 <;> simp only [Bool.false_eq_true, ↓reduceIte]
  rw [h2 cc]

theorem hcontour_off (j k : Nat) (p0 : FT_Vector) (t0 : Int)
    (rest : List (FT_Vector × Int)) (out : List Cmd) (h0 : isc t0 = false) :
    hcontour j ((p0, t0) :: rest) out = hcontour k ((p0, t0) :: rest) out := by
  have hoff : Off (hinit j p0 t0 out) (hinit k p0 t0 out) := by
    refine ⟨rfl, rfl, fun hc => ?_, fun hc => ?_⟩
    · rw [show (hinit j p0 t0 out).e1.2 = t0 from rfl, h0] at hc; cases hc
    · rw [show (hinit j p0 t0 out).e1.2 = t0 from rfl, h0] at hc; cases hc
  have hr := hrun_off rest hoff
  unfold hcontour
  simp only []
  cases ha : hrun rest (hinit j p0 t0 out) with
  | error err =>
    cases hb : hrun rest (hinit k p0 t0 out) with
    | error err2 => rw [ha, hb] at hr; simp only [OffR] at hr; rw [hr]
    | ok b => rw [ha, hb] at hr; exact hr.elim
  | ok a =>
    cases hb : hrun rest (hinit k p0 t0 out) with
    | error err2 => rw [ha, hb] at hr; exact hr.elim
    | ok b =>
      rw [ha, hb] at hr
      simp only []
      rw [hclosing_off hr p0]

theorem hstep_shift (o : List Cmd) (pj : FT_Vector) (tj : Int) (h : Hist) :
    hstep pj tj (h.shift o) =
      match hstep pj tj h with
      | .ok h1 => .ok (h1.shift o)
      | .error e => .error e := by
  rcases h with ⟨⟨p1, t1⟩, e2, e3, out⟩
  unfold hstep Hist.shift
  simp only []
  cases ci : isi t1 <;> simp only [Bool.false_eq_true, ↓reduceIte]
  · cases cq : isq t1 <;> simp only [Bool.false_eq_true, ↓reduceIte]
    · cases cc : isc t1 <;> simp only [Bool.false_eq_true, ↓reduceIte]
      cases cj : isi tj <;> simp only [Bool.false_eq_true, ↓reduceIte]
      rcases e2 with _ | ⟨p2, t2⟩
      · rfl
      · simp only [cellTag]
        cases cc2 : isc t2 <;> simp only [Bool.false_eq_true, ↓reduceIte]
        rcases e3 with _ | ⟨p3, t3⟩
        · rfl
        · simp only [cellTag]
          cases ci3 : isi t3 <;> simp only [Bool.false_eq_true, ↓reduceIte]
          rcases p2 with _ | p2
          · rfl
          · rcases p1 with _ | p1
            · rfl
            · simp [cellPt, cubicto]
    · cases cj : isi tj <;> simp only [Bool.false_eq_true, ↓reduceIte]
      · cases cjq : isq tj <;> simp only [Bool.false_eq_true, ↓reduceIte]
        rcases p1 with _ | p1
        · rfl
        · simp [cellPt, quadto]
      · rcases p1 with _ | p1
        · rfl
        · simp [cellPt, quadto]
  · cases cj : isi tj <;> simp only [Bool.false_eq_true, ↓reduceIte]
    simp [lineto]

theorem hrun_shift (o : List Cmd) (es : List (FT_Vector × Int)) :
    ∀ h : Hist, hrun es (h.shift o) =
      match hrun es h with
      | .ok h1 => .ok (h1.shift o)
      | .error e => .error e := by
  induction es with
  | nil => intro h; rfl
  | cons e es ih =>
    intro h
    simp only [hrun, hstep_shift]
    cases hstep e.1 e.2 h with
    | error err => rfl
    | ok h1 => exact ih h1

theorem hclosing_shift (o : List Cmd) (p0 : FT_Vector) (h : Hist) :
    hclosing p0 (h.shift o) =
      match hclosing p0 h with
      | .ok l => .ok (o ++ l)
      | .error e => .error e := by
  rcases h with ⟨⟨p1, t1⟩, e2, e3, out⟩
  unfold hclosing Hist.shift
  simp only []
  cases ci : isi t1 <;> simp only [Bool.false_eq_true, ↓reduceIte]
  · cases cq : isq t1 <;> simp only [Bool.false_eq_true, ↓reduceIte]
    · cases cc : isc t1 <;> simp only [Bool.false_eq_true, ↓reduceIte]
      rcases e2 with _ | ⟨_ | p2, t2⟩
      · rfl
      · rfl
      · rcases p1 with _ | p1
        · rfl
        · simp [cellPt, cubicto]
    · rcases p1 with _ | p1
      · rfl
      · simp [cellPt, quadto]
  · simp [lineto]

theorem hcontour_shift (j : Nat) (ct : Contour) (out : List Cmd) :
    hcontour j ct out =
      match hcontour j ct [] with
      | .ok l => .ok (out ++ l)
      | .error e => .error e := by
  match ct with
  | [] => rfl
  | (p0, t0) :: rest =>
    have hi : hinit j p0 t0 out = (hinit j p0 t0 []).shift out := by
      simp [hinit, Hist.shift, moveto]
    unfold hcontour
    simp only []
    rw [hi, hrun_shift]
    cases hrun rest (hinit j p0 t0 []) with
    | error e => rfl
    | ok h =>
      simp only []
      rw [hclosing_shift]
      cases hclosing p0 h with
      | error e => rfl
      | ok l => simp [closepath]

theorem decompose_eq (ct : Contour) (hne : ct ≠ []) : decompose ct = hcontour 0 ct [] := by
  unfold decompose
  rw [copyglyphoutline_mkOutline [ct] (by simpa using hne)]
  simp only [glyphRun]
  cases hcontour 0 ct [] <;> rfl

theorem glyphRun_concat (cs : List Contour) :
    ∀ (j : Nat) (out : List Cmd),
      (∀ ct ∈ cs, ∃ p0 t0 rest, ct = (p0, t0) :: rest ∧ isc t0 = false) →
      glyphRun j cs out =
        match concatBlocks cs with
        | .ok l => .ok (out ++ l)
        | .error e => .error e := by
  induction cs with
  | nil => intro j out _; simp [glyphRun, concatBlocks]
  | cons ct cs ih =>
    intro j out hall
    obtain ⟨p0, t0, rest, rfl, h0⟩ := hall ct (List.mem_cons_self _ _)
    have hrest := fun x hx => hall x (List.mem_cons_of_mem _ hx)
    simp only [glyphRun, concatBlocks]
    rw [decompose_eq _ (List.cons_ne_nil _ _), hcontour_off j 0 p0 t0 rest out h0,
      hcontour_shift 0 _ out]
    cases hcontour 0 ((p0, t0) :: rest) [] with
    | error e => rfl
    | ok b =>
      simp only []
      rw [ih _ _ hrest]
      cases concatBlocks cs with
      | error e => rfl
      | ok l => simp

/-- C14 (counterexample to the claim as stated). A contour that starts with
two cubic controls is decomposed when it is the second contour of an outline,
where the cell behind its first point holds the reset tag, but not on its own,
where that cell has the negative subscript `(2 - 3) % 4`. -/
theorem C14_offset_counterexample :
    copyglyphoutline
        (mkOutline [[(pt 9 9, 1)], [(pt 0 0, 2), (pt 5 5, 2), (pt 10 10, 1)]]) =
        .ok [Cmd.move_to_abs (pt 9 9), Cmd.line_to_abs (pt 9 9), Cmd.close_path,
          Cmd.move_to_abs (pt 0 0), Cmd.cubic_to_abs (pt 0 0) (pt 5 5) (pt 10 10),
          Cmd.line_to_abs (pt 0 0), Cmd.close_path] ∧
      decompose [(pt 0 0, 2), (pt 5 5, 2), (pt 10 10, 1)] = .error Err.windowIndex ∧
      concatBlocks [[(pt 9 9, 1)], [(pt 0 0, 2), (pt 5 5, 2), (pt 10 10, 1)]] =
        .error Err.windowIndex :=
  ⟨by rfl, by rfl, by rfl⟩

/-- C14 (amended). For an outline whose contours are non-empty and none of
which starts with a cubic control, `copyglyphoutline` gives the concatenation,
in contour order, of the commands of each contour decomposed on its own (and
the error of the first contour that fails on its own): the commands of a
contour depend neither on the other contours nor on the index at which the
contour starts. -/
theorem C14_concatenation (cs : List Contour)
    (hall : ∀ ct ∈ cs, ∃ p0 t0 rest, ct = (p0, t0) :: rest ∧ isc t0 = false) :
    copyglyphoutline (mkOutline cs) = concatBlocks cs := by
  have hne : ∀ ct ∈ cs, ct ≠ [] := by
    intro ct hct
    obtain ⟨p0, t0, rest, rfl, _⟩ := hall ct hct
    exact List.cons_ne_nil _ _
  rw [copyglyphoutline_mkOutline cs hne, glyphRun_concat cs 0 [] hall]
  cases concatBlocks cs <;> simp

/-- Example B of the specification after a triangle: the cubic segment is
decomposed at point index 3 as it is on its own. -/
theorem C14_concatenation_witness :
    copyglyphoutline
        (mkOutline [[(pt 0 0, 1), (pt 10 0, 1), (pt 0 10, 1)],
          [(pt 0 0, 1), (pt 0 50, 2), (pt 50 100, 2), (pt 100 0, 1)]]) =
      .ok [Cmd.move_to_abs (pt 0 0), Cmd.line_to_abs (pt 10 0), Cmd.line_to_abs (pt 0 10),
        Cmd.line_to_abs (pt 0 0), Cmd.close_path, Cmd.move_to_abs (pt 0 0),
        Cmd.cubic_to_abs (pt 0 50) (pt 50 100) (pt 100 0), Cmd.line_to_abs (pt 0 0),
        Cmd.close_path] :=
  (C14_concatenation
    [[(pt 0 0, 1), (pt 10 0, 1), (pt 0 10, 1)],
      [(pt 0 0, 1), (pt 0 50, 2), (pt 50 100, 2), (pt 100 0, 1)]]
    (by
      intro ct hct
      simp only [List.mem_cons, List.mem_singleton, List.not_mem_nil, or_false] at hct
      rcases hct with rfl | rfl
      · exact ⟨_, _, _, rfl, by decide⟩
      · exact ⟨_, _, _, rfl, by decide⟩)).trans (by rfl)

/-! ## Window accesses -/

theorem hstep_safe {j : Nat} {past more : List (FT_Vector × Int)} {h : Hist}
    {p0 : FT_Vector} {t0 : Int} {e : FT_Vector × Int} {err : Err}
    (hinv : Inv j past h) (hpast : past = more ++ [(p0, t0)]) (h0 : isc t0 = false)
    (hs : hstep e.1 e.2 h = .error err) :
    err = Err.illformedQuadratic ∨ err = Err.illformedCubic := by
  match past, hinv with
  | x :: rest, hinv =>
    have he1 := inv_e1 hinv
    have hx : h.e1.2 = x.2 := by rw [he1]
    rcases class_total x.2 with hi | hq | hc
    · cases hci : isi e.2
      · rw [hstep_on_off (by rw [hx]; exact hi) hci] at hs; cases hs
      · rw [hstep_on_on (by rw [hx]; exact hi) hci] at hs; cases hs
    · rcases class_total e.2 with hei | heq | hec
      · rw [hstep_quad_on he1 hq hei] at hs; cases hs
      · rw [hstep_quad_quad he1 hq heq] at hs; cases hs
      · rw [hstep_quad_cubic (by rw [hx]; exact hq) hec] at hs
        injection hs with hs
        exact Or.inl hs.symm
    · cases hci : isi e.2
      · rw [hstep_cubic_off (by rw [hx]; exact hc) hci] at hs; cases hs
      · match rest, hinv, hpast with
        | [], _, hpast =>
          rcases more with _ | ⟨m0, more⟩
          · simp only [List.nil_append, List.cons.injEq, and_true] at hpast
            subst hpast
            rw [h0] at hc; cases hc
          · have := congrArg List.length hpast
            simp at this
        | [y], hinv, hpast =>
          have h2 := hinv.2.1 hc
          cases hcy : isc y.2
          · rw [hstep_cubic_on_bad2 h2 (by rw [hx]; exact hc) hcy hci] at hs
            injection hs with hs
            exact Or.inr hs.symm
          · rcases more with _ | ⟨m0, _ | ⟨m1, more⟩⟩
            · have := congrArg List.length hpast
              simp at this
            · simp only [List.cons_append, List.nil_append, List.cons.injEq, and_true] at hpast
              obtain ⟨_, hy⟩ := hpast
              subst hy
              rw [h0] at hcy; cases hcy
            · have := congrArg List.length hpast
              simp at this
        | y :: z :: w, hinv, _ =>
          have h2 := hinv.2.1 hc
          cases hcy : isc y.2
          · rw [hstep_cubic_on_bad2 h2 (by rw [hx]; exact hc) hcy hci] at hs
            injection hs with hs
            exact Or.inr hs.symm
          · have h3 := hinv.2.2 hcy
            cases hiz : isi z.2
            · rw [hstep_cubic_on_bad3 h2 h3 (by rw [hx]; exact hc) hcy hiz hci] at hs
              injection hs with hs
              exact Or.inr hs.symm
            · rw [hstep_cubic_on he1 h2 h3 hc hcy hiz hci] at hs
              cases hs

theorem hclosing_safe {j : Nat} {past more : List (FT_Vector × Int)} {h : Hist}
    {p0 : FT_Vector} {t0 : Int} (q0 : FT_Vector)
    (hinv : Inv j past h) (hpast : past = more ++ [(p0, t0)]) (h0 : isc t0 = false) :
    ∃ l, hclosing q0 h = .ok l := by
  match past, hinv with
  | x :: rest, hinv =>
    have he1 := inv_e1 hinv
    have hx : h.e1.2 = x.2 := by rw [he1]
    rcases class_total x.2 with hi | hq | hc
    · exact ⟨_, hclosing_on q0 (by rw [hx]; exact hi)⟩
    · exact ⟨_, hclosing_quad q0 he1 hq⟩
    · match rest, hinv, hpast with
      | [], _, hpast =>
        rcases more with _ | ⟨m0, more⟩
        · simp only [List.nil_append, List.cons.injEq, and_true] at hpast
          subst hpast
          rw [h0] at hc; cases hc
        · have := congrArg List.length hpast
          simp at this
      | [y], hinv, _ =>
        have h2 := hinv.2.1 hc
        exact ⟨cubicto h.out y.1 x.1 q0, by
          simp [hclosing, he1, h2, hc, isc_not_isi hc, isc_not_isq hc, cellPt]⟩
      | y :: z :: w, hinv, _ =>
        have h2 := hinv.2.1 hc
        exact ⟨cubicto h.out y.1 x.1 q0, by
          simp [hclosing, he1, h2, hc, isc_not_isi hc, isc_not_isq hc, cellPt]⟩

theorem hrun_safe (j : Nat) (p0 : FT_Vector) (t0 : Int) (h0 : isc t0 = false)
    (es : List (FT_Vector × Int)) :
    ∀ (past more : List (FT_Vector × Int)) (h : Hist) (err : Err), Inv j past h →
      past = more ++ [(p0, t0)] → hrun es h = .error err →
      err = Err.illformedQuadratic ∨ err = Err.illformedCubic := by
  induction es with
  | nil => intro past more h err _ _ hr; cases hr
  | cons e es ih =>
    intro past more h err hinv hpast hr
    simp only [hrun] at hr
    cases hs : hstep e.1 e.2 h with
    | error err2 =>
      rw [hs] at hr
      injection hr with hr
      subst hr
      exact hstep_safe hinv hpast h0 hs
    | ok h2 =>
      rw [hs] at hr
      exact ih (e :: past) (e :: more) h2 err (inv_step hinv hs) (by rw [hpast]; rfl) hr

theorem hcontour_safe (j : Nat) (p0 : FT_Vector) (t0 : Int)
    (rest : List (FT_Vector × Int)) (out : List Cmd) (h0 : isc t0 = false) {err : Err}
    (hr : hcontour j ((p0, t0) :: rest) out = .error err) :
    err = Err.illformedQuadratic ∨ err = Err.illformedCubic := by
  unfold hcontour at hr
  simp only [] at hr
  cases h1 : hrun rest (hinit j p0 t0 out) with
  | error e =>
    rw [h1] at hr
    injection hr with hr
    subst hr
    exact hrun_safe j p0 t0 h0 rest [(p0, t0)] [] _ _ (inv_first j p0 t0 out) rfl h1
  | ok h =>
    rw [h1] at hr
    simp only [] at hr
    have hinv := hrun_inv j rest [(p0, t0)] _ h (inv_first j p0 t0 out) h1
    obtain ⟨l, hl⟩ := hclosing_safe p0 hinv (show _ = rest.reverse ++ [(p0, t0)] from rfl) h0
    rw [hl] at hr
    cases hr

theorem glyphRun_safe (cs : List Contour) :
    ∀ (j : Nat) (out : List Cmd) (err : Err),
      (∀ ct ∈ cs, ∃ p0 t0 rest, ct = (p0, t0) :: rest ∧ isc t0 = false) →
      glyphRun j cs out = .error err →
      err = Err.illformedQuadratic ∨ err = Err.illformedCubic := by
  induction cs with
  | nil => intro j out err _ hr; cases hr
  | cons ct cs ih =>
    intro j out err hall hr
    obtain ⟨p0, t0, rest, rfl, h0⟩ := hall ct (List.mem_cons_self _ _)
    simp only [glyphRun] at hr
    cases hc : hcontour j ((p0, t0) :: rest) out with
    | error e =>
      rw [hc] at hr
      injection hr with hr
      subst hr
      exact hcontour_safe j p0 t0 rest out h0 hc
    | ok l =>
      rw [hc] at hr
      exact ih _ _ err (fun x hx => hall x (List.mem_cons_of_mem _ hx)) hr

theorem slot_range {k : Int} {n : Nat} (h : slot k = .ok n) :
    n < 4 ∧ (n : Int) = Int.tmod k 4 := by
  unfold slot at h
  by_cases hk : 0 ≤ Int.tmod k 4
  · simp only [hk, if_true] at h
    injection h with h
    have hlt : Int.tmod k 4 < 4 := Int.tmod_lt_of_pos k (by decide)
    subst h
    constructor
    · omega
    · exact Int.toNat_of_nonneg hk
  · simp only [hk, if_false] at h
    cases h

/-- C19. A window subscript that the embedding accepts is in `0 .. 3` and is
the truncating remainder `j % 4`. The embedding ends a run in `windowIndex` at
the first negative subscript, in `uninitialisedPoint` at the first read of a
point slot not written in the current contour, and in `outlineIndex` at the
first read outside the outline arrays: for an outline whose contours are
non-empty and start with a point tagged on-curve none of these happens, the
only ways `copyglyphoutline` ends without commands being the two ill-formed
errors. Without the precondition a subscript can be negative: a first contour
that starts with a cubic control reaches `(1 - 2) % 4 = -1`, and one that starts
with two cubic controls reaches `(2 - 3) % 4 = -1`. -/
theorem C19_window_safety :
    (∀ (k : Int) (n : Nat), slot k = .ok n → n < 4 ∧ (n : Int) = Int.tmod k 4) ∧
      (∀ cs : List Contour,
        (∀ ct ∈ cs, ∃ p0 t0 rest, ct = (p0, t0) :: rest ∧ isi t0 = true) →
        ∀ e, copyglyphoutline (mkOutline cs) = .error e →
          e = Err.illformedQuadratic ∨ e = Err.illformedCubic) ∧
      (copyglyphoutline (mkOutline [[(pt 0 0, 2), (pt 10 10, 1)]]) =
          .error Err.windowIndex ∧ Int.tmod (1 - 2) 4 = -1) ∧
      (copyglyphoutline (mkOutline [[(pt 0 0, 2), (pt 5 5, 2), (pt 10 10, 1)]]) =
          .error Err.windowIndex ∧ Int.tmod (2 - 3) 4 = -1) := by
  refine ⟨fun k n h => slot_range h, fun cs hall e he => ?_, ⟨by rfl, by decide⟩,
    ⟨by rfl, by decide⟩⟩
  have hall1 : ∀ ct ∈ cs, ∃ p0 t0 rest, ct = (p0, t0) :: rest ∧ isc t0 = false := by
    intro ct hct
    obtain ⟨p0, t0, rest, hct1, h0⟩ := hall ct hct
    exact ⟨p0, t0, rest, hct1, isc_eq_false_of_isi h0⟩
  have hne : ∀ ct ∈ cs, ct ≠ [] := by
    intro ct hct
    obtain ⟨p0, t0, rest, rfl, _⟩ := hall ct hct
    exact List.cons_ne_nil _ _
  rw [copyglyphoutline_mkOutline cs hne] at he
  exact glyphRun_safe cs 0 [] e hall1 he

/-- Two contours that start on-curve, the second with a single cubic control
between on-curve points: the run ends in `illformedCubic`, not in a bad
access. -/
theorem C19_window_safety_witness :
    Err.illformedCubic = Err.illformedQuadratic ∨ Err.illformedCubic = Err.illformedCubic :=
  C19_window_safety.2.1
    [[(pt 0 0, 1), (pt 10 0, 1)], [(pt 0 0, 1), (pt 0 50, 2), (pt 100 0, 1)]]
    (by
      intro ct hct
      simp only [List.mem_cons, List.mem_singleton, List.not_mem_nil, or_false] at hct
      rcases hct with rfl | rfl
      · exact ⟨_, _, _, rfl, by decide⟩
      · exact ⟨_, _, _, rfl, by decide⟩)
    Err.illformedCubic (by rfl)

/-! ## The error `unknown control tag!` -/

theorem noUnknown_ok {α : Type} (a : α) : NoUnknown (Except.ok a : Except Err α) := by
  intro h; cases h

theorem noUnknown_pure {α : Type} (a : α) : NoUnknown (pure a : Except Err α) := by
  intro h; cases h

theorem noUnknown_error {α : Type} {e : Err} (he : e ≠ Err.unknownControlTag) :
    NoUnknown (Except.error e : Except Err α) := by
  intro h
  injection h with h
  exact he h

theorem noUnknown_throw {α : Type} {e : Err} (he : e ≠ Err.unknownControlTag) :
    NoUnknown (throw e : Except Err α) := noUnknown_error he

theorem noUnknown_bind {α β : Type} {m : Except Err α} {f : α → Except Err β}
    (hm : NoUnknown m) (hf : ∀ a, NoUnknown (f a)) : NoUnknown (m >>= f) := by
  cases m with
  | error e => exact fun h => hm (by injection h with h; rw [h])
  | ok a => exact hf a

theorem noUnknown_slot (k : Int) : NoUnknown (slot k) := by
  unfold slot
  split_ifs
  · exact noUnknown_ok _
  · exact noUnknown_error (by decide)

theorem noUnknown_getTag (s : Frame) (k : Int) : NoUnknown (s.getTag k) := by
  unfold Frame.getTag
  have := noUnknown_slot k
  cases h : slot k with
  | error e => rw [h] at this; exact fun h2 => this (by injection h2 with h2; rw [h2])
  | ok n => exact noUnknown_ok _

theorem noUnknown_getP (s : Frame) (k : Int) : NoUnknown (s.getP k) := by
  unfold Frame.getP
  have := noUnknown_slot k
  cases h : slot k with
  | error e => rw [h] at this; exact fun h2 => this (by injection h2 with h2; rw [h2])
  | ok n =>
    simp only []
    cases s.p n with
    | none => exact noUnknown_error (by decide)
    | some v => exact noUnknown_ok _

theorem noUnknown_setP (s : Frame) (k : Int) (v : FT_Vector) : NoUnknown (s.setP k v) := by
  unfold Frame.setP
  have := noUnknown_slot k
  cases h : slot k with
  | error e => rw [h] at this; exact fun h2 => this (by injection h2 with h2; rw [h2])
  | ok n => exact noUnknown_ok _

theorem noUnknown_setTag (s : Frame) (k : Int) (t : Int) : NoUnknown (s.setTag k t) := by
  unfold Frame.setTag
  have := noUnknown_slot k
  cases h : slot k with
  | error e => rw [h] at this; exact fun h2 => this (by injection h2 with h2; rw [h2])
  | ok n => exact noUnknown_ok _

theorem noUnknown_fetch {α : Type} (a : List α) (k : Int) : NoUnknown (fetch a k) := by
  unfold fetch
  split_ifs
  · cases a[k.toNat]? with
    | none => exact noUnknown_error (by decide)
    | some v => exact noUnknown_ok _
  · exact noUnknown_error (by decide)

theorem noUnknown_transition (s : Frame) : NoUnknown (transition s) := by
  unfold transition
  refine noUnknown_bind (noUnknown_getTag _ _) (fun tprev => ?_)
  rcases class_total tprev with hi | hq | hc
  · simp only [hi, if_true]
    refine noUnknown_bind (noUnknown_getTag _ _) (fun tcur => ?_)
    split_ifs
    · exact noUnknown_bind (noUnknown_getP _ _) (fun _ => noUnknown_pure _)
    · exact noUnknown_pure _
  · simp only [isq_not_isi hq, hq, Bool.false_eq_true, ↓reduceIte]
    refine noUnknown_bind (noUnknown_getTag _ _) (fun tcur => ?_)
    split_ifs
    · exact noUnknown_bind (noUnknown_getP _ _) (fun _ =>
        noUnknown_bind (noUnknown_getP _ _) (fun _ => noUnknown_pure _))
    · exact noUnknown_bind (noUnknown_getP _ _) (fun _ =>
        noUnknown_bind (noUnknown_getP _ _) (fun _ =>
          noUnknown_bind (noUnknown_setP _ _ _) (fun _ => noUnknown_setTag _ _ _)))
    · exact noUnknown_throw (by decide)
  · simp only [isc_not_isi hc, isc_not_isq hc, hc, Bool.false_eq_true, ↓reduceIte]
    refine noUnknown_bind (noUnknown_getTag _ _) (fun tcur => ?_)
    split_ifs
    · refine noUnknown_bind (noUnknown_getTag _ _) (fun t2 => ?_)
      split_ifs
      · refine noUnknown_bind (noUnknown_getTag _ _) (fun t3 => ?_)
        split_ifs
        · exact noUnknown_bind (noUnknown_getP _ _) (fun _ =>
            noUnknown_bind (noUnknown_getP _ _) (fun _ =>
              noUnknown_bind (noUnknown_getP _ _) (fun _ => noUnknown_pure _)))
        · exact noUnknown_throw (by decide)
      · exact noUnknown_throw (by decide)
    · exact noUnknown_pure _

theorem noUnknown_step (pj : FT_Vector) (tj : Int) (s : Frame) : NoUnknown (step pj tj s) := by
  unfold step
  exact noUnknown_bind (noUnknown_setP _ _ _) (fun _ =>
    noUnknown_bind (noUnknown_setTag _ _ _) (fun _ =>
      noUnknown_bind (noUnknown_transition _) (fun _ => noUnknown_pure _)))

theorem noUnknown_innerLoop (o : FT_Outline) (i : Int) :
    ∀ (n : Nat) (s : Frame), NoUnknown (innerLoop o i n s) := by
  intro n
  induction n with
  | zero => intro s; exact noUnknown_ok _
  | succ n ih =>
    intro s
    unfold innerLoop
    refine noUnknown_bind (noUnknown_fetch _ _) (fun e => ?_)
    split_ifs
    · exact noUnknown_bind (noUnknown_fetch _ _) (fun _ =>
        noUnknown_bind (noUnknown_fetch _ _) (fun _ =>
          noUnknown_bind (noUnknown_step _ _ _) (fun s1 => ih s1)))
    · exact noUnknown_pure _

theorem noUnknown_closeSegment (s : Frame) : NoUnknown (closeSegment s) := by
  unfold closeSegment
  refine noUnknown_bind (noUnknown_getTag _ _) (fun tprev => ?_)
  split_ifs
  · exact noUnknown_bind (noUnknown_getP _ _) (fun _ => noUnknown_pure _)
  · exact noUnknown_bind (noUnknown_getP _ _) (fun _ =>
      noUnknown_bind (noUnknown_getP _ _) (fun _ => noUnknown_pure _))
  · exact noUnknown_bind (noUnknown_getP _ _) (fun _ =>
      noUnknown_bind (noUnknown_getP _ _) (fun _ =>
        noUnknown_bind (noUnknown_getP _ _) (fun _ => noUnknown_pure _)))
  · exact noUnknown_pure _

theorem noUnknown_closing (p0 : FT_Vector) (s : Frame) : NoUnknown (closing p0 s) := by
  unfold closing
  exact noUnknown_bind (noUnknown_setP _ _ _) (fun _ =>
    noUnknown_bind (noUnknown_setTag _ _ _) (fun _ => noUnknown_closeSegment _))

theorem noUnknown_contour (o : FT_Outline) (i j : Int) (out : List Cmd) :
    NoUnknown (contour o i j out) := by
  unfold contour
  exact noUnknown_bind (noUnknown_fetch _ _) (fun _ =>
    noUnknown_bind (noUnknown_setP _ _ _) (fun _ =>
      noUnknown_bind (noUnknown_fetch _ _) (fun _ =>
        noUnknown_bind (noUnknown_setTag _ _ _) (fun _ =>
          noUnknown_bind (noUnknown_getP _ _) (fun _ =>
            noUnknown_bind (noUnknown_fetch _ _) (fun _ =>
              noUnknown_bind (noUnknown_innerLoop _ _ _ _) (fun _ =>
                noUnknown_bind (noUnknown_closing _ _) (fun _ => noUnknown_pure _))))))))

theorem noUnknown_outerLoop (o : FT_Outline) :
    ∀ (n : Nat) (i j : Int) (out : List Cmd), NoUnknown (outerLoop o n i j out) := by
  intro n
  induction n with
  | zero => intro i j out; exact noUnknown_ok _
  | succ n ih =>
    intro i j out
    unfold outerLoop
    split_ifs
    · exact noUnknown_bind (noUnknown_contour _ _ _ _) (fun r => ih _ _ _)
    · exact noUnknown_ok _

/-- C17. Whatever the outline and its raw tags, `copyglyphoutline` never ends
in `unknownControlTag`: every tag, the reset value `INT_MAX` included, is in
one of the classes `isi`, `isq`, `isc`, so the last `else` of the transition
table is never taken. A run that ends without commands ends in one of the two
ill-formed errors, or in one of the three outcomes that stand for behaviour the
source leaves undefined; for an outline whose contours are non-empty and none
of which starts with a cubic control, only the two ill-formed errors remain. -/
theorem C17_no_unknown_control_tag (o : FT_Outline) :
    copyglyphoutline o ≠ .error Err.unknownControlTag ∧
      (∀ t : Int, isi t = true ∨ isq t = true ∨ isc t = true) ∧
      isi INT_MAX = true ∧
      (∀ e, copyglyphoutline o = .error e →
        e = Err.illformedQuadratic ∨ e = Err.illformedCubic ∨ e = Err.windowIndex ∨
          e = Err.uninitialisedPoint ∨ e = Err.outlineIndex) ∧
      (∀ cs : List Contour, o = mkOutline cs →
        (∀ ct ∈ cs, ∃ p0 t0 rest, ct = (p0, t0) :: rest ∧ isc t0 = false) →
        ∀ e, copyglyphoutline o = .error e →
          e = Err.illformedQuadratic ∨ e = Err.illformedCubic) := by
  have hno : copyglyphoutline o ≠ .error Err.unknownControlTag :=
    noUnknown_outerLoop o _ _ _ _
  refine ⟨hno, class_total, by decide, fun e he => ?_, fun cs ho hall e he => ?_⟩
  · cases e with
    | unknownControlTag => exact (hno he).elim
    | illformedQuadratic => exact Or.inl rfl
    | illformedCubic => exact Or.inr (Or.inl rfl)
    | windowIndex => exact Or.inr (Or.inr (Or.inl rfl))
    | uninitialisedPoint => exact Or.inr (Or.inr (Or.inr (Or.inl rfl)))
    | outlineIndex => exact Or.inr (Or.inr (Or.inr (Or.inr rfl)))
  · subst ho
    have hne : ∀ ct ∈ cs, ct ≠ [] := by
      intro ct hct
      obtain ⟨p0, t0, rest, rfl, _⟩ := hall ct hct
      exact List.cons_ne_nil _ _
    rw [copyglyphoutline_mkOutline cs hne] at he
    exact glyphRun_safe cs 0 [] e hall he

/-! ## The overwrite of the window cell -/

theorem stepKeep_eq (pj : FT_Vector) (tj : Int) (s : Frame) (h : 0 ≤ s.j) :
    stepKeep pj tj s =
      match transitionKeep (s.store pj tj) with
      | .ok s3 => .ok { s3 with j := s3.j + 1 }
      | .error e => .error e := by
  unfold stepKeep
  rw [setP_of_nonneg s h, ok_bind, setTag_of_nonneg _ h, ok_bind]
  show (transitionKeep (s.store pj tj) >>= fun s3 => pure _) = _
  cases transitionKeep (s.store pj tj) <;> rfl

theorem stepKeep_refines {s : Frame} {h : Hist} (hrel : Rel s h) (pj : FT_Vector) (tj : Int) :
    RelR (s.j + 1) (stepKeep pj tj s) (hstepW false pj tj h) := by
  rcases h with ⟨⟨p1, t1⟩, e2, e3, o⟩
  obtain ⟨hj, hout, h1, h2, h3⟩ := hrel
  simp only at hout h1 h2 h3
  subst hout
  have hj0 : 0 ≤ s.j := by omega
  rw [stepKeep_eq _ _ _ hj0]
  have c0 := cell_store_same s pj tj hj0
  have c1 : (s.store pj tj).cell (s.j - 1) = some (p1, t1) := by
    rw [cell_store_other s pj tj hj0 (by decide) (by decide)]; exact h1
  have c2 : (s.store pj tj).cell (s.j - 2) = e2 := by
    rw [cell_store_other s pj tj hj0 (by decide) (by decide)]; exact h2
  have c3 : (s.store pj tj).cell (s.j - 3) = e3 := by
    rw [cell_store_other s pj tj hj0 (by decide) (by decide)]; exact h3
  have base := fun out => rel_next (s.store pj tj) s.j hj0 out _ _ _ c0 c1 c2
  unfold transitionKeep hstepW
  simp only [getTag_cell, getP_cell, store_j, store_out, c0, c1, c2, c3, cellTag, ok_bind]
  cases hi : isi t1 <;> simp only [Bool.false_eq_true, ↓reduceIte]
  · cases hq : isq t1 <;> simp only [Bool.false_eq_true, ↓reduceIte]
    · cases hc : isc t1 <;> simp only [Bool.false_eq_true, ↓reduceIte]
      · simp [throw_eq_error, RelR]
      · cases hci : isi tj <;> simp only [Bool.false_eq_true, ↓reduceIte]
        · exact ⟨base _, rfl⟩
        · rcases e2 with _ | ⟨p2, t2⟩
          · simp [error_bind, RelR]
          · simp only [ok_bind]
            cases hc2 : isc t2 <;> simp only [Bool.false_eq_true, ↓reduceIte]
            · simp [throw_eq_error, RelR]
            · rcases e3 with _ | ⟨p3, t3⟩
              · simp [error_bind, RelR]
              · simp only [ok_bind]
                cases hc3 : isi t3 <;> simp only [Bool.false_eq_true, ↓reduceIte]
                · simp [throw_eq_error, RelR]
                · rcases p2 with _ | p2
                  · simp [cellPt, error_bind, RelR]
                  · rcases p1 with _ | p1
                    · simp [cellPt, error_bind, ok_bind, RelR]
                    · simp only [cellPt, ok_bind, pure_eq_ok]
                      exact ⟨base _, rfl⟩
    · cases hci : isi tj <;> simp only [Bool.false_eq_true, ↓reduceIte]
      · cases hcq : isq tj <;> simp only [Bool.false_eq_true, ↓reduceIte]
        · simp [throw_eq_error, RelR]
        · rcases p1 with _ | a
          · simp [cellPt, error_bind, RelR]
          · simp only [cellPt, ok_bind, pure_eq_ok]
            exact ⟨base _, rfl⟩
      · rcases p1 with _ | a
        · simp [cellPt, error_bind, RelR]
        · simp only [cellPt, ok_bind, pure_eq_ok]
          exact ⟨base _, rfl⟩
  · cases hci : isi tj <;> simp only [Bool.false_eq_true, ↓reduceIte]
    · exact ⟨base _, rfl⟩
    · simp only [cellPt, ok_bind, pure_eq_ok]
      exact ⟨base _, rfl⟩

theorem step_pair {s k : Frame} (hrel : FRel s k) (pj : FT_Vector) (tj : Int) :
    FRelR (step pj tj s) (stepKeep pj tj k) := by
  obtain ⟨hj, h, h1, hs, hk, hoff⟩ := hrel
  have r1 := step_refines hs pj tj
  have r2 := stepKeep_refines hk pj tj
  have r3 := hstepW_off true false hoff pj tj
  rw [hstepW_true] at r3
  cases ha : step pj tj s with
  | error e =>
    rw [ha] at r1
    cases hb : hstep pj tj h with
    | ok x => rw [hb] at r1; exact r1.elim
    | error e1 =>
      rw [hb] at r1 r3
      cases hc : hstepW false pj tj h1 with
      | ok y => rw [hc] at r3; exact r3.elim
      | error e2 =>
        rw [hc] at r3 r2
        cases hd : stepKeep pj tj k with
        | ok z => rw [hd] at r2; exact r2.elim
        | error e3 =>
          rw [hd] at r2
          simp only [RelR, OffR] at r1 r2 r3
          show e = e3
          rw [r1, r3, r2]
  | ok s1 =>
    rw [ha] at r1
    cases hb : hstep pj tj h with
    | error e1 => rw [hb] at r1; exact r1.elim
    | ok x =>
      rw [hb] at r1 r3
      cases hc : hstepW false pj tj h1 with
      | error e2 => rw [hc] at r3; exact r3.elim
      | ok y =>
        rw [hc] at r3 r2
        cases hd : stepKeep pj tj k with
        | error e3 => rw [hd] at r2; exact r2.elim
        | ok z =>
          rw [hd] at r2
          exact ⟨by rw [r1.2, r2.2, hj], x, y, r1.1, r2.1, r3⟩

theorem fetch_ok_nonneg {α : Type} {a : List α} {k : Int} {v : α}
    (h : fetch a k = .ok v) : 0 ≤ k := by
  unfold fetch at h
  by_cases hk : 0 ≤ k
  · exact hk
  · simp only [hk, ↓reduceIte] at h
    cases h

theorem fetch_error {α : Type} {a : List α} {k : Int} {e : Err}
    (h : fetch a k = .error e) : e = Err.outlineIndex := by
  unfold fetch at h
  by_cases hk : 0 ≤ k
  · simp only [hk, ↓reduceIte] at h
    cases hg : a[k.toNat]? with
    | none => rw [hg] at h; injection h with h; exact h.symm
    | some v => rw [hg] at h; cases h
  · simp only [hk, ↓reduceIte] at h
    injection h with h; exact h.symm

theorem contour_prologue (o : FT_Outline) (i j : Int) (out : List Cmd) :
    contour o i j out =
      (fetch o.points j >>= fun p0 => fetch o.tags j >>= fun t0 =>
        fetch o.contours i >>= fun e =>
          innerLoop o i (iterations e (j + 1)) (firstFrame j p0 t0 out) >>= fun s4 =>
            closing p0 s4 >>= fun s5 => pure (s5.j, closepath s5.out)) := by
  unfold contour
  cases hp : fetch o.points j with
  | error e => rfl
  | ok p0 =>
    have hj0 : 0 ≤ j := fetch_ok_nonneg hp
    rw [ok_bind, ok_bind]
    simp only []
    rw [setP_of_nonneg _ hj0, ok_bind]
    cases ht : fetch o.tags j with
    | error e => rfl
    | ok t0 =>
      rw [ok_bind, ok_bind, setTag_of_nonneg _ hj0, ok_bind]
      rw [getP_cell, cell_put_same _ _ _ _ _ hj0]
      simp only [cellPt, ok_bind]
      rfl

theorem contourKeep_prologue (o : FT_Outline) (i j : Int) (out : List Cmd) :
    contourKeep o i j out =
      (fetch o.points j >>= fun p0 => fetch o.tags j >>= fun t0 =>
        fetch o.contours i >>= fun e =>
          innerLoopKeep o i (iterations e (j + 1)) (firstFrame j p0 t0 out) >>= fun s4 =>
            closing p0 s4 >>= fun s5 => pure (s5.j, closepath s5.out)) := by
  unfold contourKeep
  cases hp : fetch o.points j with
  | error e => rfl
  | ok p0 =>
    have hj0 : 0 ≤ j := fetch_ok_nonneg hp
    rw [ok_bind, ok_bind]
    simp only []
    rw [setP_of_nonneg _ hj0, ok_bind]
    cases ht : fetch o.tags j with
    | error e => rfl
    | ok t0 =>
      rw [ok_bind, ok_bind, setTag_of_nonneg _ hj0, ok_bind]
      rw [getP_cell, cell_put_same _ _ _ _ _ hj0]
      simp only [cellPt, ok_bind]
      rfl
theorem innerLoop_pair (o : FT_Outline) (i : Int) :
    ∀ (n : Nat) (s k : Frame), FRel s k →
      FRelR (innerLoop o i n s) (innerLoopKeep o i n k) := by
  intro n
  induction n with
  | zero => intro s k hrel; exact hrel
  | succ n ih =>
    intro s k hrel
    have hj := hrel.1
    unfold innerLoop innerLoopKeep
    cases he : fetch o.contours i with
    | error e => exact rfl
    | ok e =>
      simp only [ok_bind]
      rw [← hj]
      by_cases hle : s.j ≤ e
      · simp only [hle, ↓reduceIte]
        cases hp : fetch o.points s.j with
        | error e1 => exact rfl
        | ok pj =>
          simp only [ok_bind]
          cases ht : fetch o.tags s.j with
          | error e2 => exact rfl
          | ok tj =>
            simp only [ok_bind]
            have hst := step_pair hrel pj tj
            cases ha : step pj tj s with
            | error e3 =>
              rw [ha] at hst
              cases hb : stepKeep pj tj k with
              | ok z => rw [hb] at hst; exact hst.elim
              | error e4 => rw [hb] at hst; exact hst
            | ok s1 =>
              rw [ha] at hst
              cases hb : stepKeep pj tj k with
              | error e4 => rw [hb] at hst; exact hst.elim
              | ok k1 =>
                rw [hb] at hst
                simp only [ok_bind]
                exact ih s1 k1 hst
      · simp only [hle, ↓reduceIte]
        exact hrel

theorem closing_pair {s k : Frame} (hrel : FRel s k) (p0 : FT_Vector) :
    (closing p0 s >>= fun s5 => (pure (s5.j, closepath s5.out) : Except Err (Int × List Cmd))) =
      (closing p0 k >>= fun s5 => pure (s5.j, closepath s5.out)) := by
  obtain ⟨hj, h, h1, hs, hk, hoff⟩ := hrel
  have r1 := closing_refines hs p0
  have r2 := closing_refines hk p0
  rw [hclosing_off hoff p0] at r1
  cases hc : hclosing p0 h1 with
  | error e =>
    rw [hc] at r1 r2
    cases ha : closing p0 s with
    | ok x => rw [ha] at r1; exact r1.elim
    | error e1 =>
      rw [ha] at r1
      cases hb : closing p0 k with
      | ok y => rw [hb] at r2; exact r2.elim
      | error e2 =>
        rw [hb] at r2
        simp only [RelC] at r1 r2
        rw [r1, r2]
  | ok l =>
    rw [hc] at r1 r2
    cases ha : closing p0 s with
    | error e1 => rw [ha] at r1; exact r1.elim
    | ok x =>
      rw [ha] at r1
      cases hb : closing p0 k with
      | error e2 => rw [hb] at r2; exact r2.elim
      | ok y =>
        rw [hb] at r2
        simp only [RelC] at r1 r2
        simp only [ok_bind]
        rw [r1.1, r1.2, r2.1, r2.2, hj]


theorem contourKeep_eq (o : FT_Outline) (i j : Int) (out : List Cmd) :
    contourKeep o i j out = contour o i j out := by
  rw [contourKeep_prologue, contour_prologue]
  cases hp : fetch o.points j with
  | error e => rw [error_bind, error_bind]
  | ok p0 =>
    have hj0 : 0 ≤ j := fetch_ok_nonneg hp
    obtain ⟨n, rfl⟩ := Int.eq_ofNat_of_zero_le hj0
    rw [ok_bind, ok_bind]
    cases ht : fetch o.tags (n : Int) with
    | error e => rw [error_bind, error_bind]
    | ok t0 =>
      rw [ok_bind, ok_bind]
      cases he : fetch o.contours i with
      | error e => rw [error_bind, error_bind]
      | ok e =>
        rw [ok_bind, ok_bind]
        have hfr : FRel (firstFrame n p0 t0 out) (firstFrame n p0 t0 out) :=
          ⟨rfl, _, _, rel_first n p0 t0 out, rel_first n p0 t0 out, rfl, rfl,
            fun _ => rfl, fun _ _ _ _ => rfl⟩
        have hl := innerLoop_pair o i (iterations e ((n : Int) + 1)) _ _ hfr
        cases ha : innerLoop o i (iterations e ((n : Int) + 1)) (firstFrame n p0 t0 out) with
        | error e1 =>
          rw [ha] at hl
          cases hb : innerLoopKeep o i (iterations e ((n : Int) + 1)) (firstFrame n p0 t0 out) with
          | ok z => rw [hb] at hl; exact hl.elim
          | error e2 => rw [hb] at hl; simp only [FRelR] at hl; rw [hl]
        | ok s4 =>
          rw [ha] at hl
          cases hb : innerLoopKeep o i (iterations e ((n : Int) + 1)) (firstFrame n p0 t0 out) with
          | error e2 => rw [hb] at hl; exact hl.elim
          | ok k4 =>
            rw [hb] at hl
            rw [ok_bind, ok_bind]
            exact (closing_pair hl p0).symm

theorem outerLoopKeep_eq (o : FT_Outline) :
    ∀ (n : Nat) (i j : Int) (out : List Cmd),
      outerLoopKeep o n i j out = outerLoop o n i j out := by
  intro n
  induction n with
  | zero => intro i j out; rfl
  | succ n ih =>
    intro i j out
    unfold outerLoopKeep outerLoop
    rw [contourKeep_eq]
    by_cases hi : i < o.n_contours
    · simp only [hi, ↓reduceIte]
      cases contour o i j out with
      | error e => rw [error_bind, error_bind]
      | ok r => rw [ok_bind, ok_bind]; exact ih _ _ _
    · simp only [hi, ↓reduceIte]

theorem copyglyphoutlineKeep_eq (o : FT_Outline) :
    copyglyphoutlineKeep o = copyglyphoutline o :=
  outerLoopKeep_eq o _ _ _ _

/-- C18: the overwrite of window cell `j-1` with the midpoint and an on-curve
tag after two consecutive quadratic controls cannot be observed. The body of
the outer loop run with and without lines 177-178 returns the same result (the
same next index and commands, or the same error) from every outline, contour
number, start index and command list, and so does the whole decomposition;
yet the two windows do differ after such a step: the cell reads on-curve in
one run and quadratic in the other. -/
theorem C18_overwrite_unobservable :
    (∀ (o : FT_Outline) (i j : Int) (out : List Cmd),
      contourKeep o i j out = contour o i j out) ∧
    (∀ o : FT_Outline, copyglyphoutlineKeep o = copyglyphoutline o) ∧
    (∀ ct : Contour, copyglyphoutlineKeep (mkOutline [ct]) = decompose ct) ∧
    (∃ (s : Frame) (pj : FT_Vector) (tj : Int),
      (step pj tj s >>= fun s1 => s1.getTag (s.j - 1)) = .ok 1 ∧
      (stepKeep pj tj s >>= fun s1 => s1.getTag (s.j - 1)) = .ok 0 ∧
      (step pj tj s >>= fun s1 => s1.getP (s.j - 1)) = .ok ⟨3, 4⟩ ∧
      (stepKeep pj tj s >>= fun s1 => s1.getP (s.j - 1)) = .ok ⟨2, 4⟩) :=
  ⟨contourKeep_eq, copyglyphoutlineKeep_eq, fun ct => copyglyphoutlineKeep_eq _,
    ⟨{ p := fun m => if m = 1 then some ⟨2, 4⟩ else if m = 0 then some ⟨0, 0⟩ else none
       tag := fun m => if m = 1 then 0 else if m = 0 then 1 else INT_MAX
       j := 2
       out := [] }, ⟨4, 4⟩, 0, by rfl, by rfl, by rfl, by rfl⟩⟩

/-! ## The flattened table -/

theorem emit_place (st : Table × Int) (c : Cmd) :
    emit st c = (st.1 ++ place st.2 (cells c), st.2 + 1 + scalarCount c) := by
  cases c <;>
    simp [emit, Tab.moveto, Tab.lineto, Tab.quadto, Tab.cubicto, Tab.closepath, rawseti,
      place, cells, scalarCount] <;> omega

theorem place_append (k : Int) (a b : List LuaVal) :
    place k (a ++ b) = place k a ++ place (k + a.length) b := by
  induction a generalizing k with
  | nil => simp [place]
  | cons v vs ih =>
    show (k, v) :: place (k + 1) (vs ++ b) =
      (k, v) :: place (k + 1) vs ++ place (k + ((v :: vs).length : Int)) b
    rw [ih, List.length_cons, Nat.cast_add, Nat.cast_one,
      show k + ((vs.length : Int) + 1) = k + 1 + (vs.length : Int) by omega]
    rfl

theorem cells_length (c : Cmd) : (cells c).length = 1 + scalarCount c := by
  cases c <;> rfl

theorem flatMap_cells_length (l : List Cmd) : (l.flatMap cells).length = tableSize l := by
  induction l with
  | nil => rfl
  | cons c l ih =>
    simp only [List.flatMap_cons, List.length_append, ih, cells_length, tableSize, List.map_cons,
      List.sum_cons]

theorem foldl_emit (l : List Cmd) :
    ∀ st : Table × Int,
      l.foldl emit st = (st.1 ++ place st.2 (l.flatMap cells), st.2 + tableSize l) := by
  induction l with
  | nil => intro st; simp [place, tableSize]
  | cons c l ih =>
    intro st
    rw [List.foldl_cons, ih, emit_place]
    simp only [List.flatMap_cons, place_append, List.append_assoc, cells_length, tableSize,
      List.map_cons, List.sum_cons, Nat.cast_add, Nat.cast_one]
    have e : st.2 + 1 + (scalarCount c : Int) = st.2 + (1 + (scalarCount c : Int)) := by omega
    rw [e]
    congr 1
    omega

theorem flatten_eq (l : List Cmd) :
    flatten l = (place 1 (l.flatMap cells), 1 + (tableSize l : Int)) := by
  unfold flatten
  rw [foldl_emit]
  simp

theorem place_keys (vs : List LuaVal) :
    ∀ k : Int, (place k vs).map Prod.fst = (List.range vs.length).map fun (i : Nat) => k + (i : Int) := by
  induction vs with
  | nil => intro k; rfl
  | cons v vs ih =>
    intro k
    simp only [place, List.map_cons, ih, List.length_cons, List.range_succ_eq_map, List.map_map]
    simp only [Nat.cast_zero, add_zero, List.cons.injEq, true_and]
    apply List.map_congr_left
    intro i _
    simp only [Function.comp, Nat.cast_succ]
    omega

theorem place_vals (vs : List LuaVal) :
    ∀ k : Int, (place k vs).map Prod.snd = vs := by
  induction vs with
  | nil => intro k; rfl
  | cons v vs ih => intro k; simp only [place, List.map_cons, ih]

theorem tableSize_le (l : List Cmd) : tableSize l ≤ 7 * l.length := by
  induction l with
  | nil => exact Nat.le_refl _
  | cons c l ih =>
    have hc : scalarCount c ≤ 6 := by cases c <;> simp [scalarCount]
    simp only [tableSize, List.map_cons, List.sum_cons, List.length_cons] at ih ⊢
    omega

theorem flatten_snoc (out : List Cmd) (c : Cmd) :
    flatten (out ++ [c]) = emit (flatten out) c := by
  simp [flatten, List.foldl_append]

theorem flatten_moveto (out : List Cmd) (p0 : FT_Vector) :
    flatten (moveto out p0) = Tab.moveto (flatten out).1 (flatten out).2 p0 :=
  flatten_snoc out _

theorem flatten_lineto (out : List Cmd) (p0 : FT_Vector) :
    flatten (lineto out p0) = Tab.lineto (flatten out).1 (flatten out).2 p0 :=
  flatten_snoc out _

theorem flatten_quadto (out : List Cmd) (p0 p1 : FT_Vector) :
    flatten (quadto out p0 p1) = Tab.quadto (flatten out).1 (flatten out).2 p0 p1 :=
  flatten_snoc out _

theorem flatten_cubicto (out : List Cmd) (p0 p1 p2 : FT_Vector) :
    flatten (cubicto out p0 p1 p2) = Tab.cubicto (flatten out).1 (flatten out).2 p0 p1 p2 :=
  flatten_snoc out _

theorem flatten_closepath (out : List Cmd) :
    flatten (closepath out) = Tab.closepath (flatten out).1 (flatten out).2 :=
  flatten_snoc out _

theorem flatten_keys (l : List Cmd) :
    (flatten l).1.map Prod.fst =
      (List.range (tableSize l)).map fun (i : Nat) => (i : Int) + 1 := by
  rw [flatten_eq]
  simp only []
  rw [place_keys, flatMap_cells_length]
  apply List.map_congr_left
  intro i _
  omega

/-- C16: every helper writes its tag and then its coordinates at the
consecutive indices from `cmdidx` on and returns `cmdidx + 1 +` its number of
scalars (2 for `moveto` and `lineto`, 4 for `quadto`, 6 for `cubicto`, 0 for
`closepath`); and when `copyglyphoutline` succeeds with the commands `l`, the
writes into the table are, in order, at the indices 1, 2, ..., N, where N is
the sum over `l` of one plus the scalar count, with the tag and coordinates of
each command in turn as values: no index in 1..N is left out, none is written
twice, `cmdidx` ends at N + 1, and N is at most seven times the number of
commands. -/
theorem C16_flattening (o : FT_Outline) (l : List Cmd) (h : copyglyphoutline o = .ok l) :
    (∀ (t : Table) (k : Int) (p0 : FT_Vector),
      Tab.moveto t k p0 =
        (t ++ [(k, .str "move_to_abs"), (k + 1, .int p0.x), (k + 2, .int p0.y)], k + 1 + 2)) ∧
    (∀ (t : Table) (k : Int) (p0 : FT_Vector),
      Tab.lineto t k p0 =
        (t ++ [(k, .str "line_to_abs"), (k + 1, .int p0.x), (k + 2, .int p0.y)], k + 1 + 2)) ∧
    (∀ (t : Table) (k : Int) (p0 p1 : FT_Vector),
      Tab.quadto t k p0 p1 =
        (t ++ [(k, .str "quad_to_abs"), (k + 1, .int p0.x), (k + 2, .int p0.y),
          (k + 3, .int p1.x), (k + 4, .int p1.y)], k + 1 + 4)) ∧
    (∀ (t : Table) (k : Int) (p0 p1 p2 : FT_Vector),
      Tab.cubicto t k p0 p1 p2 =
        (t ++ [(k, .str "cubic_to_abs"), (k + 1, .int p0.x), (k + 2, .int p0.y),
          (k + 3, .int p1.x), (k + 4, .int p1.y), (k + 5, .int p2.x), (k + 6, .int p2.y)],
          k + 1 + 6)) ∧
    (∀ (t : Table) (k : Int),
      Tab.closepath t k = (t ++ [(k, .str "close_path")], k + 1 + 0)) ∧
    copyglyphoutlineTab o = .ok (flatten l) ∧
    (flatten l).2 = (tableSize l : Int) + 1 ∧
    (flatten l).1.map Prod.fst = ((List.range (tableSize l)).map fun (i : Nat) => (i : Int) + 1) ∧
    (flatten l).1.map Prod.snd = l.flatMap cells ∧
    ((flatten l).1.map Prod.fst).Nodup ∧
    (∀ k : Int, k ∈ (flatten l).1.map Prod.fst ↔ 1 ≤ k ∧ k ≤ (tableSize l : Int)) ∧
    tableSize l ≤ 7 * l.length := by
  refine ⟨?_, ?_, ?_, ?_, ?_, ?_, ?_, flatten_keys l, ?_, ?_, ?_, tableSize_le l⟩
  · intro t k p0
    simp [Tab.moveto, rawseti]; omega
  · intro t k p0
    simp [Tab.lineto, rawseti]; omega
  · intro t k p0 p1
    simp [Tab.quadto, rawseti]; omega
  · intro t k p0 p1 p2
    simp [Tab.cubicto, rawseti]; omega
  · intro t k
    simp [Tab.closepath, rawseti]
  · unfold copyglyphoutlineTab
    rw [h]
    rfl
  · rw [flatten_eq]
    simp only []
    omega
  · rw [flatten_eq]
    exact place_vals _ _
  · rw [flatten_keys]
    refine (List.nodup_range _).map ?_
    intro a b hab
    simp only at hab
    omega
  · intro k
    rw [flatten_keys]
    simp only [List.mem_map, List.mem_range]
    constructor
    · rintro ⟨i, hi, rfl⟩
      omega
    · intro hk
      refine ⟨(k - 1).toNat, ?_, ?_⟩ <;> omega

/-- A contour of an on-curve point, a quadratic control and an on-curve point:
twelve cells, written at the indices 1 to 12. -/
theorem C16_flattening_witness :
    copyglyphoutlineTab (mkOutline [[(pt 0 0, 1), (pt 10 0, 0), (pt 10 10, 1)]]) =
      .ok ([(1, .str "move_to_abs"), (2, .int 0), (3, .int 0),
        (4, .str "quad_to_abs"), (5, .int 10), (6, .int 0), (7, .int 10), (8, .int 10),
        (9, .str "line_to_abs"), (10, .int 0), (11, .int 0),
        (12, .str "close_path")], 13) :=
  (C16_flattening (mkOutline [[(pt 0 0, 1), (pt 10 0, 0), (pt 10 10, 1)]])
    [Cmd.move_to_abs (pt 0 0), Cmd.quad_to_abs (pt 10 0) (pt 10 10), Cmd.line_to_abs (pt 0 0),
      Cmd.close_path] (by rfl)).2.2.2.2.2.1.trans (by rfl)

end LuaFreetype

namespace image

/-! ## Resizing the pixel buffer -/

theorem fault_ok_bind {α β : Type} (a : α) (f : α → Except Fault β) :
    ((Except.ok a : Except Fault α) >>= f) = f a := rfl

theorem fitsInt_of_range {v : Int} (h0 : 0 ≤ v) (h1 : v ≤ 2147483647) : fitsInt v = true := by
  unfold fitsInt
  simp only [Bool.and_eq_true, decide_eq_true_eq]
  omega

theorem toSize_of_range {v : Int} (h0 : 0 ≤ v) (h1 : v ≤ 2147483647) : toSize v = v.toNat := by
  unfold toSize
  rw [Int.emod_eq_of_lt h0 (by omega)]

theorem vresize_ok {F : Type} [Zero F] (v : List F) (n : Nat) (hn : n ≤ max_size) :
    ∃ r, vresize v n = .ok r ∧ r.length = n := by
  refine ⟨v.take n ++ List.replicate (n - v.length) 0, ?_, ?_⟩
  · unfold vresize
    rw [if_neg (by omega)]
  · simp only [List.length_append, List.length_take, List.length_replicate]
    omega

theorem pixel_range {x y width height : Int} (hx0 : 0 ≤ x) (hx : x < width) (hy0 : 0 ≤ y)
    (hy : y < height) : 0 ≤ y * width ∧ y * width + x < width * height := by
  have hw : 0 ≤ width := by omega
  have h1 : 0 ≤ y * width := mul_nonneg hy0 hw
  have h2 : (y + 1) * width ≤ height * width := mul_le_mul_of_nonneg_right (by omega) hw
  have h3 : (y + 1) * width = y * width + width := by ring
  have h4 : height * width = width * height := mul_comm _ _
  exact ⟨h1, by omega⟩

theorem vget_ok {F : Type} (v : List F) (i : Nat) (h : i < v.length) :
    ∃ a, vget v i = .ok a := by
  refine ⟨v[i], ?_⟩
  unfold vget
  rw [List.getElem?_eq_getElem h]

theorem vset_ok {F : Type} (v : List F) (i : Nat) (a : F) (h : i < v.length) :
    ∃ r, vset v i a = .ok r := by
  refine ⟨v.set i a, ?_⟩
  unfold vset
  rw [if_pos h]

theorem index_ok {F : Type} (s : RGBA F) {x y height : Int} (hx0 : 0 ≤ x) (hx : x < s.m_width)
    (hy0 : 0 ≤ y) (hy : y < height) (hfit : s.m_width * height ≤ 2147483647) :
    s.index x y = .ok (y * s.m_width + x).toNat := by
  obtain ⟨h1, h2⟩ := pixel_range hx0 hx hy0 hy
  unfold RGBA.index
  rw [fitsInt_of_range h1 (by omega), fitsInt_of_range (by omega) (by omega)]
  simp only [Bool.and_self, ↓reduceIte]
  rw [toSize_of_range (by omega) (by omega)]

theorem access_ok {F : Type} (s : RGBA F) {x y height : Int} (hx0 : 0 ≤ x) (hx : x < s.m_width)
    (hy0 : 0 ≤ y) (hy : y < height) (hfit : s.m_width * height ≤ 2147483647)
    (hr : s.m_red.length = (s.m_width * height).toNat)
    (hg : s.m_green.length = s.m_red.length) (hb : s.m_blue.length = s.m_red.length)
    (ha : s.m_alpha.length = s.m_red.length) :
    (∃ v, s.get x y = .ok v) ∧ (∃ v, s.getRGB x y = .ok v) ∧
      ∀ r g b a : F, ∃ t, s.set x y r g b a = .ok t := by
  obtain ⟨h1, h2⟩ := pixel_range hx0 hx hy0 hy
  have hi : (y * s.m_width + x).toNat < s.m_red.length := by omega
  obtain ⟨vr, hvr⟩ := vget_ok s.m_red _ hi
  obtain ⟨vg, hvg⟩ := vget_ok s.m_green _ (hg ▸ hi)
  obtain ⟨vb, hvb⟩ := vget_ok s.m_blue _ (hb ▸ hi)
  obtain ⟨va, hva⟩ := vget_ok s.m_alpha _ (ha ▸ hi)
  refine ⟨⟨(vr, vg, vb, va), ?_⟩, ⟨(vr, vg, vb), ?_⟩, ?_⟩
  · unfold RGBA.get
    rw [index_ok s hx0 hx hy0 hy hfit, fault_ok_bind, hvr, fault_ok_bind, hvg, fault_ok_bind,
      hvb, fault_ok_bind, hva, fault_ok_bind]
    rfl
  · unfold RGBA.getRGB
    rw [index_ok s hx0 hx hy0 hy hfit, fault_ok_bind, hvr, fault_ok_bind, hvg, fault_ok_bind,
      hvb, fault_ok_bind]
    rfl
  · intro r g b a
    obtain ⟨wr, hwr⟩ := vset_ok s.m_red _ r hi
    obtain ⟨wg, hwg⟩ := vset_ok s.m_green _ g (hg ▸ hi)
    obtain ⟨wb, hwb⟩ := vset_ok s.m_blue _ b (hb ▸ hi)
    obtain ⟨wa, hwa⟩ := vset_ok s.m_alpha _ a (ha ▸ hi)
    refine ⟨{ s with m_red := wr, m_green := wg, m_blue := wb, m_alpha := wa }, ?_⟩
    unfold RGBA.set
    rw [index_ok s hx0 hx hy0 hy hfit, fault_ok_bind, hwr, fault_ok_bind, hwg, fault_ok_bind,
      hwb, fault_ok_bind, hwa, fault_ok_bind]
    rfl

theorem resize_eq {F : Type} [Zero F] (s : RGBA F) (width height : Int)
    (hg : s.m_green.length = s.m_red.length) (hb : s.m_blue.length = s.m_red.length)
    (ha : s.m_alpha.length = s.m_red.length)
    (h0 : 0 ≤ width * height) (hfit : width * height ≤ 2147483647) :
    s.resize width height =
      if s.m_red.length < (width * height).toNat ∨ 2 * (width * height).toNat < s.m_red.length
      then
        .ok { m_width := width, m_height := height
              m_red := s.m_red.take (width * height).toNat ++
                List.replicate ((width * height).toNat - s.m_red.length) 0
              m_green := s.m_green.take (width * height).toNat ++
                List.replicate ((width * height).toNat - s.m_green.length) 0
              m_blue := s.m_blue.take (width * height).toNat ++
                List.replicate ((width * height).toNat - s.m_blue.length) 0
              m_alpha := s.m_alpha.take (width * height).toNat ++
                List.replicate ((width * height).toNat - s.m_alpha.length) 0 }
      else .ok s := by
  have hmax : ¬ max_size < (width * height).toNat := by
    unfold max_size
    omega
  have hmod : (2 * (width * height).toNat) % 18446744073709551616 = 2 * (width * height).toNat :=
    Nat.mod_eq_of_lt (by omega)
  unfold RGBA.resize
  simp only [fitsInt_of_range h0 hfit, toSize_of_range h0 hfit, hg, hb, ha, hmod, Bool.not_true,
    Bool.false_eq_true, ↓reduceIte, beq_self_eq_true, Bool.and_self, Bool.or_eq_true,
    decide_eq_true_eq, vresize, hmax]
  by_cases hc : s.m_red.length < (width * height).toNat ∨
      2 * (width * height).toNat < s.m_red.length
  · simp only [hc, ↓reduceIte]
    rfl
  · simp only [hc, ↓reduceIte]
    rfl

/-- C21, as stated, fails. The image of 4 by 4 pixels, made by `resize(4, 4)`
on a new image, has four vectors of length 16; `resize(3, 3)` leaves it as it
is, since 9 is neither above 16 nor below its half: `width()` and `height()`
stay 4 and the vectors keep the length 16, not 9. After `resize(1, 16)` on
the image of 16 by 1 pixels the pixel x = 0, y = 15 is outside the vectors
for `get` and `set`. On a new image `resize(5, 0)` leaves `width()` at 0, and
in `resize(65536, 65536)` the product of the two `int`s overflows. -/
theorem C21_resize_counterexample :
    (img44.m_green.length = img44.m_red.length ∧ img44.m_blue.length = img44.m_red.length ∧
      img44.m_alpha.length = img44.m_red.length) ∧
    (RGBA.empty : RGBA Int).resize 4 4 = .ok img44 ∧
    img44.resize 3 3 = .ok img44 ∧
    img44.width ≠ 3 ∧ img44.height ≠ 3 ∧ img44.m_red.length ≠ (3 * 3 : Int).toNat ∧
    (RGBA.empty : RGBA Int).resize 16 1 = .ok img16 ∧
    img16.resize 1 16 = .ok img16 ∧
    img16.get 0 15 = .error Fault.outOfRange ∧
    img16.set 0 15 1 1 1 1 = .error Fault.outOfRange ∧
    ((RGBA.empty : RGBA Int).resize 5 0 = .ok RGBA.empty ∧
      (RGBA.empty : RGBA Int).width ≠ 5) ∧
    (RGBA.empty : RGBA Int).resize 65536 65536 = .error Fault.intOverflow :=
  ⟨⟨by rfl, by rfl, by rfl⟩, by rfl, by rfl, by decide, by decide, by decide, by rfl, by rfl,
    by rfl, by rfl, ⟨by rfl, by decide⟩, by rfl⟩

/-- C21, amended: for an image whose four vectors have the same length and
`width`, `height` at least 0 with a product within `int`, `resize(width,
height)` returns; the four vectors have the same length afterwards, at least
`width*height`, so that every `y*width+x` with `0 ≤ x < width` and
`0 ≤ y < height` is below it. When `width*height` is above the old length or
below its half, `width()` and `height()` are the arguments, the length is
`width*height` exactly, and `get` and `set` succeed at every such pixel;
otherwise the four vectors are left as they were. -/
theorem C21_resize {F : Type} [Zero F] (s : RGBA F) (width height : Int)
    (hg : s.m_green.length = s.m_red.length) (hb : s.m_blue.length = s.m_red.length)
    (ha : s.m_alpha.length = s.m_red.length)
    (hw : 0 ≤ width) (hh : 0 ≤ height) (hfit : width * height ≤ 2147483647) :
    ∃ t : RGBA F, s.resize width height = .ok t ∧
      (t.m_green.length = t.m_red.length ∧ t.m_blue.length = t.m_red.length ∧
        t.m_alpha.length = t.m_red.length) ∧
      (width * height).toNat ≤ t.m_red.length ∧
      (∀ x y : Int, 0 ≤ x → x < width → 0 ≤ y → y < height →
        0 ≤ y * width + x ∧ (y * width + x).toNat < t.m_red.length) ∧
      (s.m_red.length < (width * height).toNat ∨ 2 * (width * height).toNat < s.m_red.length →
        t.width = width ∧ t.height = height ∧ t.m_red.length = (width * height).toNat ∧
        ∀ x y : Int, 0 ≤ x → x < width → 0 ≤ y → y < height →
          (∃ v, t.get x y = .ok v) ∧ (∃ v, t.getRGB x y = .ok v) ∧
            ∀ r g b a : F, ∃ u, t.set x y r g b a = .ok u) ∧
      (¬ (s.m_red.length < (width * height).toNat ∨
          2 * (width * height).toNat < s.m_red.length) →
        t.m_red = s.m_red ∧ t.m_green = s.m_green ∧ t.m_blue = s.m_blue ∧
          t.m_alpha = s.m_alpha) := by
  have h0 : 0 ≤ width * height := mul_nonneg hw hh
  have hpix : ∀ (n : Nat), (width * height).toNat ≤ n → ∀ x y : Int, 0 ≤ x → x < width →
      0 ≤ y → y < height → 0 ≤ y * width + x ∧ (y * width + x).toNat < n := by
    intro n hn x y hx0 hx hy0 hy
    obtain ⟨h1, h2⟩ := pixel_range hx0 hx hy0 hy
    omega
  have hlen : ∀ v : List F, v.length = s.m_red.length →
      (v.take (width * height).toNat ++
        List.replicate ((width * height).toNat - v.length) 0).length =
        (width * height).toNat := by
    intro v _
    simp only [List.length_append, List.length_take, List.length_replicate]
    omega
  rw [resize_eq s width height hg hb ha h0 hfit]
  by_cases hc : s.m_red.length < (width * height).toNat ∨
      2 * (width * height).toNat < s.m_red.length
  · rw [if_pos hc]
    refine ⟨_, rfl, ?_, ?_, ?_, ?_, ?_⟩
    · simp only [hlen _ hg, hlen _ hb, hlen _ ha, hlen _ rfl, and_self]
    · simp only [hlen _ rfl, le_refl]
    · exact hpix _ (by simp only [hlen _ rfl, le_refl])
    · intro _
      refine ⟨rfl, rfl, hlen _ rfl, ?_⟩
      intro x y hx0 hx hy0 hy
      refine access_ok _ hx0 hx hy0 hy hfit ?_ ?_ ?_ ?_
      · exact hlen _ rfl
      · simp only [hlen _ hg, hlen _ rfl]
      · simp only [hlen _ hb, hlen _ rfl]
      · simp only [hlen _ ha, hlen _ rfl]
    · intro hn
      exact (hn hc).elim
  · rw [if_neg hc]
    have hle : (width * height).toNat ≤ s.m_red.length := by omega
    refine ⟨s, rfl, ⟨hg, hb, ha⟩, hle, hpix _ hle, ?_, ?_⟩
    · intro h
      exact (hc h).elim
    · intro _
      exact ⟨rfl, rfl, rfl, rfl⟩

/-- A new image resized to 4 by 4, and the image of 4 by 4 pixels resized to
3 by 3 and to 2 by 3. -/
theorem C21_resize_witness :
    (∃ t : RGBA Int, (RGBA.empty : RGBA Int).resize 4 4 = .ok t ∧ t.m_red.length = 16) ∧
    (∃ t : RGBA Int, img44.resize 3 3 = .ok t ∧ 9 ≤ t.m_red.length) ∧
    (∃ t : RGBA Int, img44.resize 2 3 = .ok t ∧ t.width = 2 ∧ t.height = 3 ∧
      t.m_red.length = 6) :=
  ⟨(C21_resize (RGBA.empty : RGBA Int) 4 4 rfl rfl rfl (by decide) (by decide)
      (by decide)).imp fun _ h => ⟨h.1, (h.2.2.2.2.1 (by decide)).2.2.1⟩,
    (C21_resize img44 3 3 rfl rfl rfl (by decide) (by decide) (by decide)).imp
      fun _ h => ⟨h.1, h.2.2.1⟩,
    (C21_resize img44 2 3 rfl rfl rfl (by decide) (by decide) (by decide)).imp
      fun _ h => ⟨h.1, (h.2.2.2.2.1 (by decide)).1, (h.2.2.2.2.1 (by decide)).2.1,
        (h.2.2.2.2.1 (by decide)).2.2.1⟩⟩

end image
